import Mathlib

/-!
# Verification of `scripts/media-sync.py`

A shallow embedding of the media-sync script.  Machine-level effects
(HTTP, the clock, the filesystem) are modelled as oracles supplied in an
environment; the control flow, counters, delays and path computations are
translated directly from the source.  Delay amounts are `ℚ` (the script
computes them with `float`; all arithmetic involved is exact on the values
the claims mention).  File paths are modelled as the pair of arguments the
script passes to `Path./` (directory, file name), relative to
`INSTALL_DIR`.
-/

/-! ## Constants (media-sync.py lines 34-43) -/

def SOURCES : List String := ["elizaos", "hyperfy"]

def MIN_FREE_SPACE_MB : Nat := 500

def MAX_RETRY_ATTEMPTS : Nat := 8

def MAX_RETRY_AFTER_SECONDS : ℚ := 60

def BASE_BACKOFF_SECONDS : ℚ := 1

/-! ## Retry logic: `make_request_with_retry` and `download_file_with_retry` -/

/-- The `Retry-After` header of a 429 response: absent (so
`headers.get('Retry-After', '5')` yields the default `'5'`), present but
not parsable by `float`, or present with numeric value `q`. -/
inductive RetryAfter
  | absent
  | malformed
  | value (q : ℚ)
deriving DecidableEq, Repr

/-- An error raised by one `urlopen` attempt: an `HTTPError` with a status
code (carrying its `Retry-After` header, read only when the code is 429),
or a network-level error (`URLError`, `TimeoutError`, `OSError`). -/
inductive ReqError
  | httpError (code : Nat) (retryAfter : RetryAfter)
  | netError
deriving DecidableEq, Repr

/-- Outcome of one attempt inside `make_request_with_retry`: success
(carrying the parsed advisory headers `X-RateLimit-Remaining` and
`X-RateLimit-Reset-After`; `none` means absent or unparsable, matching the
`except (ValueError, TypeError): pass`), or a raised error. -/
inductive Attempt
  | success (remaining : Option Int) (resetAfter : Option ℚ)
  | failure (e : ReqError)
deriving DecidableEq, Repr

/-- Result of `make_request_with_retry`: the data was returned, or an
error was raised.  `raisedMaxRetries` is the `Exception(f"Max retries ...")`
raised when the loop body never ran (`max_retries = 0`, `last_error` still
`None`). -/
inductive ReqOutcome
  | ok
  | raised (e : ReqError)
  | raisedMaxRetries
deriving DecidableEq, Repr

/-- The delay computed for a 429 response (lines 112-116 and 161-165):
`min(float(retry_after) + 1, MAX_RETRY_AFTER_SECONDS)`, with the default
header value `'5'` when absent and `MAX_RETRY_AFTER_SECONDS` when `float`
raises. -/
def retryAfterDelay (ra : RetryAfter) : ℚ :=
  match ra with
  | .absent => min ((5 : ℚ) + 1) MAX_RETRY_AFTER_SECONDS
  | .malformed => MAX_RETRY_AFTER_SECONDS
  | .value q => min (q + 1) MAX_RETRY_AFTER_SECONDS

/-- The exponential backoff delay `(2 ** attempt) + BASE_BACKOFF_SECONDS`
used for 5xx/408 and network errors (lines 124, 135, 175, 184). -/
def backoffDelay (attempt : Nat) : ℚ :=
  (2 : ℚ) ^ attempt + BASE_BACKOFF_SECONDS

/-- The preemptive sleep on a successful response (lines 96-103): when both
advisory headers parse and `remaining <= 0`, sleep
`min(float(reset_after) + 1, MAX_RETRY_AFTER_SECONDS)`; any parse failure
is swallowed by the `except ... pass`. -/
def preemptiveSleeps (remaining : Option Int) (resetAfter : Option ℚ) : List ℚ :=
  match remaining, resetAfter with
  | some n, some q => if n ≤ 0 then [min (q + 1) MAX_RETRY_AFTER_SECONDS] else []
  | _, _ => []

/-- A run of a retrying loop: its outcome, the `time.sleep` amounts in
order, and how many attempts (`urlopen` calls) were made. -/
structure ReqRun where
  outcome : ReqOutcome
  sleeps : List ℚ
  attemptsMade : Nat
deriving DecidableEq, Repr

/-- The `for attempt in range(max_retries)` loop of
`make_request_with_retry` (lines 85-141), with `fuel` the number of loop
iterations left and `attempt` the current index.  The attempt outcomes are
supplied by `oracle`. -/
def makeRequestLoop (oracle : Nat → Attempt) (attempt : Nat) (fuel : Nat)
    (lastErr : Option ReqError) : ReqRun :=
  match fuel with
  | 0 =>
    match lastErr with
    | some e => ⟨.raised e, [], 0⟩
    | none => ⟨.raisedMaxRetries, [], 0⟩
  | fuel + 1 =>
    match oracle attempt with
    | .success rem reset => ⟨.ok, preemptiveSleeps rem reset, 1⟩
    | .failure e =>
      match e with
      | .httpError code ra =>
        if code = 429 then
          let r := makeRequestLoop oracle (attempt + 1) fuel (some e)
          ⟨r.outcome, retryAfterDelay ra :: r.sleeps, r.attemptsMade + 1⟩
        else if 500 ≤ code ∨ code = 408 then
          let r := makeRequestLoop oracle (attempt + 1) fuel (some e)
          ⟨r.outcome, backoffDelay attempt :: r.sleeps, r.attemptsMade + 1⟩
        else
          ⟨.raised e, [], 1⟩
      | .netError =>
        let r := makeRequestLoop oracle (attempt + 1) fuel (some e)
        ⟨r.outcome, backoffDelay attempt :: r.sleeps, r.attemptsMade + 1⟩

/-- `make_request_with_retry` (lines 68-141). -/
def make_request_with_retry (oracle : Nat → Attempt) (max_retries : Nat) : ReqRun :=
  makeRequestLoop oracle 0 max_retries none

/-- Outcome of one attempt inside `download_file_with_retry` (no advisory
headers are read there). -/
inductive DlAttempt
  | success
  | httpError (code : Nat) (retryAfter : RetryAfter)
  | netError
deriving DecidableEq, Repr

/-- A run of `download_file_with_retry`: the returned boolean, the sleeps,
and the number of attempts made. -/
structure DlRun where
  result : Bool
  sleeps : List ℚ
  attemptsMade : Nat
deriving DecidableEq, Repr

/-- The `for attempt in range(max_retries)` loop of
`download_file_with_retry` (lines 151-190); falling off the loop returns
`False` (line 190). -/
def downloadLoop (oracle : Nat → DlAttempt) (attempt : Nat) (fuel : Nat) : DlRun :=
  match fuel with
  | 0 => ⟨false, [], 0⟩
  | fuel + 1 =>
    match oracle attempt with
    | .success => ⟨true, [], 1⟩
    | .httpError code ra =>
      if code = 429 then
        let r := downloadLoop oracle (attempt + 1) fuel
        ⟨r.result, retryAfterDelay ra :: r.sleeps, r.attemptsMade + 1⟩
      else if code = 404 then
        ⟨false, [], 1⟩
      else if 500 ≤ code ∨ code = 408 then
        let r := downloadLoop oracle (attempt + 1) fuel
        ⟨r.result, backoffDelay attempt :: r.sleeps, r.attemptsMade + 1⟩
      else
        ⟨false, [], 1⟩
    | .netError =>
      let r := downloadLoop oracle (attempt + 1) fuel
      ⟨r.result, backoffDelay attempt :: r.sleeps, r.attemptsMade + 1⟩

/-- `download_file_with_retry` (lines 144-190). -/
def download_file_with_retry (oracle : Nat → DlAttempt) (max_retries : Nat) : DlRun :=
  downloadLoop oracle 0 max_retries

/-- An error code the request loop retries on: 429, 5xx or 408 for HTTP
errors, and every network error. -/
def retriableReq : ReqError → Bool
  | .httpError code _ => decide (code = 429) || decide (500 ≤ code) || decide (code = 408)
  | .netError => true

/-- An attempt outcome the download loop retries on. -/
def retriableDl : DlAttempt → Bool
  | .httpError code _ => decide (code = 429) || decide (500 ≤ code) || decide (code = 408)
  | .netError => true
  | .success => false

/-! ## The `sync` command (`cmd_sync`, lines 222-315) -/

/-- A manifest entry: `{"url": ..., "unique_name": ..., "size": ...}`
(lines 258-260; `size` defaults to 0 when absent, already folded in). -/
structure Entry where
  url : String
  unique_name : String
  size : Nat
deriving DecidableEq, Repr

/-- A file path as the script builds it: the directory passed to `Path./`
and the file name, both relative to `INSTALL_DIR`. -/
structure MPath where
  dir : String
  name : String
deriving DecidableEq, Repr

/-- The result of fetching `{BASE_URL}/{source}/media-manifest.json`
(lines 246-251): a fetch error (source is skipped with `continue`) or the
`files` list. -/
inductive Manifest
  | fetchError
  | files (entries : List Entry)
deriving DecidableEq, Repr

/-- The arguments of the `sync` subcommand. -/
structure SyncArgs where
  dry_run : Bool
  verbose : Bool
  min_free : Nat
deriving DecidableEq, Repr

/-- The environment a sync run interacts with: the manifest served for
each source, the set of files present before the run, the free bytes
reported by the k-th `shutil.disk_usage` call, and the boolean result of
`download_file_with_retry` for a url/destination pair. -/
structure SyncEnv where
  manifest : String → Manifest
  fs0 : List MPath
  free : Nat → Nat
  dl : String → MPath → Bool

/-- Observable events of a sync run, in program order. -/
inductive SyncEvent
  | fetchManifest (source : String) (ok : Bool)
  | skipped (source : String) (e : Entry)
  | wouldDownload (source : String) (e : Entry)
  | diskCheck (freeBytes : Nat) (ok : Bool)
  | diskStop (freeBytes : Nat)
  | download (url : String) (dest : MPath) (ok : Bool)
deriving DecidableEq, Repr

/-- The `stats` dict of `cmd_sync` (line 227). -/
structure Stats where
  downloaded : Nat
  skipped : Nat
  failed : Nat
  disk_stopped : Bool
deriving DecidableEq, Repr

/-- The evolving state of a sync run. -/
structure SyncState where
  stats : Stats
  fs : List MPath
  checks : Nat
  trace : List SyncEvent
  files_to_download : Nat
  total_download_size : Nat
deriving DecidableEq, Repr

/-- `min_free_mb * 1024 * 1024` (line 218). -/
def minFreeBytes (mb : Nat) : Nat := mb * 1024 * 1024

/-- `output_dir = INSTALL_DIR / f"{source}-media"` (line 241), relative to
`INSTALL_DIR`. -/
def outputDir (source : String) : String := source ++ "-media"

/-- `dest = output_dir / filename` (line 263). -/
def destOf (source : String) (name : String) : MPath :=
  ⟨outputDir source, name⟩

/-- `dest.exists()` (line 266) against the current file set. -/
def pathExists (st : SyncState) (p : MPath) : Bool := st.fs.contains p

/-- The body of `for entry in files` (lines 257-292).  A failed disk-space
check sets `disk_stopped` and returns without recursing, modelling
`break`. -/
def processEntries (args : SyncArgs) (env : SyncEnv) (source : String) :
    SyncState → List Entry → SyncState
  | st, [] => st
  | st, e :: rest =>
    let dest := destOf source e.unique_name
    if pathExists st dest then
      processEntries args env source
        { st with
          stats := { st.stats with skipped := st.stats.skipped + 1 }
          trace := st.trace ++ [.skipped source e] } rest
    else if args.dry_run then
      processEntries args env source
        { st with
          trace := st.trace ++ [.wouldDownload source e]
          files_to_download := st.files_to_download + 1
          total_download_size := st.total_download_size + e.size } rest
    else
      let freeB := env.free st.checks
      if minFreeBytes args.min_free ≤ freeB then
        let r := env.dl e.url dest
        processEntries args env source
          { st with
            stats :=
              if r then { st.stats with downloaded := st.stats.downloaded + 1 }
              else { st.stats with failed := st.stats.failed + 1 }
            fs := if r then st.fs ++ [dest] else st.fs
            checks := st.checks + 1
            trace := st.trace ++ [.diskCheck freeB true, .download e.url dest r] } rest
      else
        { st with
          stats := { st.stats with disk_stopped := true }
          checks := st.checks + 1
          trace := st.trace ++ [.diskCheck freeB false, .diskStop freeB] }

/-- One iteration of `for source in SOURCES` (lines 239-295).  The check of
`stats["disk_stopped"]` at line 294 breaks out of the source loop; it is
modelled by skipping every later source once the flag is set. -/
def processSource (args : SyncArgs) (env : SyncEnv) (st : SyncState)
    (source : String) : SyncState :=
  if st.stats.disk_stopped then st
  else
    match env.manifest source with
    | .fetchError => { st with trace := st.trace ++ [.fetchManifest source false] }
    | .files entries =>
      processEntries args env source
        { st with trace := st.trace ++ [.fetchManifest source true] } entries

/-- The observable result of `cmd_sync`: its return value (the process
exit code), the final `stats`, the event trace, the final file set, and
the dry-run tallies. -/
structure SyncResult where
  exitCode : Nat
  stats : Stats
  trace : List SyncEvent
  finalFs : List MPath
  files_to_download : Nat
  total_download_size : Nat
deriving DecidableEq, Repr

/-- The summary and return value of `cmd_sync` (lines 297-315): exit code
2 when stopped by low disk space, else 0 when nothing failed, else 1. -/
def syncFinish (st : SyncState) : SyncResult :=
  ⟨if st.stats.disk_stopped then 2 else if st.stats.failed = 0 then 0 else 1,
    st.stats, st.trace, st.fs, st.files_to_download, st.total_download_size⟩

/-- `cmd_sync` (lines 222-315): initial disk-space check (the first
`shutil.disk_usage` reading, index 0), early `return 1` when it fails on a
non-dry run, then the source loop and the exit code computation of lines
313-315. -/
def cmd_sync (args : SyncArgs) (env : SyncEnv) : SyncResult :=
  if !(minFreeBytes args.min_free ≤ env.free 0 : Bool) && !args.dry_run then
    ⟨1, ⟨0, 0, 0, false⟩,
      [.diskCheck (env.free 0) (minFreeBytes args.min_free ≤ env.free 0 : Bool)],
      env.fs0, 0, 0⟩
  else
    syncFinish (SOURCES.foldl (processSource args env)
      { stats := ⟨0, 0, 0, false⟩
        fs := env.fs0
        checks := 1
        trace := [.diskCheck (env.free 0)
          (minFreeBytes args.min_free ≤ env.free 0 : Bool)]
        files_to_download := 0
        total_download_size := 0 })

/-! ## Lemmas about the retry loops -/

theorem makeRequestLoop_attempts_le (oracle : Nat → Attempt) :
    ∀ fuel attempt lastErr,
      (makeRequestLoop oracle attempt fuel lastErr).attemptsMade ≤ fuel := by
  intro fuel
  induction fuel with
  | zero =>
    intro attempt lastErr
    cases lastErr <;> simp [makeRequestLoop]
  | succ n ih =>
    intro attempt lastErr
    cases h : oracle attempt with
    | success rem reset => simp [makeRequestLoop, h]
    | failure e =>
      cases e with
      | httpError code ra =>
        by_cases h429 : code = 429
        · subst h429
          have := ih (attempt + 1) (some (ReqError.httpError 429 ra))
          simp [makeRequestLoop, h]
          omega
        · by_cases h5 : 500 ≤ code ∨ code = 408
          · have := ih (attempt + 1) (some (ReqError.httpError code ra))
            simp [makeRequestLoop, h, h429, h5]
            omega
          · simp [makeRequestLoop, h, h429, h5]
      | netError =>
        have := ih (attempt + 1) (some ReqError.netError)
        simp [makeRequestLoop, h]
        omega

theorem makeRequestLoop_attempts_pos (oracle : Nat → Attempt) (fuel attempt : Nat)
    (lastErr : Option ReqError) (h : 0 < fuel) :
    1 ≤ (makeRequestLoop oracle attempt fuel lastErr).attemptsMade := by
  cases fuel with
  | zero => omega
  | succ n =>
    cases h' : oracle attempt with
    | success rem reset => simp [makeRequestLoop, h']
    | failure e =>
      cases e with
      | httpError code ra =>
        by_cases h429 : code = 429
        · subst h429
          simp [makeRequestLoop, h']
        · by_cases h5 : 500 ≤ code ∨ code = 408
          · simp [makeRequestLoop, h', h429, h5]
          · simp [makeRequestLoop, h', h429, h5]
      | netError =>
        simp [makeRequestLoop, h']

theorem makeRequestLoop_retries_retriable (oracle : Nat → Attempt) :
    ∀ fuel attempt lastErr j,
      j + 1 < (makeRequestLoop oracle attempt fuel lastErr).attemptsMade →
      ∃ e, oracle (attempt + j) = .failure e ∧ retriableReq e = true := by
  intro fuel
  induction fuel with
  | zero =>
    intro attempt lastErr j hj
    cases lastErr <;> simp [makeRequestLoop] at hj
  | succ n ih =>
    intro attempt lastErr j hj
    cases h : oracle attempt with
    | success rem reset => simp [makeRequestLoop, h] at hj
    | failure e =>
      cases e with
      | httpError code ra =>
        by_cases h429 : code = 429
        · subst h429
          simp [makeRequestLoop, h] at hj
          cases j with
          | zero => exact ⟨_, h, by simp [retriableReq]⟩
          | succ j' =>
            have := ih (attempt + 1) (some (ReqError.httpError 429 ra)) j' (by omega)
            rw [show attempt + (j' + 1) = attempt + 1 + j' by omega]
            exact this
        · by_cases h5 : 500 ≤ code ∨ code = 408
          · simp [makeRequestLoop, h, h429, h5] at hj
            cases j with
            | zero =>
              refine ⟨_, h, ?_⟩
              simp [retriableReq]
              omega
            | succ j' =>
              have := ih (attempt + 1) (some (ReqError.httpError code ra)) j' (by omega)
              rw [show attempt + (j' + 1) = attempt + 1 + j' by omega]
              exact this
          · simp [makeRequestLoop, h, h429, h5] at hj
      | netError =>
        simp [makeRequestLoop, h] at hj
        cases j with
        | zero => exact ⟨_, h, by simp [retriableReq]⟩
        | succ j' =>
          have := ih (attempt + 1) (some ReqError.netError) j' (by omega)
          rw [show attempt + (j' + 1) = attempt + 1 + j' by omega]
          exact this

theorem retryAfterDelay_le (ra : RetryAfter) :
    retryAfterDelay ra ≤ MAX_RETRY_AFTER_SECONDS := by
  cases ra with
  | absent => exact min_le_right _ _
  | malformed => exact le_refl _
  | value q => exact min_le_right _ _

theorem preemptiveSleeps_le (rem : Option Int) (reset : Option ℚ) :
    ∀ d ∈ preemptiveSleeps rem reset, d ≤ MAX_RETRY_AFTER_SECONDS := by
  intro d hd
  cases rem with
  | none => simp [preemptiveSleeps] at hd
  | some n =>
    cases reset with
    | none => simp [preemptiveSleeps] at hd
    | some q =>
      simp only [preemptiveSleeps] at hd
      by_cases hn : n ≤ 0
      · simp [hn] at hd
        subst hd
        exact min_le_right _ _
      · simp [hn] at hd

theorem makeRequestLoop_sleeps_bound (oracle : Nat → Attempt) :
    ∀ fuel attempt lastErr d,
      d ∈ (makeRequestLoop oracle attempt fuel lastErr).sleeps →
      d ≤ MAX_RETRY_AFTER_SECONDS ∨
        ∃ k, attempt ≤ k ∧ k < attempt + fuel ∧ d = backoffDelay k := by
  intro fuel
  induction fuel with
  | zero =>
    intro attempt lastErr d hd
    cases lastErr <;> simp [makeRequestLoop] at hd
  | succ n ih =>
    intro attempt lastErr d hd
    cases h : oracle attempt with
    | success rem reset =>
      simp only [makeRequestLoop, h] at hd
      exact Or.inl (preemptiveSleeps_le rem reset d hd)
    | failure e =>
      cases e with
      | httpError code ra =>
        by_cases h429 : code = 429
        · subst h429
          simp [makeRequestLoop, h] at hd
          rcases hd with hd | hd
          · exact Or.inl (hd ▸ retryAfterDelay_le ra)
          · rcases ih (attempt + 1) _ d hd with h1 | ⟨k, hk1, hk2, hk3⟩
            · exact Or.inl h1
            · exact Or.inr ⟨k, by omega, by omega, hk3⟩
        · by_cases h5 : 500 ≤ code ∨ code = 408
          · simp [makeRequestLoop, h, h429, h5] at hd
            rcases hd with hd | hd
            · exact Or.inr ⟨attempt, le_refl _, by omega, hd⟩
            · rcases ih (attempt + 1) _ d hd with h1 | ⟨k, hk1, hk2, hk3⟩
              · exact Or.inl h1
              · exact Or.inr ⟨k, by omega, by omega, hk3⟩
          · simp [makeRequestLoop, h, h429, h5] at hd
      | netError =>
        simp [makeRequestLoop, h] at hd
        rcases hd with hd | hd
        · exact Or.inr ⟨attempt, le_refl _, by omega, hd⟩
        · rcases ih (attempt + 1) _ d hd with h1 | ⟨k, hk1, hk2, hk3⟩
          · exact Or.inl h1
          · exact Or.inr ⟨k, by omega, by omega, hk3⟩

theorem makeRequestLoop_all_fail (oracle : Nat → Attempt) :
    ∀ fuel attempt lastErr,
      0 < fuel →
      (∀ j, j < fuel → ∃ e, oracle (attempt + j) = .failure e) →
      ∃ n e, (makeRequestLoop oracle attempt fuel lastErr).attemptsMade = n ∧
        0 < n ∧ n ≤ fuel ∧ oracle (attempt + (n - 1)) = .failure e ∧
        (makeRequestLoop oracle attempt fuel lastErr).outcome = .raised e := by
  intro fuel
  induction fuel with
  | zero => intro attempt lastErr h; omega
  | succ n ih =>
    intro attempt lastErr _ hall
    obtain ⟨e0, he0⟩ := hall 0 (by omega)
    rw [Nat.add_zero] at he0
    cases e0 with
    | httpError code ra =>
      by_cases h429 : code = 429
      · subst h429
        rcases Nat.eq_zero_or_pos n with hn | hn
        · subst hn
          refine ⟨1, .httpError 429 ra, ?_⟩
          simp [makeRequestLoop, he0]
        · obtain ⟨m, e', hm, hm0, hmn, hor, hout⟩ :=
            ih (attempt + 1) (some (ReqError.httpError 429 ra)) hn
              (fun j hj => by
                have := hall (j + 1) (by omega)
                rwa [show attempt + (j + 1) = attempt + 1 + j by omega] at this)
          refine ⟨m + 1, e', ?_⟩
          simp only [makeRequestLoop, he0, if_pos rfl]
          refine ⟨by simp [hm], by omega, by omega, ?_, by simp [hout]⟩
          rwa [show attempt + (m + 1 - 1) = attempt + 1 + (m - 1) by omega]
      · by_cases h5 : 500 ≤ code ∨ code = 408
        · rcases Nat.eq_zero_or_pos n with hn | hn
          · subst hn
            refine ⟨1, .httpError code ra, ?_⟩
            simp [makeRequestLoop, he0, h429, h5]
          · obtain ⟨m, e', hm, hm0, hmn, hor, hout⟩ :=
              ih (attempt + 1) (some (ReqError.httpError code ra)) hn
                (fun j hj => by
                  have := hall (j + 1) (by omega)
                  rwa [show attempt + (j + 1) = attempt + 1 + j by omega] at this)
            refine ⟨m + 1, e', ?_⟩
            simp only [makeRequestLoop, he0, if_neg h429, if_pos h5]
            refine ⟨by simp [hm], by omega, by omega, ?_, by simp [hout]⟩
            rwa [show attempt + (m + 1 - 1) = attempt + 1 + (m - 1) by omega]
        · refine ⟨1, .httpError code ra, ?_⟩
          simp [makeRequestLoop, he0, h429, h5]
    | netError =>
      rcases Nat.eq_zero_or_pos n with hn | hn
      · subst hn
        refine ⟨1, .netError, ?_⟩
        simp [makeRequestLoop, he0]
      · obtain ⟨m, e', hm, hm0, hmn, hor, hout⟩ :=
          ih (attempt + 1) (some ReqError.netError) hn
            (fun j hj => by
              have := hall (j + 1) (by omega)
              rwa [show attempt + (j + 1) = attempt + 1 + j by omega] at this)
        refine ⟨m + 1, e', ?_⟩
        simp only [makeRequestLoop, he0]
        refine ⟨by simp [hm], by omega, by omega, ?_, by simp [hout]⟩
        rwa [show attempt + (m + 1 - 1) = attempt + 1 + (m - 1) by omega]

theorem makeRequestLoop_reach429 (oracle : Nat → Attempt) :
    ∀ k fuel attempt lastErr ra,
      (∀ j, j < k → ∃ e, oracle (attempt + j) = .failure e ∧ retriableReq e = true) →
      oracle (attempt + k) = .failure (.httpError 429 ra) →
      k + 1 < fuel →
      (makeRequestLoop oracle attempt fuel lastErr).sleeps.get? k =
          some (retryAfterDelay ra) ∧
        k + 2 ≤ (makeRequestLoop oracle attempt fuel lastErr).attemptsMade := by
  intro k
  induction k with
  | zero =>
    intro fuel attempt lastErr ra _ hk hfuel
    rw [Nat.add_zero] at hk
    cases fuel with
    | zero => omega
    | succ n =>
      have hpos : 1 ≤ (makeRequestLoop oracle (attempt + 1) n
          (some (ReqError.httpError 429 ra))).attemptsMade :=
        makeRequestLoop_attempts_pos oracle n (attempt + 1) _ (by omega)
      simp [makeRequestLoop, hk]
      omega
  | succ k' ih =>
    intro fuel attempt lastErr ra hprev hk hfuel
    cases fuel with
    | zero => omega
    | succ n =>
      obtain ⟨e0, he0, hr0⟩ := hprev 0 (by omega)
      rw [Nat.add_zero] at he0
      have hshift : ∀ j, j < k' →
          ∃ e, oracle (attempt + 1 + j) = .failure e ∧ retriableReq e = true := by
        intro j hj
        have := hprev (j + 1) (by omega)
        rwa [show attempt + (j + 1) = attempt + 1 + j by omega] at this
      have hk' : oracle (attempt + 1 + k') = .failure (.httpError 429 ra) := by
        rwa [show attempt + (k' + 1) = attempt + 1 + k' by omega] at hk
      cases e0 with
      | httpError code ra0 =>
        by_cases h429 : code = 429
        · subst h429
          obtain ⟨hs, ha⟩ := ih n (attempt + 1) (some (ReqError.httpError 429 ra0))
            ra hshift hk' (by omega)
          have hsl : (makeRequestLoop oracle attempt (n + 1) lastErr).sleeps =
              retryAfterDelay ra0 :: (makeRequestLoop oracle (attempt + 1) n
                (some (ReqError.httpError 429 ra0))).sleeps := by
            simp [makeRequestLoop, he0]
          have hmade : (makeRequestLoop oracle attempt (n + 1) lastErr).attemptsMade =
              (makeRequestLoop oracle (attempt + 1) n
                (some (ReqError.httpError 429 ra0))).attemptsMade + 1 := by
            simp [makeRequestLoop, he0]
          rw [hsl, hmade]
          exact ⟨by simpa using hs, by omega⟩
        · have h5 : 500 ≤ code ∨ code = 408 := by
            simp [retriableReq, h429] at hr0
            tauto
          obtain ⟨hs, ha⟩ := ih n (attempt + 1) (some (ReqError.httpError code ra0))
            ra hshift hk' (by omega)
          have hsl : (makeRequestLoop oracle attempt (n + 1) lastErr).sleeps =
              backoffDelay attempt :: (makeRequestLoop oracle (attempt + 1) n
                (some (ReqError.httpError code ra0))).sleeps := by
            simp [makeRequestLoop, he0, h429, h5]
          have hmade : (makeRequestLoop oracle attempt (n + 1) lastErr).attemptsMade =
              (makeRequestLoop oracle (attempt + 1) n
                (some (ReqError.httpError code ra0))).attemptsMade + 1 := by
            simp [makeRequestLoop, he0, h429, h5]
          rw [hsl, hmade]
          exact ⟨by simpa using hs, by omega⟩
      | netError =>
        obtain ⟨hs, ha⟩ := ih n (attempt + 1) (some ReqError.netError)
          ra hshift hk' (by omega)
        have hsl : (makeRequestLoop oracle attempt (n + 1) lastErr).sleeps =
            backoffDelay attempt :: (makeRequestLoop oracle (attempt + 1) n
              (some ReqError.netError)).sleeps := by
          simp [makeRequestLoop, he0]
        have hmade : (makeRequestLoop oracle attempt (n + 1) lastErr).attemptsMade =
            (makeRequestLoop oracle (attempt + 1) n
              (some ReqError.netError)).attemptsMade + 1 := by
          simp [makeRequestLoop, he0]
        rw [hsl, hmade]
        exact ⟨by simpa using hs, by omega⟩

/-- Whether a download attempt succeeded. -/
def isDlSuccess : DlAttempt → Bool
  | .success => true
  | _ => false

theorem downloadLoop_attempts_le (oracle : Nat → DlAttempt) :
    ∀ fuel attempt, (downloadLoop oracle attempt fuel).attemptsMade ≤ fuel := by
  intro fuel
  induction fuel with
  | zero => intro attempt; simp [downloadLoop]
  | succ n ih =>
    intro attempt
    cases h : oracle attempt with
    | success => simp [downloadLoop, h]
    | httpError code ra =>
      by_cases h429 : code = 429
      · subst h429
        have := ih (attempt + 1)
        simp [downloadLoop, h]
        omega
      · by_cases h404 : code = 404
        · simp [downloadLoop, h, h429, h404]
        · by_cases h5 : 500 ≤ code ∨ code = 408
          · have := ih (attempt + 1)
            simp [downloadLoop, h, h429, h404, h5]
            omega
          · simp [downloadLoop, h, h429, h404, h5]
    | netError =>
      have := ih (attempt + 1)
      simp [downloadLoop, h]
      omega

theorem downloadLoop_attempts_pos (oracle : Nat → DlAttempt) (fuel attempt : Nat)
    (h : 0 < fuel) : 1 ≤ (downloadLoop oracle attempt fuel).attemptsMade := by
  cases fuel with
  | zero => omega
  | succ n =>
    cases h' : oracle attempt with
    | success => simp [downloadLoop, h']
    | httpError code ra =>
      by_cases h429 : code = 429
      · subst h429
        simp [downloadLoop, h']
      · by_cases h404 : code = 404
        · simp [downloadLoop, h', h429, h404]
        · by_cases h5 : 500 ≤ code ∨ code = 408
          · simp [downloadLoop, h', h429, h404, h5]
          · simp [downloadLoop, h', h429, h404, h5]
    | netError => simp [downloadLoop, h']

theorem downloadLoop_retries_retriable (oracle : Nat → DlAttempt) :
    ∀ fuel attempt j,
      j + 1 < (downloadLoop oracle attempt fuel).attemptsMade →
      retriableDl (oracle (attempt + j)) = true := by
  intro fuel
  induction fuel with
  | zero => intro attempt j hj; simp [downloadLoop] at hj
  | succ n ih =>
    intro attempt j hj
    cases h : oracle attempt with
    | success => simp [downloadLoop, h] at hj
    | httpError code ra =>
      by_cases h429 : code = 429
      · subst h429
        simp [downloadLoop, h] at hj
        cases j with
        | zero => simp [h, retriableDl]
        | succ j' =>
          have := ih (attempt + 1) j' (by omega)
          rwa [show attempt + (j' + 1) = attempt + 1 + j' by omega]
      · by_cases h404 : code = 404
        · simp [downloadLoop, h, h429, h404] at hj
        · by_cases h5 : 500 ≤ code ∨ code = 408
          · simp [downloadLoop, h, h429, h404, h5] at hj
            cases j with
            | zero =>
              simp [h, retriableDl]
              omega
            | succ j' =>
              have := ih (attempt + 1) j' (by omega)
              rwa [show attempt + (j' + 1) = attempt + 1 + j' by omega]
          · simp [downloadLoop, h, h429, h404, h5] at hj
    | netError =>
      simp [downloadLoop, h] at hj
      cases j with
      | zero => simp [h, retriableDl]
      | succ j' =>
        have := ih (attempt + 1) j' (by omega)
        rwa [show attempt + (j' + 1) = attempt + 1 + j' by omega]

theorem downloadLoop_sleeps_bound (oracle : Nat → DlAttempt) :
    ∀ fuel attempt d,
      d ∈ (downloadLoop oracle attempt fuel).sleeps →
      d ≤ MAX_RETRY_AFTER_SECONDS ∨
        ∃ k, attempt ≤ k ∧ k < attempt + fuel ∧ d = backoffDelay k := by
  intro fuel
  induction fuel with
  | zero => intro attempt d hd; simp [downloadLoop] at hd
  | succ n ih =>
    intro attempt d hd
    cases h : oracle attempt with
    | success => simp [downloadLoop, h] at hd
    | httpError code ra =>
      by_cases h429 : code = 429
      · subst h429
        simp [downloadLoop, h] at hd
        rcases hd with hd | hd
        · exact Or.inl (hd ▸ retryAfterDelay_le ra)
        · rcases ih (attempt + 1) d hd with h1 | ⟨k, hk1, hk2, hk3⟩
          · exact Or.inl h1
          · exact Or.inr ⟨k, by omega, by omega, hk3⟩
      · by_cases h404 : code = 404
        · simp [downloadLoop, h, h429, h404] at hd
        · by_cases h5 : 500 ≤ code ∨ code = 408
          · simp [downloadLoop, h, h429, h404, h5] at hd
            rcases hd with hd | hd
            · exact Or.inr ⟨attempt, le_refl _, by omega, hd⟩
            · rcases ih (attempt + 1) d hd with h1 | ⟨k, hk1, hk2, hk3⟩
              · exact Or.inl h1
              · exact Or.inr ⟨k, by omega, by omega, hk3⟩
          · simp [downloadLoop, h, h429, h404, h5] at hd
    | netError =>
      simp [downloadLoop, h] at hd
      rcases hd with hd | hd
      · exact Or.inr ⟨attempt, le_refl _, by omega, hd⟩
      · rcases ih (attempt + 1) d hd with h1 | ⟨k, hk1, hk2, hk3⟩
        · exact Or.inl h1
        · exact Or.inr ⟨k, by omega, by omega, hk3⟩

theorem downloadLoop_all_fail (oracle : Nat → DlAttempt) :
    ∀ fuel attempt,
      (∀ j, j < fuel → isDlSuccess (oracle (attempt + j)) = false) →
      (downloadLoop oracle attempt fuel).result = false := by
  intro fuel
  induction fuel with
  | zero => intro attempt _; simp [downloadLoop]
  | succ n ih =>
    intro attempt hall
    have h0 := hall 0 (by omega)
    rw [Nat.add_zero] at h0
    have hrec : (downloadLoop oracle (attempt + 1) n).result = false :=
      ih (attempt + 1) (fun j hj => by
        have := hall (j + 1) (by omega)
        rwa [show attempt + (j + 1) = attempt + 1 + j by omega] at this)
    cases h : oracle attempt with
    | success => rw [h] at h0; simp [isDlSuccess] at h0
    | httpError code ra =>
      by_cases h429 : code = 429
      · subst h429
        simp [downloadLoop, h, hrec]
      · by_cases h404 : code = 404
        · simp [downloadLoop, h, h429, h404]
        · by_cases h5 : 500 ≤ code ∨ code = 408
          · simp [downloadLoop, h, h429, h404, h5, hrec]
          · simp [downloadLoop, h, h429, h404, h5]
    | netError => simp [downloadLoop, h, hrec]

theorem downloadLoop_reach (oracle : Nat → DlAttempt) :
    ∀ k fuel attempt,
      (∀ j, j < k → retriableDl (oracle (attempt + j)) = true) →
      k < fuel →
      retriableDl (oracle (attempt + k)) = false →
      (downloadLoop oracle attempt fuel).result = isDlSuccess (oracle (attempt + k)) ∧
        (downloadLoop oracle attempt fuel).attemptsMade = k + 1 := by
  intro k
  induction k with
  | zero =>
    intro fuel attempt _ hfuel hterm
    rw [Nat.add_zero] at hterm ⊢
    cases fuel with
    | zero => omega
    | succ n =>
      cases h : oracle attempt with
      | success => simp [downloadLoop, h, isDlSuccess]
      | httpError code ra =>
        rw [h] at hterm
        simp only [retriableDl, Bool.or_eq_false_iff, decide_eq_false_iff_not] at hterm
        obtain ⟨⟨h429, h5⟩, h408⟩ := hterm
        by_cases h404 : code = 404
        · simp [downloadLoop, h, h429, h404, isDlSuccess]
        · simp [downloadLoop, h, h429, h404, h5, h408, isDlSuccess]
      | netError => rw [h] at hterm; simp [retriableDl] at hterm
  | succ k' ih =>
    intro fuel attempt hprev hfuel hterm
    cases fuel with
    | zero => omega
    | succ n =>
      have h0 := hprev 0 (by omega)
      rw [Nat.add_zero] at h0
      have hshift : ∀ j, j < k' → retriableDl (oracle (attempt + 1 + j)) = true := by
        intro j hj
        have := hprev (j + 1) (by omega)
        rwa [show attempt + (j + 1) = attempt + 1 + j by omega] at this
      have hterm' : retriableDl (oracle (attempt + 1 + k')) = false := by
        rwa [show attempt + (k' + 1) = attempt + 1 + k' by omega] at hterm
      obtain ⟨hres, hmade⟩ := ih n (attempt + 1) hshift (by omega) hterm'
      have hgoal : oracle (attempt + (k' + 1)) = oracle (attempt + 1 + k') := by
        rw [show attempt + (k' + 1) = attempt + 1 + k' by omega]
      cases h : oracle attempt with
      | success => rw [h] at h0; simp [retriableDl] at h0
      | httpError code ra =>
        by_cases h429 : code = 429
        · subst h429
          rw [hgoal]
          simp [downloadLoop, h, hres, hmade]
        · have h5 : 500 ≤ code ∨ code = 408 := by
            rw [h] at h0
            simp [retriableDl, h429] at h0
            tauto
          have h404 : ¬ code = 404 := by omega
          rw [hgoal]
          simp [downloadLoop, h, h429, h404, h5, hres, hmade]
      | netError =>
        rw [hgoal]
        simp [downloadLoop, h, hres, hmade]

theorem downloadLoop_reach429 (oracle : Nat → DlAttempt) :
    ∀ k fuel attempt ra,
      (∀ j, j < k → retriableDl (oracle (attempt + j)) = true) →
      oracle (attempt + k) = .httpError 429 ra →
      k + 1 < fuel →
      (downloadLoop oracle attempt fuel).sleeps.get? k = some (retryAfterDelay ra) ∧
        k + 2 ≤ (downloadLoop oracle attempt fuel).attemptsMade := by
  intro k
  induction k with
  | zero =>
    intro fuel attempt ra _ hk hfuel
    rw [Nat.add_zero] at hk
    cases fuel with
    | zero => omega
    | succ n =>
      have hpos : 1 ≤ (downloadLoop oracle (attempt + 1) n).attemptsMade :=
        downloadLoop_attempts_pos oracle n (attempt + 1) (by omega)
      simp [downloadLoop, hk]
      omega
  | succ k' ih =>
    intro fuel attempt ra hprev hk hfuel
    cases fuel with
    | zero => omega
    | succ n =>
      have h0 := hprev 0 (by omega)
      rw [Nat.add_zero] at h0
      have hshift : ∀ j, j < k' → retriableDl (oracle (attempt + 1 + j)) = true := by
        intro j hj
        have := hprev (j + 1) (by omega)
        rwa [show attempt + (j + 1) = attempt + 1 + j by omega] at this
      have hk' : oracle (attempt + 1 + k') = .httpError 429 ra := by
        rwa [show attempt + (k' + 1) = attempt + 1 + k' by omega] at hk
      obtain ⟨hs, ha⟩ := ih n (attempt + 1) ra hshift hk' (by omega)
      cases h : oracle attempt with
      | success => rw [h] at h0; simp [retriableDl] at h0
      | httpError code ra0 =>
        by_cases h429 : code = 429
        · subst h429
          have hsl : (downloadLoop oracle attempt (n + 1)).sleeps =
              retryAfterDelay ra0 :: (downloadLoop oracle (attempt + 1) n).sleeps := by
            simp [downloadLoop, h]
          have hmade : (downloadLoop oracle attempt (n + 1)).attemptsMade =
              (downloadLoop oracle (attempt + 1) n).attemptsMade + 1 := by
            simp [downloadLoop, h]
          rw [hsl, hmade]
          exact ⟨by simpa using hs, by omega⟩
        · have h5 : 500 ≤ code ∨ code = 408 := by
            rw [h] at h0
            simp [retriableDl, h429] at h0
            tauto
          have h404 : ¬ code = 404 := by omega
          have hsl : (downloadLoop oracle attempt (n + 1)).sleeps =
              backoffDelay attempt :: (downloadLoop oracle (attempt + 1) n).sleeps := by
            simp [downloadLoop, h, h429, h404, h5]
          have hmade : (downloadLoop oracle attempt (n + 1)).attemptsMade =
              (downloadLoop oracle (attempt + 1) n).attemptsMade + 1 := by
            simp [downloadLoop, h, h429, h404, h5]
          rw [hsl, hmade]
          exact ⟨by simpa using hs, by omega⟩
      | netError =>
        have hsl : (downloadLoop oracle attempt (n + 1)).sleeps =
            backoffDelay attempt :: (downloadLoop oracle (attempt + 1) n).sleeps := by
          simp [downloadLoop, h]
        have hmade : (downloadLoop oracle attempt (n + 1)).attemptsMade =
            (downloadLoop oracle (attempt + 1) n).attemptsMade + 1 := by
          simp [downloadLoop, h]
        rw [hsl, hmade]
        exact ⟨by simpa using hs, by omega⟩

/-! ## Claims C2, C4, C5 -/

theorem backoffDelay_le_129 (k : Nat) (hk : k < MAX_RETRY_ATTEMPTS) :
    backoffDelay k ≤ 129 := by
  have h2 : (2 : ℚ) ^ k ≤ 2 ^ 7 := by
    apply pow_le_pow_right₀ (by norm_num)
    simp [MAX_RETRY_ATTEMPTS] at hk
    omega
  have : ((2 : ℚ) ^ 7) + 1 = 129 := by norm_num
  simp only [backoffDelay, BASE_BACKOFF_SECONDS]
  linarith

/-- With every attempt failing with HTTP 500, the sleeps of the request
loop are exactly the exponential backoff delays of its attempts. -/
theorem const500_sleeps :
    ∀ fuel attempt lastErr,
      (makeRequestLoop (fun _ => .failure (.httpError 500 .absent))
          attempt fuel lastErr).sleeps =
        (List.range fuel).map (fun i => backoffDelay (attempt + i)) := by
  intro fuel
  induction fuel with
  | zero => intro a le; cases le <;> simp [makeRequestLoop]
  | succ n ih =>
    intro a le
    rw [List.range_succ_eq_map]
    have h5 : (500 ≤ 500 ∨ (500 : Nat) = 408) := Or.inl (le_refl _)
    simp only [makeRequestLoop, if_neg (by omega : ¬ (500 : Nat) = 429), if_pos h5,
      List.map_cons, List.map_map, ih]
    refine congrArg₂ List.cons (by rw [Nat.add_zero]) ?_
    apply List.map_congr_left
    intro i _
    simp only [Function.comp]
    congr 1
    omega

/-- C2 counterexample: with every attempt failing with HTTP 500 (a retried
server error), the delays of `make_request_with_retry` at the default
`MAX_RETRY_ATTEMPTS = 8` include `2^7 + 1 = 129` seconds, so it is false
that no single backoff delay exceeds `MAX_RETRY_AFTER_SECONDS`
(60 seconds). -/
theorem C2_backoff_cap_counterexample :
    ¬ (∀ d ∈ (make_request_with_retry
        (fun _ => .failure (.httpError 500 .absent)) MAX_RETRY_ATTEMPTS).sleeps,
        d ≤ MAX_RETRY_AFTER_SECONDS) := by
  intro hall
  have hmem : backoffDelay 7 ∈ (make_request_with_retry
      (fun _ => .failure (.httpError 500 .absent)) MAX_RETRY_ATTEMPTS).sleeps := by
    rw [show make_request_with_retry (fun _ => .failure (.httpError 500 .absent))
        MAX_RETRY_ATTEMPTS = makeRequestLoop (fun _ => .failure (.httpError 500 .absent))
        0 MAX_RETRY_ATTEMPTS none from rfl, const500_sleeps]
    simp only [List.mem_map, List.mem_range]
    exact ⟨7, by norm_num [MAX_RETRY_ATTEMPTS], by norm_num⟩
  have hle := hall _ hmem
  rw [backoffDelay, BASE_BACKOFF_SECONDS, MAX_RETRY_AFTER_SECONDS] at hle
  norm_num at hle

/-- C2 (amended): in both `make_request_with_retry` and
`download_file_with_retry`, with the default `MAX_RETRY_ATTEMPTS = 8`,
every Retry-After-derived delay is capped at `MAX_RETRY_AFTER_SECONDS`
(60 s), while the exponential-backoff delay for 5xx/408 and network errors
is `2^attempt + BASE_BACKOFF_SECONDS`, uncapped; so every single delay is
either ≤ 60 s or equal to `2^k + 1` for some attempt `k < 8`, and in all
cases is at most `2^7 + 1 = 129` seconds. -/
theorem C2_backoff_shape (ro : Nat → Attempt) (dlo : Nat → DlAttempt) :
    (∀ d ∈ (make_request_with_retry ro MAX_RETRY_ATTEMPTS).sleeps,
        (d ≤ MAX_RETRY_AFTER_SECONDS ∨
          ∃ k, k < MAX_RETRY_ATTEMPTS ∧ d = backoffDelay k) ∧ d ≤ 129) ∧
    (∀ d ∈ (download_file_with_retry dlo MAX_RETRY_ATTEMPTS).sleeps,
        (d ≤ MAX_RETRY_AFTER_SECONDS ∨
          ∃ k, k < MAX_RETRY_ATTEMPTS ∧ d = backoffDelay k) ∧ d ≤ 129) := by
  constructor
  · intro d hd
    rcases makeRequestLoop_sleeps_bound ro MAX_RETRY_ATTEMPTS 0 none d hd with
      h | ⟨k, _, hk2, hk3⟩
    · exact ⟨Or.inl h, le_trans h (by norm_num [MAX_RETRY_AFTER_SECONDS])⟩
    · have hk8 : k < MAX_RETRY_ATTEMPTS := by omega
      exact ⟨Or.inr ⟨k, hk8, hk3⟩, hk3 ▸ backoffDelay_le_129 k hk8⟩
  · intro d hd
    rcases downloadLoop_sleeps_bound dlo MAX_RETRY_ATTEMPTS 0 d hd with
      h | ⟨k, _, hk2, hk3⟩
    · exact ⟨Or.inl h, le_trans h (by norm_num [MAX_RETRY_AFTER_SECONDS])⟩
    · have hk8 : k < MAX_RETRY_ATTEMPTS := by omega
      exact ⟨Or.inr ⟨k, hk8, hk3⟩, hk3 ▸ backoffDelay_le_129 k hk8⟩

theorem C2_backoff_shape_witness :
    ((backoffDelay 7 ≤ MAX_RETRY_AFTER_SECONDS ∨
        ∃ k, k < MAX_RETRY_ATTEMPTS ∧ backoffDelay 7 = backoffDelay k) ∧
      backoffDelay 7 ≤ 129) :=
  (C2_backoff_shape (fun _ => .failure (.httpError 500 .absent))
    (fun _ => .netError)).1 (backoffDelay 7)
    (by
      rw [show make_request_with_retry (fun _ => .failure (.httpError 500 .absent))
          MAX_RETRY_ATTEMPTS = makeRequestLoop (fun _ => .failure (.httpError 500 .absent))
          0 MAX_RETRY_ATTEMPTS none from rfl, const500_sleeps]
      simp only [List.mem_map, List.mem_range]
      exact ⟨7, by norm_num [MAX_RETRY_ATTEMPTS], by norm_num⟩)

/-- C4: when an attempt of `make_request_with_retry` or of
`download_file_with_retry` receives HTTP 429 before the retry limit is
reached (all earlier attempts having been retried failures), the loop
sleeps the provider-derived delay — `min(r + 1, 60)` for a parsed
`Retry-After` value `r`, `60` when the header value is unparsable, and
`min(5 + 1, 60)` for the default `r = 5` when the header is absent — and
then proceeds to another attempt rather than aborting. -/
theorem C4_retry_after_honored (ro : Nat → Attempt) (dlo : Nat → DlAttempt)
    (ra : RetryAfter) (k : Nat)
    (hro_prev : ∀ j, j < k → ∃ e, ro j = .failure e ∧ retriableReq e = true)
    (hro_k : ro k = .failure (.httpError 429 ra))
    (hdl_prev : ∀ j, j < k → retriableDl (dlo j) = true)
    (hdl_k : dlo k = .httpError 429 ra)
    (hk : k + 1 < MAX_RETRY_ATTEMPTS) :
    ((make_request_with_retry ro MAX_RETRY_ATTEMPTS).sleeps.get? k =
        some (match ra with
          | .value q => min (q + 1) 60
          | .malformed => 60
          | .absent => min ((5 : ℚ) + 1) 60) ∧
      k + 2 ≤ (make_request_with_retry ro MAX_RETRY_ATTEMPTS).attemptsMade) ∧
    ((download_file_with_retry dlo MAX_RETRY_ATTEMPTS).sleeps.get? k =
        some (match ra with
          | .value q => min (q + 1) 60
          | .malformed => 60
          | .absent => min ((5 : ℚ) + 1) 60) ∧
      k + 2 ≤ (download_file_with_retry dlo MAX_RETRY_ATTEMPTS).attemptsMade) := by
  have hdelay : retryAfterDelay ra = (match ra with
      | RetryAfter.value q => min (q + 1) 60
      | RetryAfter.malformed => 60
      | RetryAfter.absent => min ((5 : ℚ) + 1) 60) := by
    cases ra <;> rfl
  constructor
  · have := makeRequestLoop_reach429 ro k MAX_RETRY_ATTEMPTS 0 none ra
      (by simpa using hro_prev) (by simpa using hro_k) hk
    rw [make_request_with_retry, ← hdelay]
    exact this
  · have := downloadLoop_reach429 dlo k MAX_RETRY_ATTEMPTS 0 ra
      (by simpa using hdl_prev) (by simpa using hdl_k) hk
    rw [download_file_with_retry, ← hdelay]
    exact this

theorem C4_retry_after_honored_witness :
    ((make_request_with_retry (fun _ => .failure (.httpError 429 (.value 10)))
        MAX_RETRY_ATTEMPTS).sleeps.get? 0 = some (min ((10 : ℚ) + 1) 60) ∧
      0 + 2 ≤ (make_request_with_retry (fun _ => .failure (.httpError 429 (.value 10)))
        MAX_RETRY_ATTEMPTS).attemptsMade) ∧
    ((download_file_with_retry (fun _ => .httpError 429 (.value 10))
        MAX_RETRY_ATTEMPTS).sleeps.get? 0 = some (min ((10 : ℚ) + 1) 60) ∧
      0 + 2 ≤ (download_file_with_retry (fun _ => .httpError 429 (.value 10))
        MAX_RETRY_ATTEMPTS).attemptsMade) :=
  C4_retry_after_honored (fun _ => .failure (.httpError 429 (.value 10)))
    (fun _ => .httpError 429 (.value 10)) (.value 10) 0
    (fun j hj => absurd hj (Nat.not_lt_zero j)) rfl
    (fun j hj => absurd hj (Nat.not_lt_zero j)) rfl
    (by norm_num [MAX_RETRY_ATTEMPTS])

/-- C5: both retry loops make at most `MAX_RETRY_ATTEMPTS = 8` attempts;
an attempt is followed by another one only when it failed with 429, 5xx,
408 or a network error; when every attempt fails,
`make_request_with_retry` ends by raising the error of the last attempt
made while `download_file_with_retry` returns `False`; and
`download_file_with_retry` returns `False` immediately upon reaching a
404 and `True` upon its first successful attempt. -/
theorem C5_retry_budget (ro : Nat → Attempt) (dlo : Nat → DlAttempt) :
    ((make_request_with_retry ro MAX_RETRY_ATTEMPTS).attemptsMade ≤ MAX_RETRY_ATTEMPTS ∧
      (download_file_with_retry dlo MAX_RETRY_ATTEMPTS).attemptsMade ≤ MAX_RETRY_ATTEMPTS) ∧
    ((∀ j, j + 1 < (make_request_with_retry ro MAX_RETRY_ATTEMPTS).attemptsMade →
        ∃ e, ro j = .failure e ∧ retriableReq e = true) ∧
      (∀ j, j + 1 < (download_file_with_retry dlo MAX_RETRY_ATTEMPTS).attemptsMade →
        retriableDl (dlo j) = true)) ∧
    ((∀ j, j < MAX_RETRY_ATTEMPTS → ∃ e, ro j = .failure e) →
      ∃ n e, (make_request_with_retry ro MAX_RETRY_ATTEMPTS).attemptsMade = n ∧
        0 < n ∧ n ≤ MAX_RETRY_ATTEMPTS ∧ ro (n - 1) = .failure e ∧
        (make_request_with_retry ro MAX_RETRY_ATTEMPTS).outcome = .raised e) ∧
    ((∀ j, j < MAX_RETRY_ATTEMPTS → isDlSuccess (dlo j) = false) →
      (download_file_with_retry dlo MAX_RETRY_ATTEMPTS).result = false) ∧
    (∀ k ra, (∀ j, j < k → retriableDl (dlo j) = true) → k < MAX_RETRY_ATTEMPTS →
      dlo k = .httpError 404 ra →
      (download_file_with_retry dlo MAX_RETRY_ATTEMPTS).result = false ∧
        (download_file_with_retry dlo MAX_RETRY_ATTEMPTS).attemptsMade = k + 1) ∧
    (∀ k, (∀ j, j < k → retriableDl (dlo j) = true) → k < MAX_RETRY_ATTEMPTS →
      dlo k = .success →
      (download_file_with_retry dlo MAX_RETRY_ATTEMPTS).result = true ∧
        (download_file_with_retry dlo MAX_RETRY_ATTEMPTS).attemptsMade = k + 1) := by
  refine ⟨⟨makeRequestLoop_attempts_le ro MAX_RETRY_ATTEMPTS 0 none,
    downloadLoop_attempts_le dlo MAX_RETRY_ATTEMPTS 0⟩, ⟨?_, ?_⟩, ?_, ?_, ?_, ?_⟩
  · intro j hj
    simpa using makeRequestLoop_retries_retriable ro MAX_RETRY_ATTEMPTS 0 none j hj
  · intro j hj
    simpa using downloadLoop_retries_retriable dlo MAX_RETRY_ATTEMPTS 0 j hj
  · intro hall
    have := makeRequestLoop_all_fail ro MAX_RETRY_ATTEMPTS 0 none
      (by norm_num [MAX_RETRY_ATTEMPTS]) (by simpa using hall)
    simpa using this
  · intro hall
    exact downloadLoop_all_fail dlo MAX_RETRY_ATTEMPTS 0 (by simpa using hall)
  · intro k ra hprev hk h404
    have hterm : retriableDl (dlo (0 + k)) = false := by
      simp only [Nat.zero_add, h404, retriableDl]
      norm_num
    have := downloadLoop_reach dlo k MAX_RETRY_ATTEMPTS 0
      (by simpa using hprev) hk hterm
    rw [Nat.zero_add, h404] at this
    simpa [isDlSuccess] using this
  · intro k hprev hk hsucc
    have hterm : retriableDl (dlo (0 + k)) = false := by
      simp only [Nat.zero_add, hsucc, retriableDl]
    have := downloadLoop_reach dlo k MAX_RETRY_ATTEMPTS 0
      (by simpa using hprev) hk hterm
    rw [Nat.zero_add, hsucc] at this
    simpa [isDlSuccess] using this

theorem C5_retry_budget_witness :
    (download_file_with_retry (fun _ => .success) MAX_RETRY_ATTEMPTS).result = true ∧
      (download_file_with_retry (fun _ => .success)
        MAX_RETRY_ATTEMPTS).attemptsMade = 0 + 1 :=
  (C5_retry_budget (fun _ => .success (some 0) none)
      (fun _ => .success)).2.2.2.2.2 0
    (fun j hj => absurd hj (Nat.not_lt_zero j)) (by norm_num [MAX_RETRY_ATTEMPTS]) rfl

/-! ## Claims about `cmd_sync` -/

/-- C1: for an entry of a fetched manifest, if the destination
`output_dir/unique_name` already exists the entry is counted as skipped,
no download is attempted and the file set is unchanged; if it does not
exist, in a non-dry run with sufficient free disk space, a download of the
entry's url to exactly that destination is attempted. -/
theorem C1_skip_or_download (args : SyncArgs) (env : SyncEnv) (source : String)
    (st : SyncState) (e : Entry) (rest : List Entry) :
    (pathExists st (destOf source e.unique_name) = true →
      ∃ st1, processEntries args env source st (e :: rest) =
          processEntries args env source st1 rest ∧
        st1.stats.skipped = st.stats.skipped + 1 ∧
        st1.stats.downloaded = st.stats.downloaded ∧
        st1.stats.failed = st.stats.failed ∧
        st1.fs = st.fs ∧
        st1.trace = st.trace ++ [.skipped source e]) ∧
    (pathExists st (destOf source e.unique_name) = false →
      args.dry_run = false →
      minFreeBytes args.min_free ≤ env.free st.checks →
      ∃ st1, processEntries args env source st (e :: rest) =
          processEntries args env source st1 rest ∧
        st1.trace = st.trace ++
          [.diskCheck (env.free st.checks) true,
            .download e.url (destOf source e.unique_name)
              (env.dl e.url (destOf source e.unique_name))]) := by
  constructor
  · intro hex
    refine ⟨{ st with
        stats := { st.stats with skipped := st.stats.skipped + 1 }
        trace := st.trace ++ [.skipped source e] }, ?_, rfl, rfl, rfl, rfl, rfl⟩
    simp [processEntries, hex]
  · intro hex hdry hfree
    refine ⟨{ st with
        stats := if env.dl e.url (destOf source e.unique_name) then
            { st.stats with downloaded := st.stats.downloaded + 1 }
          else { st.stats with failed := st.stats.failed + 1 }
        fs := if env.dl e.url (destOf source e.unique_name) then
            st.fs ++ [destOf source e.unique_name] else st.fs
        checks := st.checks + 1
        trace := st.trace ++ [.diskCheck (env.free st.checks) true,
          .download e.url (destOf source e.unique_name)
            (env.dl e.url (destOf source e.unique_name))] }, ?_, rfl⟩
    simp [processEntries, hex, hdry, hfree]

theorem C1_skip_or_download_witness :
    ∃ st1,
      processEntries ⟨false, false, 0⟩
          ⟨fun _ => .fetchError, [], fun _ => 1000000000, fun _ _ => true⟩ "elizaos"
          ⟨⟨0, 0, 0, false⟩, [], 1, [], 0, 0⟩ [⟨"http://x/a", "a.mp4", 7⟩] =
        processEntries ⟨false, false, 0⟩
          ⟨fun _ => .fetchError, [], fun _ => 1000000000, fun _ _ => true⟩ "elizaos"
          st1 [] ∧
      st1.trace = [] ++
        [.diskCheck 1000000000 true,
          .download "http://x/a" (destOf "elizaos" "a.mp4") true] :=
  (C1_skip_or_download ⟨false, false, 0⟩
      ⟨fun _ => .fetchError, [], fun _ => 1000000000, fun _ _ => true⟩ "elizaos"
      ⟨⟨0, 0, 0, false⟩, [], 1, [], 0, 0⟩ ⟨"http://x/a", "a.mp4", 7⟩ []).2
    rfl rfl (Nat.zero_le _)

theorem processEntries_trace_mono (args : SyncArgs) (env : SyncEnv) (source : String) :
    ∀ entries st ev, ev ∈ st.trace →
      ev ∈ (processEntries args env source st entries).trace := by
  intro entries
  induction entries with
  | nil => intro st ev h; exact h
  | cons e rest ih =>
    intro st ev h
    by_cases hex : pathExists st (destOf source e.unique_name) = true
    · simp only [processEntries, hex, if_pos]
      exact ih _ ev (by simp [h])
    · rw [Bool.not_eq_true] at hex
      by_cases hd : args.dry_run = true
      · simp only [processEntries, hex, Bool.false_eq_true, if_false, hd, if_pos]
        exact ih _ ev (by simp [h])
      · rw [Bool.not_eq_true] at hd
        by_cases hfree : minFreeBytes args.min_free ≤ env.free st.checks
        · simp only [processEntries, hex, Bool.false_eq_true, if_false, hd,
            if_pos hfree]
          exact ih _ ev (by simp [h])
        · simp only [processEntries, hex, Bool.false_eq_true, if_false, hd,
            if_neg hfree]
          simp [h]

theorem processSource_trace_mono (args : SyncArgs) (env : SyncEnv) (st : SyncState)
    (source : String) (ev : SyncEvent) (h : ev ∈ st.trace) :
    ev ∈ (processSource args env st source).trace := by
  rw [processSource]
  by_cases hds : st.stats.disk_stopped = true
  · simp [hds, h]
  · rw [Bool.not_eq_true] at hds
    rw [hds]
    cases hm : env.manifest source with
    | fetchError => simp [h]
    | files entries =>
      simp only [Bool.false_eq_true, if_false]
      exact processEntries_trace_mono args env source entries _ ev (by simp [h])

theorem foldl_trace_mono (args : SyncArgs) (env : SyncEnv) :
    ∀ sources st ev, ev ∈ st.trace →
      ev ∈ (List.foldl (processSource args env) st sources).trace := by
  intro sources
  induction sources with
  | nil => intro st ev h; exact h
  | cons s rest ih =>
    intro st ev h
    exact ih _ ev (processSource_trace_mono args env st s ev h)

theorem processEntries_download_src (args : SyncArgs) (env : SyncEnv) (source : String) :
    ∀ entries st u d r,
      SyncEvent.download u d r ∈ (processEntries args env source st entries).trace →
      SyncEvent.download u d r ∈ st.trace ∨
        ∃ e ∈ entries, u = e.url ∧ d = destOf source e.unique_name ∧
          r = env.dl e.url (destOf source e.unique_name) := by
  intro entries
  induction entries with
  | nil => intro st u d r h; exact Or.inl h
  | cons e rest ih =>
    intro st u d r h
    by_cases hex : pathExists st (destOf source e.unique_name) = true
    · simp only [processEntries, hex, if_pos] at h
      rcases ih _ u d r h with h1 | ⟨e', he', h2⟩
      · simp only [List.mem_append, List.mem_singleton] at h1
        rcases h1 with h1 | h1
        · exact Or.inl h1
        · exact absurd h1 (by simp)
      · exact Or.inr ⟨e', List.mem_cons_of_mem e he', h2⟩
    · rw [Bool.not_eq_true] at hex
      by_cases hd : args.dry_run = true
      · simp only [processEntries, hex, Bool.false_eq_true, if_false, hd, if_pos] at h
        rcases ih _ u d r h with h1 | ⟨e', he', h2⟩
        · simp only [List.mem_append, List.mem_singleton] at h1
          rcases h1 with h1 | h1
          · exact Or.inl h1
          · exact absurd h1 (by simp)
        · exact Or.inr ⟨e', List.mem_cons_of_mem e he', h2⟩
      · rw [Bool.not_eq_true] at hd
        by_cases hfree : minFreeBytes args.min_free ≤ env.free st.checks
        · simp only [processEntries, hex, Bool.false_eq_true, if_false, hd,
            if_pos hfree] at h
          rcases ih _ u d r h with h1 | ⟨e', he', h2⟩
          · simp only [List.mem_append] at h1
            rcases h1 with h1 | h1
            · exact Or.inl h1
            · simp only [List.mem_cons, List.mem_singleton] at h1
              rcases h1 with h1 | h1 | h1
              · exact absurd h1 (by simp)
              · injection h1 with hu hdst hr
                exact Or.inr ⟨e, List.mem_cons_self e rest, hu, hdst, hr⟩
              · exact absurd h1 (by simp)
          · exact Or.inr ⟨e', List.mem_cons_of_mem e he', h2⟩
        · simp only [processEntries, hex, Bool.false_eq_true, if_false, hd,
            if_neg hfree] at h
          simp only [List.mem_append] at h
          rcases h with h | h
          · exact Or.inl h
          · simp only [List.mem_cons, List.mem_singleton] at h
            rcases h with h | h | h
            · exact absurd h (by simp)
            · exact absurd h (by simp)
            · exact absurd h (by simp)

theorem processSource_download_src (args : SyncArgs) (env : SyncEnv) (st : SyncState)
    (source : String) (u : String) (d : MPath) (r : Bool)
    (h : SyncEvent.download u d r ∈ (processSource args env st source).trace) :
    SyncEvent.download u d r ∈ st.trace ∨
      ∃ entries, env.manifest source = .files entries ∧
        ∃ e ∈ entries, u = e.url ∧ d = destOf source e.unique_name ∧
          r = env.dl e.url (destOf source e.unique_name) := by
  rw [processSource] at h
  by_cases hds : st.stats.disk_stopped = true
  · rw [if_pos (by simp [hds])] at h
    exact Or.inl h
  · rw [Bool.not_eq_true] at hds
    rw [hds] at h
    simp only [Bool.false_eq_true, if_false] at h
    cases hm : env.manifest source with
    | fetchError =>
      rw [hm] at h
      simp only [List.mem_append, List.mem_singleton] at h
      rcases h with h | h
      · exact Or.inl h
      · exact absurd h (by simp)
    | files entries =>
      rw [hm] at h
      rcases processEntries_download_src args env source entries _ u d r h with h1 | h1
      · simp only [List.mem_append, List.mem_singleton] at h1
        rcases h1 with h1 | h1
        · exact Or.inl h1
        · exact absurd h1 (by simp)
      · exact Or.inr ⟨entries, rfl, h1⟩

theorem foldl_download_src (args : SyncArgs) (env : SyncEnv) :
    ∀ sources st u d r,
      SyncEvent.download u d r ∈
        (List.foldl (processSource args env) st sources).trace →
      SyncEvent.download u d r ∈ st.trace ∨
        ∃ s ∈ sources, ∃ entries, env.manifest s = .files entries ∧
          ∃ e ∈ entries, u = e.url ∧ d = destOf s e.unique_name ∧
            r = env.dl e.url (destOf s e.unique_name) := by
  intro sources
  induction sources with
  | nil => intro st u d r h; exact Or.inl h
  | cons s rest ih =>
    intro st u d r h
    rcases ih _ u d r h with h1 | ⟨s', hs', h2⟩
    · rcases processSource_download_src args env st s u d r h1 with h2 | ⟨entries, hm, h3⟩
      · exact Or.inl h2
      · exact Or.inr ⟨s, List.mem_cons_self s rest, entries, hm, h3⟩
    · exact Or.inr ⟨s', List.mem_cons_of_mem s hs', h2⟩

/-- C6: every file the sync run downloads goes to the destination
`{source}-media/{unique_name}` (relative to `INSTALL_DIR`), with
`unique_name` taken verbatim from a record of that source's fetched
manifest; the directory component is exactly the single flat per-source
directory `outputDir source`, with no per-file subdirectory. -/
theorem C6_flat_precomputed_dest (args : SyncArgs) (env : SyncEnv)
    (u : String) (d : MPath) (r : Bool)
    (h : SyncEvent.download u d r ∈ (cmd_sync args env).trace) :
    ∃ s ∈ SOURCES, ∃ entries, env.manifest s = .files entries ∧
      ∃ e ∈ entries, u = e.url ∧ d = destOf s e.unique_name ∧
        d.dir = outputDir s ∧ d.name = e.unique_name := by
  rw [cmd_sync] at h
  by_cases h0 : (!decide (minFreeBytes args.min_free ≤ env.free 0) && !args.dry_run) = true
  · rw [if_pos h0] at h
    simp at h
  · rw [if_neg h0] at h
    rcases foldl_download_src args env SOURCES _ u d r h with h1 | ⟨s, hs, entries, hm, e, he, hu, hd, hr⟩
    · simp at h1
    · exact ⟨s, hs, entries, hm, e, he, hu, hd, by rw [hd, destOf], by rw [hd, destOf]⟩

theorem C6_flat_precomputed_dest_witness :
    ∃ s ∈ SOURCES, ∃ entries,
      (fun t => if t = "elizaos" then Manifest.files [⟨"http://x/a", "a.mp4", 7⟩]
        else Manifest.fetchError) s = Manifest.files entries ∧
      ∃ e ∈ entries, "http://x/a" = e.url ∧
        (⟨"elizaos-media", "a.mp4"⟩ : MPath) = destOf s e.unique_name ∧
        (⟨"elizaos-media", "a.mp4"⟩ : MPath).dir = outputDir s ∧
        (⟨"elizaos-media", "a.mp4"⟩ : MPath).name = e.unique_name :=
  C6_flat_precomputed_dest ⟨false, false, 0⟩
    ⟨fun t => if t = "elizaos" then Manifest.files [⟨"http://x/a", "a.mp4", 7⟩]
        else Manifest.fetchError,
      [], fun _ => 1000000000, fun _ _ => true⟩
    "http://x/a" ⟨"elizaos-media", "a.mp4"⟩ true (by decide)

/-- Traces in which every download is immediately preceded by a passing
disk-space check of at least `minB` bytes, downloads and stop markers
appear only right after their check, and a stop marker only follows a
failing check. -/
inductive Guarded (minB : Nat) : List SyncEvent → Prop
  | nil : Guarded minB []
  | fetch (s : String) (ok : Bool) (t : List SyncEvent) :
      Guarded minB t → Guarded minB (.fetchManifest s ok :: t)
  | skip (s : String) (e : Entry) (t : List SyncEvent) :
      Guarded minB t → Guarded minB (.skipped s e :: t)
  | would (s : String) (e : Entry) (t : List SyncEvent) :
      Guarded minB t → Guarded minB (.wouldDownload s e :: t)
  | check (f : Nat) (ok : Bool) (t : List SyncEvent) :
      Guarded minB t → Guarded minB (.diskCheck f ok :: t)
  | checkStop (f : Nat) (t : List SyncEvent) : f < minB →
      Guarded minB t → Guarded minB (.diskCheck f false :: .diskStop f :: t)
  | checkDl (f : Nat) (u : String) (d : MPath) (r : Bool) (t : List SyncEvent) :
      minB ≤ f → Guarded minB t →
      Guarded minB (.diskCheck f true :: .download u d r :: t)

theorem Guarded.append {minB : Nat} {t1 t2 : List SyncEvent}
    (h1 : Guarded minB t1) (h2 : Guarded minB t2) : Guarded minB (t1 ++ t2) := by
  induction h1 with
  | nil => exact h2
  | fetch s ok t _ ih => exact Guarded.fetch s ok _ ih
  | skip s e t _ ih => exact Guarded.skip s e _ ih
  | would s e t _ ih => exact Guarded.would s e _ ih
  | check f ok t _ ih => exact Guarded.check f ok _ ih
  | checkStop f t hf _ ih => exact Guarded.checkStop f _ hf ih
  | checkDl f u d r t hf _ ih => exact Guarded.checkDl f u d r _ hf ih

theorem Guarded.head_not_download {minB : Nat} {t : List SyncEvent}
    (h : Guarded minB t) :
    ∀ u d r t', t ≠ SyncEvent.download u d r :: t' := by
  cases h <;> intro u d r t' <;> simp

theorem Guarded.downloads_preceded_by_check {minB : Nat} :
    ∀ {t : List SyncEvent}, Guarded minB t →
      ∀ i u d r, t.get? i = some (.download u d r) →
        ∃ f, 1 ≤ i ∧ t.get? (i - 1) = some (.diskCheck f true) ∧ minB ≤ f := by
  intro t h
  induction h with
  | nil => intro i u d r hi; simp at hi
  | fetch s ok t _ ih =>
    intro i u d r hi
    cases i with
    | zero => simp at hi
    | succ j =>
      rw [List.get?_cons_succ] at hi
      obtain ⟨f, hj1, hj2, hle⟩ := ih j u d r hi
      refine ⟨f, by omega, ?_, hle⟩
      rw [show j + 1 - 1 = (j - 1) + 1 by omega, List.get?_cons_succ]
      exact hj2
  | skip s e t _ ih =>
    intro i u d r hi
    cases i with
    | zero => simp at hi
    | succ j =>
      rw [List.get?_cons_succ] at hi
      obtain ⟨f, hj1, hj2, hle⟩ := ih j u d r hi
      refine ⟨f, by omega, ?_, hle⟩
      rw [show j + 1 - 1 = (j - 1) + 1 by omega, List.get?_cons_succ]
      exact hj2
  | would s e t _ ih =>
    intro i u d r hi
    cases i with
    | zero => simp at hi
    | succ j =>
      rw [List.get?_cons_succ] at hi
      obtain ⟨f, hj1, hj2, hle⟩ := ih j u d r hi
      refine ⟨f, by omega, ?_, hle⟩
      rw [show j + 1 - 1 = (j - 1) + 1 by omega, List.get?_cons_succ]
      exact hj2
  | check f0 ok t _ ih =>
    intro i u d r hi
    cases i with
    | zero => simp at hi
    | succ j =>
      rw [List.get?_cons_succ] at hi
      obtain ⟨f, hj1, hj2, hle⟩ := ih j u d r hi
      refine ⟨f, by omega, ?_, hle⟩
      rw [show j + 1 - 1 = (j - 1) + 1 by omega, List.get?_cons_succ]
      exact hj2
  | checkStop f0 t hf0 _ ih =>
    intro i u d r hi
    cases i with
    | zero => simp at hi
    | succ j =>
      cases j with
      | zero => simp at hi
      | succ j' =>
        rw [List.get?_cons_succ, List.get?_cons_succ] at hi
        obtain ⟨f, hj1, hj2, hle⟩ := ih j' u d r hi
        refine ⟨f, by omega, ?_, hle⟩
        rw [show j' + 1 + 1 - 1 = ((j' - 1) + 1) + 1 by omega,
          List.get?_cons_succ, List.get?_cons_succ]
        exact hj2
  | checkDl f0 u0 d0 r0 t hf0 _ ih =>
    intro i u d r hi
    cases i with
    | zero => simp at hi
    | succ j =>
      cases j with
      | zero =>
        rw [List.get?_cons_succ] at hi
        simp only [List.get?_cons_zero, Option.some.injEq] at hi
        injection hi with hu hd hr
        exact ⟨f0, by omega, by simp, hf0⟩
      | succ j' =>
        rw [List.get?_cons_succ, List.get?_cons_succ] at hi
        obtain ⟨f, hj1, hj2, hle⟩ := ih j' u d r hi
        refine ⟨f, by omega, ?_, hle⟩
        rw [show j' + 1 + 1 - 1 = ((j' - 1) + 1) + 1 by omega,
          List.get?_cons_succ, List.get?_cons_succ]
        exact hj2

theorem processEntries_guarded (args : SyncArgs) (env : SyncEnv) (source : String) :
    ∀ entries st, Guarded (minFreeBytes args.min_free) st.trace →
      Guarded (minFreeBytes args.min_free)
        (processEntries args env source st entries).trace := by
  intro entries
  induction entries with
  | nil => intro st h; exact h
  | cons e rest ih =>
    intro st h
    by_cases hex : pathExists st (destOf source e.unique_name) = true
    · simp only [processEntries, hex, if_pos]
      exact ih _ (h.append (Guarded.skip source e [] Guarded.nil))
    · rw [Bool.not_eq_true] at hex
      by_cases hd : args.dry_run = true
      · simp only [processEntries, hex, Bool.false_eq_true, if_false, hd, if_pos]
        exact ih _ (h.append (Guarded.would source e [] Guarded.nil))
      · rw [Bool.not_eq_true] at hd
        by_cases hfree : minFreeBytes args.min_free ≤ env.free st.checks
        · simp only [processEntries, hex, Bool.false_eq_true, if_false, hd,
            if_pos hfree]
          exact ih _ (h.append
            (Guarded.checkDl (env.free st.checks) e.url (destOf source e.unique_name)
              (env.dl e.url (destOf source e.unique_name)) [] hfree Guarded.nil))
        · simp only [processEntries, hex, Bool.false_eq_true, if_false, hd,
            if_neg hfree]
          exact h.append
            (Guarded.checkStop (env.free st.checks) [] (by omega) Guarded.nil)

theorem processSource_guarded (args : SyncArgs) (env : SyncEnv) (st : SyncState)
    (source : String) (h : Guarded (minFreeBytes args.min_free) st.trace) :
    Guarded (minFreeBytes args.min_free) (processSource args env st source).trace := by
  rw [processSource]
  by_cases hds : st.stats.disk_stopped = true
  · rw [if_pos (by simp [hds])]
    exact h
  · rw [Bool.not_eq_true] at hds
    rw [hds]
    simp only [Bool.false_eq_true, if_false]
    cases hm : env.manifest source with
    | fetchError => exact h.append (Guarded.fetch source false [] Guarded.nil)
    | files entries =>
      exact processEntries_guarded args env source entries _
        (h.append (Guarded.fetch source true [] Guarded.nil))

theorem foldl_guarded (args : SyncArgs) (env : SyncEnv) :
    ∀ sources st, Guarded (minFreeBytes args.min_free) st.trace →
      Guarded (minFreeBytes args.min_free)
        (List.foldl (processSource args env) st sources).trace := by
  intro sources
  induction sources with
  | nil => intro st h; exact h
  | cons s rest ih =>
    intro st h
    exact ih _ (processSource_guarded args env st s h)

/-- Whether an event is a download. -/
def isDownloadEvent : SyncEvent → Bool
  | .download _ _ _ => true
  | _ => false

/-- Whether an event is the low-disk stop marker. -/
def isStopEvent : SyncEvent → Bool
  | .diskStop _ => true
  | _ => false

/-- Whether a trace contains a stop marker. -/
def hasStop (t : List SyncEvent) : Bool := t.any isStopEvent

/-- A trace whose stop marker, if any, is its very last event. -/
def stopLast : List SyncEvent → Bool
  | [] => true
  | .diskStop _ :: rest => rest.isEmpty
  | _ :: rest => stopLast rest

theorem stopLast_no_later (t : List SyncEvent) (hsl : stopLast t = true) :
    ∀ i f, t.get? i = some (.diskStop f) → ∀ j, i < j → t.get? j = none := by
  induction t with
  | nil => intro i f hi; simp at hi
  | cons e rest ih =>
    intro i f hi j hij
    cases e with
    | diskStop g =>
      simp only [stopLast, List.isEmpty_iff] at hsl
      subst hsl
      cases i with
      | zero =>
        cases j with
        | zero => omega
        | succ j' => simp
      | succ i' => simp at hi
    | fetchManifest s ok =>
      rw [show stopLast (SyncEvent.fetchManifest s ok :: rest) = stopLast rest
          from rfl] at hsl
      cases i with
      | zero => simp at hi
      | succ i' =>
        cases j with
        | zero => omega
        | succ j' =>
          rw [List.get?_cons_succ] at hi ⊢
          exact ih hsl i' f hi j' (by omega)
    | skipped s e0 =>
      rw [show stopLast (SyncEvent.skipped s e0 :: rest) = stopLast rest from rfl] at hsl
      cases i with
      | zero => simp at hi
      | succ i' =>
        cases j with
        | zero => omega
        | succ j' =>
          rw [List.get?_cons_succ] at hi ⊢
          exact ih hsl i' f hi j' (by omega)
    | wouldDownload s e0 =>
      rw [show stopLast (SyncEvent.wouldDownload s e0 :: rest) = stopLast rest
          from rfl] at hsl
      cases i with
      | zero => simp at hi
      | succ i' =>
        cases j with
        | zero => omega
        | succ j' =>
          rw [List.get?_cons_succ] at hi ⊢
          exact ih hsl i' f hi j' (by omega)
    | diskCheck g ok =>
      rw [show stopLast (SyncEvent.diskCheck g ok :: rest) = stopLast rest
          from rfl] at hsl
      cases i with
      | zero => simp at hi
      | succ i' =>
        cases j with
        | zero => omega
        | succ j' =>
          rw [List.get?_cons_succ] at hi ⊢
          exact ih hsl i' f hi j' (by omega)
    | download u d r =>
      rw [show stopLast (SyncEvent.download u d r :: rest) = stopLast rest
          from rfl] at hsl
      cases i with
      | zero => simp at hi
      | succ i' =>
        cases j with
        | zero => omega
        | succ j' =>
          rw [List.get?_cons_succ] at hi ⊢
          exact ih hsl i' f hi j' (by omega)

theorem hasStop_append (t u : List SyncEvent) :
    hasStop (t ++ u) = (hasStop t || hasStop u) := by
  simp [hasStop, List.any_append]

theorem stopLast_append_stop (t : List SyncEvent) (h : hasStop t = false) (f : Nat) :
    stopLast (t ++ [.diskCheck f false, .diskStop f]) = true := by
  induction t with
  | nil => rfl
  | cons e rest ih =>
    have he : isStopEvent e = false := by
      by_contra hc
      rw [Bool.not_eq_false] at hc
      simp [hasStop, List.any_cons, hc] at h
    have hrest : hasStop rest = false := by
      simp only [hasStop, List.any_cons, Bool.or_eq_false_iff] at h
      exact h.2
    cases e with
    | diskStop g => simp [isStopEvent] at he
    | fetchManifest s ok => simpa [stopLast] using ih hrest
    | skipped s e0 => simpa [stopLast] using ih hrest
    | wouldDownload s e0 => simpa [stopLast] using ih hrest
    | diskCheck g ok => simpa [stopLast] using ih hrest
    | download u d r => simpa [stopLast] using ih hrest

theorem processSource_stopped (args : SyncArgs) (env : SyncEnv) (st : SyncState)
    (source : String) (h : st.stats.disk_stopped = true) :
    processSource args env st source = st := by
  rw [processSource, if_pos (by simp [h])]

theorem foldl_stopped (args : SyncArgs) (env : SyncEnv) :
    ∀ sources (st : SyncState), st.stats.disk_stopped = true →
      List.foldl (processSource args env) st sources = st := by
  intro sources
  induction sources with
  | nil => intro st _; rfl
  | cons s rest ih =>
    intro st h
    rw [List.foldl_cons, processSource_stopped args env st s h, ih st h]

theorem processEntries_stop (args : SyncArgs) (env : SyncEnv) (source : String) :
    ∀ entries st, st.stats.disk_stopped = false → hasStop st.trace = false →
      ((processEntries args env source st entries).stats.disk_stopped = false ∧
        hasStop (processEntries args env source st entries).trace = false) ∨
      ((processEntries args env source st entries).stats.disk_stopped = true ∧
        stopLast (processEntries args env source st entries).trace = true ∧
        hasStop (processEntries args env source st entries).trace = true) := by
  intro entries
  induction entries with
  | nil => intro st h1 h2; exact Or.inl ⟨h1, h2⟩
  | cons e rest ih =>
    intro st h1 h2
    by_cases hex : pathExists st (destOf source e.unique_name) = true
    · simp only [processEntries, hex, if_pos]
      exact ih _ h1 (by rw [hasStop_append, h2]; simp [hasStop, isStopEvent])
    · rw [Bool.not_eq_true] at hex
      by_cases hd : args.dry_run = true
      · simp only [processEntries, hex, Bool.false_eq_true, if_false, hd, if_pos]
        exact ih _ h1 (by rw [hasStop_append, h2]; simp [hasStop, isStopEvent])
      · rw [Bool.not_eq_true] at hd
        by_cases hfree : minFreeBytes args.min_free ≤ env.free st.checks
        · simp only [processEntries, hex, Bool.false_eq_true, if_false, hd,
            if_pos hfree]
          exact ih _
            (by by_cases hr : env.dl e.url (destOf source e.unique_name) = true <;>
              simp [hr, h1])
            (by rw [hasStop_append, h2]; simp [hasStop, isStopEvent])
        · simp only [processEntries, hex, Bool.false_eq_true, if_false, hd,
            if_neg hfree]
          refine Or.inr ⟨by trivial, ?_, ?_⟩
          · exact stopLast_append_stop st.trace h2 _
          · rw [hasStop_append, h2]
            simp [hasStop, isStopEvent]

theorem processSource_stop (args : SyncArgs) (env : SyncEnv) (st : SyncState)
    (source : String) (h1 : st.stats.disk_stopped = false)
    (h2 : hasStop st.trace = false) :
    ((processSource args env st source).stats.disk_stopped = false ∧
      hasStop (processSource args env st source).trace = false) ∨
    ((processSource args env st source).stats.disk_stopped = true ∧
      stopLast (processSource args env st source).trace = true ∧
      hasStop (processSource args env st source).trace = true) := by
  rw [processSource]
  rw [h1]
  simp only [Bool.false_eq_true, if_false]
  cases hm : env.manifest source with
  | fetchError =>
    exact Or.inl ⟨h1, by rw [hasStop_append, h2]; simp [hasStop, isStopEvent]⟩
  | files entries =>
    exact processEntries_stop args env source entries _ h1
      (by rw [hasStop_append, h2]; simp [hasStop, isStopEvent])

theorem foldl_stop (args : SyncArgs) (env : SyncEnv) :
    ∀ sources (st : SyncState), st.stats.disk_stopped = false →
      hasStop st.trace = false →
      ((List.foldl (processSource args env) st sources).stats.disk_stopped = false ∧
        hasStop (List.foldl (processSource args env) st sources).trace = false) ∨
      ((List.foldl (processSource args env) st sources).stats.disk_stopped = true ∧
        stopLast (List.foldl (processSource args env) st sources).trace = true ∧
        hasStop (List.foldl (processSource args env) st sources).trace = true) := by
  intro sources
  induction sources with
  | nil => intro st h1 h2; exact Or.inl ⟨h1, h2⟩
  | cons s rest ih =>
    intro st h1 h2
    rw [List.foldl_cons]
    rcases processSource_stop args env st s h1 h2 with ⟨hf, hs⟩ | ⟨hf, hsl, hs⟩
    · exact ih _ hf hs
    · rw [foldl_stopped args env rest _ hf]
      exact Or.inr ⟨hf, hsl, hs⟩

theorem hasStop_not_mem (t : List SyncEvent) (h : hasStop t = false) (f : Nat) :
    SyncEvent.diskStop f ∉ t := by
  intro hmem
  have : isStopEvent (SyncEvent.diskStop f) = true := rfl
  have : hasStop t = true := List.any_eq_true.mpr ⟨_, hmem, this⟩
  rw [h] at this
  exact Bool.false_ne_true this

/-- C3: in a non-dry-run sync, every download event in the trace is
immediately preceded by a disk-space check that passed with at least
`min_free * 1024 * 1024` free bytes (so no download starts while free
space is below the minimum), and nothing at all — in particular no further
download, for the current or any later source — follows a low-disk stop
marker. -/
theorem C3_disk_preflight (args : SyncArgs) (env : SyncEnv)
    (_hdry : args.dry_run = false) :
    (∀ i u d r, (cmd_sync args env).trace.get? i = some (.download u d r) →
      ∃ f, 1 ≤ i ∧ (cmd_sync args env).trace.get? (i - 1) =
          some (.diskCheck f true) ∧ minFreeBytes args.min_free ≤ f) ∧
    (∀ i f, (cmd_sync args env).trace.get? i = some (.diskStop f) →
      ∀ j, i < j → (cmd_sync args env).trace.get? j = none) := by
  rw [cmd_sync]
  by_cases h0 : (!decide (minFreeBytes args.min_free ≤ env.free 0) && !args.dry_run) = true
  · rw [if_pos h0]
    constructor
    · intro i u d r hi
      cases i with
      | zero => simp at hi
      | succ i' => simp at hi
    · intro i f hi
      cases i with
      | zero => simp at hi
      | succ i' => simp at hi
  · rw [if_neg h0]
    have hg : Guarded (minFreeBytes args.min_free)
        (List.foldl (processSource args env)
          { stats := ⟨0, 0, 0, false⟩, fs := env.fs0, checks := 1,
            trace := [.diskCheck (env.free 0)
              (decide (minFreeBytes args.min_free ≤ env.free 0))],
            files_to_download := 0, total_download_size := 0 } SOURCES).trace :=
      foldl_guarded args env SOURCES _
        (Guarded.check _ _ [] Guarded.nil)
    have hstop := foldl_stop args env SOURCES
      { stats := ⟨0, 0, 0, false⟩, fs := env.fs0, checks := 1,
        trace := [.diskCheck (env.free 0)
          (decide (minFreeBytes args.min_free ≤ env.free 0))],
        files_to_download := 0, total_download_size := 0 }
      rfl (by simp [hasStop, isStopEvent])
    constructor
    · intro i u d r hi
      exact hg.downloads_preceded_by_check i u d r hi
    · intro i f hi j hij
      rcases hstop with ⟨_, hs⟩ | ⟨_, hsl, _⟩
      · exact absurd (List.get?_mem hi) (hasStop_not_mem _ hs f)
      · exact stopLast_no_later _ hsl i f hi j hij

theorem C3_disk_preflight_witness :
    ∃ f, 1 ≤ 3 ∧
      (cmd_sync ⟨false, false, 0⟩
          ⟨fun t => if t = "elizaos" then Manifest.files [⟨"http://x/a", "a.mp4", 7⟩]
              else Manifest.fetchError,
            [], fun _ => 1000000000, fun _ _ => true⟩).trace.get? (3 - 1) =
        some (.diskCheck f true) ∧ minFreeBytes 0 ≤ f :=
  (C3_disk_preflight ⟨false, false, 0⟩
      ⟨fun t => if t = "elizaos" then Manifest.files [⟨"http://x/a", "a.mp4", 7⟩]
          else Manifest.fetchError,
        [], fun _ => 1000000000, fun _ _ => true⟩ rfl).1 3
    "http://x/a" ⟨"elizaos-media", "a.mp4"⟩ true (by decide)

/-- The three per-entry counters of the final summary (line 305-308). -/
def counterSum (st : Stats) : Nat := st.downloaded + st.skipped + st.failed

/-- The number of entries of a source's manifest (0 when the fetch failed
and the source was skipped). -/
def sourceCount (env : SyncEnv) (s : String) : Nat :=
  match env.manifest s with
  | .fetchError => 0
  | .files l => l.length

/-- The number of entries of all successfully fetched manifests. -/
def totalEntries (env : SyncEnv) : Nat := (SOURCES.map (sourceCount env)).sum

theorem processEntries_sum (args : SyncArgs) (env : SyncEnv) (source : String)
    (hdry : args.dry_run = false) :
    ∀ entries (st : SyncState),
      (processEntries args env source st entries).stats.disk_stopped = false →
      counterSum (processEntries args env source st entries).stats =
        counterSum st.stats + entries.length := by
  intro entries
  induction entries with
  | nil => intro st _; simp [processEntries]
  | cons e rest ih =>
    intro st hflag
    by_cases hex : pathExists st (destOf source e.unique_name) = true
    · simp only [processEntries, hex, if_pos] at hflag ⊢
      rw [ih _ hflag]
      simp [counterSum]
      omega
    · rw [Bool.not_eq_true] at hex
      by_cases hfree : minFreeBytes args.min_free ≤ env.free st.checks
      · simp only [processEntries, hex, Bool.false_eq_true, if_false, hdry,
          if_pos hfree] at hflag ⊢
        rw [ih _ hflag]
        by_cases hr : env.dl e.url (destOf source e.unique_name) = true
        · simp [hr, counterSum]
          omega
        · rw [Bool.not_eq_true] at hr
          simp [hr, counterSum]
          omega
      · simp only [processEntries, hex, Bool.false_eq_true, if_false, hdry,
          if_neg hfree] at hflag
        simp at hflag

theorem processSource_flag_mono (args : SyncArgs) (env : SyncEnv) (st : SyncState)
    (source : String) (h : st.stats.disk_stopped = true) :
    (processSource args env st source).stats.disk_stopped = true := by
  rw [processSource_stopped args env st source h]
  exact h

theorem processSource_sum (args : SyncArgs) (env : SyncEnv) (st : SyncState)
    (source : String) (hdry : args.dry_run = false)
    (hflag : (processSource args env st source).stats.disk_stopped = false) :
    counterSum (processSource args env st source).stats =
      counterSum st.stats + sourceCount env source := by
  have hst : st.stats.disk_stopped = false := by
    by_contra hc
    rw [Bool.not_eq_false] at hc
    rw [processSource_flag_mono args env st source hc] at hflag
    exact absurd hflag (by simp)
  rw [processSource] at hflag ⊢
  rw [hst] at hflag ⊢
  simp only [Bool.false_eq_true, if_false] at hflag ⊢
  cases hm : env.manifest source with
  | fetchError =>
    simp [sourceCount, hm]
  | files entries =>
    rw [hm] at hflag
    have hflag2 : (processEntries args env source
        { stats := st.stats, fs := st.fs, checks := st.checks,
          trace := st.trace ++ [SyncEvent.fetchManifest source true],
          files_to_download := st.files_to_download,
          total_download_size := st.total_download_size }
        entries).stats.disk_stopped = false := hflag
    have hsum := processEntries_sum args env source hdry entries _ hflag2
    simpa [sourceCount, hm] using hsum

theorem foldl_sum (args : SyncArgs) (env : SyncEnv) (hdry : args.dry_run = false) :
    ∀ sources (st : SyncState),
      (List.foldl (processSource args env) st sources).stats.disk_stopped = false →
      counterSum (List.foldl (processSource args env) st sources).stats =
        counterSum st.stats + (sources.map (sourceCount env)).sum := by
  intro sources
  induction sources with
  | nil => intro st _; simp
  | cons s rest ih =>
    intro st hflag
    rw [List.foldl_cons] at hflag ⊢
    have h1 : (processSource args env st s).stats.disk_stopped = false := by
      by_contra hc
      rw [Bool.not_eq_false] at hc
      rw [foldl_stopped args env rest _ hc] at hflag
      rw [hc] at hflag
      exact absurd hflag (by simp)
    rw [ih _ hflag, processSource_sum args env st s hdry h1]
    simp [List.map_cons, List.sum_cons]
    omega

/-- C7: in a non-dry-run sync that passes the initial disk-space check and
is not stopped early by low disk space, every entry of every successfully
fetched manifest is counted in exactly one of the three counters the final
summary reports, so downloaded + skipped + failed equals the total number
of manifest entries processed. -/
theorem C7_counters_partition (args : SyncArgs) (env : SyncEnv)
    (hdry : args.dry_run = false)
    (hfree0 : minFreeBytes args.min_free ≤ env.free 0)
    (hstopped : (cmd_sync args env).stats.disk_stopped = false) :
    (cmd_sync args env).stats.downloaded + (cmd_sync args env).stats.skipped +
      (cmd_sync args env).stats.failed = totalEntries env := by
  have h0 : (!decide (minFreeBytes args.min_free ≤ env.free 0) && !args.dry_run) = false := by
    simp [hfree0]
  rw [cmd_sync] at hstopped ⊢
  rw [h0] at hstopped ⊢
  simp only [Bool.false_eq_true, if_false] at hstopped ⊢
  have := foldl_sum args env hdry SOURCES
    { stats := ⟨0, 0, 0, false⟩, fs := env.fs0, checks := 1,
      trace := [.diskCheck (env.free 0)
        (decide (minFreeBytes args.min_free ≤ env.free 0))],
      files_to_download := 0, total_download_size := 0 } hstopped
  simpa [counterSum, totalEntries] using this

theorem C7_counters_partition_witness :
    (cmd_sync ⟨false, false, 0⟩
        ⟨fun t => if t = "elizaos" then Manifest.files [⟨"http://x/a", "a.mp4", 7⟩]
            else Manifest.fetchError,
          [], fun _ => 1000000000, fun _ _ => true⟩).stats.downloaded +
      (cmd_sync ⟨false, false, 0⟩
        ⟨fun t => if t = "elizaos" then Manifest.files [⟨"http://x/a", "a.mp4", 7⟩]
            else Manifest.fetchError,
          [], fun _ => 1000000000, fun _ _ => true⟩).stats.skipped +
      (cmd_sync ⟨false, false, 0⟩
        ⟨fun t => if t = "elizaos" then Manifest.files [⟨"http://x/a", "a.mp4", 7⟩]
            else Manifest.fetchError,
          [], fun _ => 1000000000, fun _ _ => true⟩).stats.failed =
      totalEntries
        ⟨fun t => if t = "elizaos" then Manifest.files [⟨"http://x/a", "a.mp4", 7⟩]
            else Manifest.fetchError,
          [], fun _ => 1000000000, fun _ _ => true⟩ :=
  C7_counters_partition ⟨false, false, 0⟩
    ⟨fun t => if t = "elizaos" then Manifest.files [⟨"http://x/a", "a.mp4", 7⟩]
        else Manifest.fetchError,
      [], fun _ => 1000000000, fun _ _ => true⟩
    rfl (Nat.zero_le _) (by decide)

theorem hasStop_exists (t : List SyncEvent) (h : hasStop t = true) :
    ∃ f, SyncEvent.diskStop f ∈ t := by
  rcases List.any_eq_true.mp h with ⟨ev, hmem, hst⟩
  cases ev with
  | diskStop f => exact ⟨f, hmem⟩
  | fetchManifest s ok => simp [isStopEvent] at hst
  | skipped s e => simp [isStopEvent] at hst
  | wouldDownload s e => simp [isStopEvent] at hst
  | diskCheck f ok => simp [isStopEvent] at hst
  | download u d r => simp [isStopEvent] at hst

/-- C8: the sync exit code is 2 exactly when the run was stopped mid-sync
by low disk space (the stop marker is in the trace iff the flag is set,
and 2 takes precedence over any failures); otherwise it is 1 when some
download failed or when the initial disk-space check failed on a non-dry
run, and 0 otherwise. -/
theorem C8_exit_codes (args : SyncArgs) (env : SyncEnv) :
    ((cmd_sync args env).exitCode = 2 ↔
      (cmd_sync args env).stats.disk_stopped = true) ∧
    ((cmd_sync args env).stats.disk_stopped = true ↔
      ∃ f, SyncEvent.diskStop f ∈ (cmd_sync args env).trace) ∧
    ((cmd_sync args env).stats.disk_stopped = false →
      (cmd_sync args env).exitCode =
        if (cmd_sync args env).stats.failed ≠ 0 ∨
            (args.dry_run = false ∧ env.free 0 < minFreeBytes args.min_free)
        then 1 else 0) := by
  rw [cmd_sync]
  by_cases h0 : (!decide (minFreeBytes args.min_free ≤ env.free 0) && !args.dry_run) = true
  · rw [if_pos h0]
    have hcond : args.dry_run = false ∧ env.free 0 < minFreeBytes args.min_free := by
      rw [Bool.and_eq_true, Bool.not_eq_true', Bool.not_eq_true'] at h0
      refine ⟨h0.2, ?_⟩
      have := of_decide_eq_false h0.1
      omega
    refine ⟨by simp, ⟨fun h => absurd h (by simp), ?_⟩, fun _ => ?_⟩
    · rintro ⟨f, hf⟩
      simp at hf
    · rw [if_pos (Or.inr hcond)]
  · rw [if_neg h0]
    simp only [syncFinish]
    have hstop := foldl_stop args env SOURCES
      { stats := ⟨0, 0, 0, false⟩, fs := env.fs0, checks := 1,
        trace := [.diskCheck (env.free 0)
          (decide (minFreeBytes args.min_free ≤ env.free 0))],
        files_to_download := 0, total_download_size := 0 }
      rfl (by simp [hasStop, isStopEvent])
    have hcond2 : ¬ (args.dry_run = false ∧ env.free 0 < minFreeBytes args.min_free) := by
      rintro ⟨hd, hlt⟩
      apply h0
      rw [Bool.and_eq_true, Bool.not_eq_true', Bool.not_eq_true']
      exact ⟨decide_eq_false (by omega), hd⟩
    refine ⟨?_, ?_, fun hflag => ?_⟩
    · by_cases hf : (List.foldl (processSource args env)
          { stats := ⟨0, 0, 0, false⟩, fs := env.fs0, checks := 1,
            trace := [.diskCheck (env.free 0)
              (decide (minFreeBytes args.min_free ≤ env.free 0))],
            files_to_download := 0, total_download_size := 0 }
          SOURCES).stats.disk_stopped = true
      · simp [hf]
      · rw [Bool.not_eq_true] at hf
        by_cases hfd : (List.foldl (processSource args env)
            { stats := ⟨0, 0, 0, false⟩, fs := env.fs0, checks := 1,
              trace := [.diskCheck (env.free 0)
                (decide (minFreeBytes args.min_free ≤ env.free 0))],
              files_to_download := 0, total_download_size := 0 }
            SOURCES).stats.failed = 0
        · simp [hf, hfd]
        · simp [hf, hfd]
    · rcases hstop with ⟨hf, hs⟩ | ⟨hf, _, hs⟩
      · rw [hf]
        simp only [Bool.false_eq_true, false_iff]
        rintro ⟨f, hmem⟩
        exact absurd hmem (hasStop_not_mem _ hs f)
      · rw [hf]
        simp only [true_iff]
        exact hasStop_exists _ hs
    · rw [hflag]
      simp only [Bool.false_eq_true, if_false]
      by_cases hfd : (List.foldl (processSource args env)
          { stats := ⟨0, 0, 0, false⟩, fs := env.fs0, checks := 1,
            trace := [.diskCheck (env.free 0)
              (decide (minFreeBytes args.min_free ≤ env.free 0))],
            files_to_download := 0, total_download_size := 0 }
          SOURCES).stats.failed = 0
      · rw [if_pos hfd, if_neg (by simp [hfd, hcond2])]
      · rw [if_neg hfd, if_pos (Or.inl hfd)]

theorem C8_exit_codes_witness :
    (cmd_sync ⟨false, false, 0⟩
        ⟨fun _ => Manifest.fetchError, [], fun _ => 1000000000,
          fun _ _ => true⟩).exitCode =
      if (cmd_sync ⟨false, false, 0⟩
            ⟨fun _ => Manifest.fetchError, [], fun _ => 1000000000,
              fun _ _ => true⟩).stats.failed ≠ 0 ∨
          ((⟨false, false, 0⟩ : SyncArgs).dry_run = false ∧
            (fun (_ : Nat) => 1000000000) 0 < minFreeBytes 0)
      then 1 else 0 :=
  (C8_exit_codes ⟨false, false, 0⟩
    ⟨fun _ => Manifest.fetchError, [], fun _ => 1000000000,
      fun _ _ => true⟩).2.2 (by decide)

theorem processEntries_dry (args : SyncArgs) (env : SyncEnv) (source : String)
    (hdry : args.dry_run = true) :
    ∀ entries (st : SyncState),
      (processEntries args env source st entries).fs = st.fs ∧
      (processEntries args env source st entries).stats.failed = st.stats.failed ∧
      (processEntries args env source st entries).stats.disk_stopped =
        st.stats.disk_stopped ∧
      (∀ u d r, SyncEvent.download u d r ∈
          (processEntries args env source st entries).trace →
        SyncEvent.download u d r ∈ st.trace) := by
  intro entries
  induction entries with
  | nil => intro st; exact ⟨rfl, rfl, rfl, fun u d r h => h⟩
  | cons e rest ih =>
    intro st
    by_cases hex : pathExists st (destOf source e.unique_name) = true
    · simp only [processEntries, hex, if_pos]
      obtain ⟨h1, h2, h3, h4⟩ := ih
        { st with
          stats := { st.stats with skipped := st.stats.skipped + 1 }
          trace := st.trace ++ [.skipped source e] }
      refine ⟨h1, h2, h3, fun u d r hmem => ?_⟩
      have hm := h4 u d r hmem
      simp only [List.mem_append, List.mem_singleton] at hm
      rcases hm with hm | hm
      · exact hm
      · exact absurd hm (by simp)
    · rw [Bool.not_eq_true] at hex
      simp only [processEntries, hex, Bool.false_eq_true, if_false, hdry, if_pos]
      obtain ⟨h1, h2, h3, h4⟩ := ih
        { st with
          trace := st.trace ++ [.wouldDownload source e]
          files_to_download := st.files_to_download + 1
          total_download_size := st.total_download_size + e.size }
      refine ⟨h1, h2, h3, fun u d r hmem => ?_⟩
      have hm := h4 u d r hmem
      simp only [List.mem_append, List.mem_singleton] at hm
      rcases hm with hm | hm
      · exact hm
      · exact absurd hm (by simp)

theorem processSource_dry (args : SyncArgs) (env : SyncEnv) (st : SyncState)
    (source : String) (hdry : args.dry_run = true) :
    (processSource args env st source).fs = st.fs ∧
    (processSource args env st source).stats.failed = st.stats.failed ∧
    (processSource args env st source).stats.disk_stopped =
      st.stats.disk_stopped ∧
    (∀ u d r, SyncEvent.download u d r ∈ (processSource args env st source).trace →
      SyncEvent.download u d r ∈ st.trace) ∧
    (st.stats.disk_stopped = false →
      ∃ ok, SyncEvent.fetchManifest source ok ∈ (processSource args env st source).trace) := by
  rw [processSource]
  by_cases hds : st.stats.disk_stopped = true
  · rw [if_pos (by simp [hds])]
    exact ⟨rfl, rfl, rfl, fun u d r h => h,
      fun hc => absurd hds (by simp [hc])⟩
  · rw [Bool.not_eq_true] at hds
    rw [hds]
    simp only [Bool.false_eq_true, if_false]
    cases hm : env.manifest source with
    | fetchError =>
      refine ⟨rfl, rfl, hds, fun u d r h => ?_, fun _ => ⟨false, by simp⟩⟩
      simp only [List.mem_append, List.mem_singleton] at h
      rcases h with h | h
      · exact h
      · exact absurd h (by simp)
    | files entries =>
      obtain ⟨h1, h2, h3, h4⟩ := processEntries_dry args env source hdry entries
        { st with trace := st.trace ++ [.fetchManifest source true] }
      refine ⟨h1, h2, h3.trans hds, fun u d r hmem => ?_, fun _ => ⟨true, ?_⟩⟩
      · have hmm := h4 u d r hmem
        simp only [List.mem_append, List.mem_singleton] at hmm
        rcases hmm with hmm | hmm
        · exact hmm
        · exact absurd hmm (by simp)
      · exact processEntries_trace_mono args env source entries _ _ (by simp)

theorem foldl_dry (args : SyncArgs) (env : SyncEnv) (hdry : args.dry_run = true) :
    ∀ sources (st : SyncState),
      (List.foldl (processSource args env) st sources).fs = st.fs ∧
      (List.foldl (processSource args env) st sources).stats.failed =
        st.stats.failed ∧
      (List.foldl (processSource args env) st sources).stats.disk_stopped =
        st.stats.disk_stopped ∧
      (∀ u d r, SyncEvent.download u d r ∈
          (List.foldl (processSource args env) st sources).trace →
        SyncEvent.download u d r ∈ st.trace) ∧
      (st.stats.disk_stopped = false → ∀ s ∈ sources,
        ∃ ok, SyncEvent.fetchManifest s ok ∈
          (List.foldl (processSource args env) st sources).trace) := by
  intro sources
  induction sources with
  | nil =>
    intro st
    exact ⟨rfl, rfl, rfl, fun u d r h => h, fun _ s hs => absurd hs (by simp)⟩
  | cons s rest ih =>
    intro st
    rw [List.foldl_cons]
    obtain ⟨p1, p2, p3, p4, p5⟩ := processSource_dry args env st s hdry
    obtain ⟨h1, h2, h3, h4, h5⟩ := ih (processSource args env st s)
    refine ⟨by rw [h1, p1], by rw [h2, p2], by rw [h3, p3],
      fun u d r hm => p4 u d r (h4 u d r hm), fun hflag s' hs' => ?_⟩
    simp only [List.mem_cons] at hs'
    rcases hs' with hs' | hs'
    · subst hs'
      obtain ⟨ok, hok⟩ := p5 hflag
      exact ⟨ok, foldl_trace_mono args env rest _ _ hok⟩
    · exact h5 (by rw [p3, hflag]) s' hs'

/-- C9: with `--dry-run` the sync attempts no downloads and leaves the
file set unchanged, proceeds through every source's manifest even when the
initial free-space check fails, and returns 0; a normal (non-dry) run with
the initial check failing instead returns 1 immediately, its trace being
just the failed initial disk check. -/
theorem C9_dry_run_frame (args : SyncArgs) (env : SyncEnv) :
    (args.dry_run = true →
      (cmd_sync args env).exitCode = 0 ∧
      (cmd_sync args env).finalFs = env.fs0 ∧
      (∀ u d r, SyncEvent.download u d r ∉ (cmd_sync args env).trace) ∧
      (∀ s ∈ SOURCES, ∃ ok,
        SyncEvent.fetchManifest s ok ∈ (cmd_sync args env).trace)) ∧
    (args.dry_run = false → env.free 0 < minFreeBytes args.min_free →
      (cmd_sync args env).exitCode = 1 ∧
      (cmd_sync args env).trace = [.diskCheck (env.free 0) false]) := by
  constructor
  · intro hdry
    rw [cmd_sync]
    rw [if_neg (by simp [hdry])]
    simp only [syncFinish]
    obtain ⟨h1, h2, h3, h4, h5⟩ := foldl_dry args env hdry SOURCES
      { stats := ⟨0, 0, 0, false⟩, fs := env.fs0, checks := 1,
        trace := [.diskCheck (env.free 0)
          (decide (minFreeBytes args.min_free ≤ env.free 0))],
        files_to_download := 0, total_download_size := 0 }
    refine ⟨?_, h1, fun u d r hm => ?_, h5 rfl⟩
    · rw [h3, h2]
      rfl
    · have := h4 u d r hm
      simp at this
  · intro hdry hlt
    rw [cmd_sync]
    rw [if_pos (by simp [hdry]; omega)]
    refine ⟨rfl, ?_⟩
    have : decide (minFreeBytes args.min_free ≤ env.free 0) = false :=
      decide_eq_false (by omega)
    rw [this]

theorem C9_dry_run_frame_witness :
    (cmd_sync ⟨true, false, 500⟩
        ⟨fun _ => Manifest.fetchError, [], fun _ => 0, fun _ _ => true⟩).exitCode = 0 ∧
      (cmd_sync ⟨true, false, 500⟩
        ⟨fun _ => Manifest.fetchError, [], fun _ => 0, fun _ _ => true⟩).finalFs = [] ∧
      (∀ u d r, SyncEvent.download u d r ∉
        (cmd_sync ⟨true, false, 500⟩
          ⟨fun _ => Manifest.fetchError, [], fun _ => 0, fun _ _ => true⟩).trace) ∧
      (∀ s ∈ SOURCES, ∃ ok, SyncEvent.fetchManifest s ok ∈
        (cmd_sync ⟨true, false, 500⟩
          ⟨fun _ => Manifest.fetchError, [], fun _ => 0, fun _ _ => true⟩).trace) :=
  (C9_dry_run_frame ⟨true, false, 500⟩
    ⟨fun _ => Manifest.fetchError, [], fun _ => 0, fun _ _ => true⟩).1 rfl

/-! ## `normalize_discord_url` (lines 47-65)

A byte-level model of the function and of the parts of CPython 3.11's
`urllib.parse` it calls (`urlparse`/`urlsplit`, `parse_qs`/`parse_qsl`,
`urlencode` with `doseq=True` and `quote_plus`, `unquote`, `urlunparse`/
`urlunsplit`).  A Python `str` is modelled as its list of UTF-8 bytes
(`List Nat`, each < 256), on which all the string operations involved act
byte by byte.  `urlsplit` raising `ValueError` (the bracket-mismatch IPv6
check) is an `Except` error, which `normalize_discord_url`'s bare
`except:` turns into returning the input unchanged; the remaining
`ValueError` sources (`_checknetloc` on some non-ASCII netlocs, the
bracketed-host validation of newer CPython) concern netlocs that are
never equal to the two all-ASCII Discord hosts, for which the function
returns the input unchanged whether or not parsing raises, so they are
modelled as successful parses. -/

/-- The UTF-8 bytes of an ASCII string literal. -/
def bytesOf (s : String) : List Nat := s.toList.map Char.toNat

/-- ASCII uppercase-to-lowercase, as `str.lower` acts on ASCII bytes. -/
def lowerByte (b : Nat) : Nat := if 65 ≤ b ∧ b ≤ 90 then b + 32 else b

/-- ASCII letter. -/
def isAlphaB (b : Nat) : Bool :=
  (65 ≤ b && b ≤ 90) || (97 ≤ b && b ≤ 122)

/-- ASCII digit. -/
def isDigitB (b : Nat) : Bool := 48 ≤ b && b ≤ 57

/-- ASCII letter or digit. -/
def isAlnumB (b : Nat) : Bool := isAlphaB b || isDigitB b

/-- `scheme_chars`: letters, digits and `+-.`. -/
def isSchemeChar (b : Nat) : Bool :=
  isAlnumB b || b = 43 || b = 45 || b = 46

/-- Removal of `_UNSAFE_URL_BYTES_TO_REMOVE` (tab, CR, LF) at the top of
`urlsplit`. -/
def stripTabCrLf (l : List Nat) : List Nat :=
  l.filter (fun b => b ≠ 9 && b ≠ 13 && b ≠ 10)

/-- `s.split(c, 1)`: the part before the first occurrence of `c`, and
`some` remainder when `c` occurs. -/
def splitFirst (c : Nat) : List Nat → List Nat × Option (List Nat)
  | [] => ([], none)
  | b :: rest =>
    if b = c then ([], some rest)
    else
      let r := splitFirst c rest
      (b :: r.1, r.2)

/-- The scheme parse of `urlsplit`: split at the first `:`; accept only
when the candidate is nonempty, starts with an ASCII letter and consists
of `scheme_chars`; the accepted scheme is lowercased. -/
def schemeSplit (url : List Nat) : List Nat × List Nat :=
  match splitFirst 58 url with
  | (before, some after) =>
    if (match before with
        | [] => false
        | b :: _ => decide (b < 128) && isAlphaB b) && before.all isSchemeChar then
      (before.map lowerByte, after)
    else ([], url)
  | (_, none) => ([], url)

/-- `_splitnetloc` after the leading `//`: the netloc runs until the first
`/`, `?` or `#`. -/
def takeNetloc : List Nat → List Nat × List Nat
  | [] => ([], [])
  | b :: rest =>
    if b = 47 || b = 63 || b = 35 then ([], b :: rest)
    else
      let r := takeNetloc rest
      (b :: r.1, r.2)

/-- The five components produced by `urlsplit`. -/
structure SplitResultB where
  scheme : List Nat
  netloc : List Nat
  path : List Nat
  query : List Nat
  fragment : List Nat
deriving DecidableEq, Repr

/-- `urlsplit` (parse.py lines 433-481): strip unsafe bytes, parse the
scheme, the `//netloc` (raising on an IPv6 bracket mismatch), then split
off the fragment at the first `#` and the query at the first `?`. -/
def urlsplitE (url0 : List Nat) : Except Unit SplitResultB :=
  let url := stripTabCrLf url0
  let sp := schemeSplit url
  let scheme := sp.1
  let rest := sp.2
  if rest.take 2 = [47, 47] then
    let nl := takeNetloc (rest.drop 2)
    let netloc := nl.1
    if ((91 ∈ netloc) ∧ ¬ (93 ∈ netloc)) ∨ ((93 ∈ netloc) ∧ ¬ (91 ∈ netloc)) then
      .error ()
    else
      let fs := splitFirst 35 nl.2
      let qs := splitFirst 63 fs.1
      .ok ⟨scheme, netloc, qs.1, (qs.2).getD [], (fs.2).getD []⟩
  else
    let fs := splitFirst 35 rest
    let qs := splitFirst 63 fs.1
    .ok ⟨scheme, [], qs.1, (qs.2).getD [], (fs.2).getD []⟩

/-- `uses_params` (parse.py lines 59-61). -/
def usesParams : List (List Nat) :=
  [[], bytesOf "ftp", bytesOf "hdl", bytesOf "prospero", bytesOf "http",
    bytesOf "imap", bytesOf "https", bytesOf "shttp", bytesOf "rtsp",
    bytesOf "rtspu", bytesOf "sip", bytesOf "sips", bytesOf "mms",
    bytesOf "sftp", bytesOf "tel"]

/-- `uses_netloc` (parse.py lines 53-57). -/
def usesNetloc : List (List Nat) :=
  [[], bytesOf "ftp", bytesOf "http", bytesOf "gopher", bytesOf "nntp",
    bytesOf "telnet", bytesOf "imap", bytesOf "wais", bytesOf "file",
    bytesOf "mms", bytesOf "https", bytesOf "shttp", bytesOf "snews",
    bytesOf "prospero", bytesOf "rtsp", bytesOf "rtspu", bytesOf "rsync",
    bytesOf "svn", bytesOf "svn+ssh", bytesOf "sftp", bytesOf "nfs",
    bytesOf "git", bytesOf "git+ssh", bytesOf "ws", bytesOf "wss"]

/-- The part of the path before its last `/` and the part after it (which
contains no `/`), when a `/` occurs. -/
def splitLastSlash : List Nat → Option (List Nat × List Nat)
  | [] => none
  | b :: rest =>
    match splitLastSlash rest with
    | some r => some (b :: r.1, r.2)
    | none => if b = 47 then some ([], rest) else none

/-- `_splitparams` (parse.py lines 395-402): look for `;` in the last path
segment only (or anywhere when the path has no `/`); no `;` there leaves
the path unchanged with empty params. -/
def splitParams (p : List Nat) : List Nat × List Nat :=
  match splitLastSlash p with
  | some r =>
    match splitFirst 59 r.2 with
    | (b1, some pr) => (r.1 ++ 47 :: b1, pr)
    | (_, none) => (p, [])
  | none =>
    match splitFirst 59 p with
    | (p1, some pr) => (p1, pr)
    | (_, none) => (p, [])

/-- The six components produced by `urlparse`. -/
structure ParseResultB where
  scheme : List Nat
  netloc : List Nat
  path : List Nat
  params : List Nat
  query : List Nat
  fragment : List Nat
deriving DecidableEq, Repr

/-- `urlparse` (parse.py lines 365-392): `urlsplit`, then split params
from the path when the scheme uses them and the path contains `;`. -/
def urlparseE (url : List Nat) : Except Unit ParseResultB :=
  match urlsplitE url with
  | .error e => .error e
  | .ok r =>
    if r.scheme ∈ usesParams ∧ 59 ∈ r.path then
      let pp := splitParams r.path
      .ok ⟨r.scheme, r.netloc, pp.1, pp.2, r.query, r.fragment⟩
    else
      .ok ⟨r.scheme, r.netloc, r.path, [], r.query, r.fragment⟩

/-- The numeric value of an ASCII hex digit (both cases), as in
`_hextobyte`. -/
def hexDigitVal (b : Nat) : Option Nat :=
  if 48 ≤ b ∧ b ≤ 57 then some (b - 48)
  else if 65 ≤ b ∧ b ≤ 70 then some (b - 55)
  else if 97 ≤ b ∧ b ≤ 102 then some (b - 87)
  else none

/-- `unquote` at byte level (`unquote_to_bytes`): decode `%XX` with two
hex digits into the byte `XX`; leave a `%` not followed by two hex digits
literal. -/
def unquoteBytes : List Nat → List Nat
  | [] => []
  | [b] => [b]
  | [b, a] => [b, a]
  | b :: a :: b2 :: rest =>
    if b = 37 then
      match hexDigitVal a, hexDigitVal b2 with
      | some x, some y => (16 * x + y) :: unquoteBytes rest
      | _, _ => 37 :: unquoteBytes (a :: b2 :: rest)
    else b :: unquoteBytes (a :: b2 :: rest)

/-- `.replace('+', ' ')`, applied before `unquote` in `parse_qsl`. -/
def plusToSpace (l : List Nat) : List Nat :=
  l.map (fun b => if b = 43 then 32 else b)

/-- The upper-case hex digit of a value < 16, as `quote` formats
`'%{:02X}'`. -/
def hexDigitU (n : Nat) : Nat := if n < 10 then 48 + n else 55 + n

/-- `_ALWAYS_SAFE`: ASCII letters, digits and `_.-~` (`quote_plus` is
called with `safe=''` by `urlencode`). -/
def isSafeByte (b : Nat) : Bool :=
  isAlnumB b || b = 95 || b = 46 || b = 45 || b = 126

/-- One byte under `quote_plus` with `safe=''`: safe bytes unchanged,
space to `+`, everything else `%XX` with upper-case hex. -/
def quoteByte (b : Nat) : List Nat :=
  if isSafeByte b then [b]
  else if b = 32 then [43]
  else [37, hexDigitU (b / 16), hexDigitU (b % 16)]

/-- `quote_plus` with `safe=''` at byte level. -/
def quotePlusBytes (l : List Nat) : List Nat := l.flatMap quoteByte

/-- Full `str.split(sep)` semantics: `"" → [""]`, adjacent separators give
empty pieces. -/
def splitSep (c : Nat) : List Nat → List (List Nat)
  | [] => [[]]
  | b :: rest =>
    let r := splitSep c rest
    if b = c then [] :: r
    else
      match r with
      | h :: t => (b :: h) :: t
      | [] => [[b]]

/-- `parse_qsl` with default arguments (parse.py lines 703-768): split the
query on `&`, skip empty pieces, pieces without `=` and pieces with an
empty value, and decode names and values with `+`-to-space and
`unquote`. -/
def parseQsl (qs : List Nat) : List (List Nat × List Nat) :=
  let pairs := if qs = [] then [] else splitSep 38 qs
  pairs.filterMap (fun nv =>
    if nv = [] then none
    else
      match splitFirst 61 nv with
      | (_, none) => none
      | (name, some value) =>
        if value = [] then none
        else some (unquoteBytes (plusToSpace name), unquoteBytes (plusToSpace value)))

/-- Insertion of one decoded pair into the result dict of `parse_qs`
(parse.py lines 695-699): append to an existing key's list, else add the
key at the end. -/
def insertPair (acc : List (List Nat × List (List Nat))) (k v : List Nat) :
    List (List Nat × List (List Nat)) :=
  match acc with
  | [] => [(k, [v])]
  | kv :: rest =>
    if kv.1 = k then (kv.1, kv.2 ++ [v]) :: rest
    else kv :: insertPair rest k v

/-- `parse_qs` with default arguments: group the `parse_qsl` pairs by key,
in first-occurrence order. -/
def parseQsB (qs : List Nat) : List (List Nat × List (List Nat)) :=
  (parseQsl qs).foldl (fun acc kv => insertPair acc kv.1 kv.2) []

/-- The `query.pop(param, None)` loop for the expiring params
`ex`, `is`, `hm` (media-sync.py lines 58-59). -/
def popExpiring (d : List (List Nat × List (List Nat))) :
    List (List Nat × List (List Nat)) :=
  d.filter (fun kv =>
    ¬ (kv.1 = bytesOf "ex" ∨ kv.1 = bytesOf "is" ∨ kv.1 = bytesOf "hm"))

/-- `sep.join(pieces)` for a one-byte separator. -/
def joinSep (c : Nat) : List (List Nat) → List Nat
  | [] => []
  | [p] => p
  | p :: ps => p ++ c :: joinSep c ps

/-- `urlencode(query, doseq=True)` (parse.py lines 911-977): one
`quote_plus(k) + '=' + quote_plus(v)` piece per value, joined with
`&`. -/
def urlencodeB (d : List (List Nat × List (List Nat))) : List Nat :=
  joinSep 38
    (d.flatMap (fun kv => kv.2.map (fun v => quotePlusBytes kv.1 ++ 61 :: quotePlusBytes v)))

/-- `urlunsplit` (parse.py lines 494-511). -/
def urlunsplitB (scheme netloc path query fragment : List Nat) : List Nat :=
  let url1 :=
    if netloc ≠ [] ∨ (scheme ≠ [] ∧ scheme ∈ usesNetloc ∧ path.take 2 ≠ [47, 47]) then
      47 :: 47 :: (netloc ++
        (if path ≠ [] ∧ path.take 1 ≠ [47] then 47 :: path else path))
    else path
  let url2 := if scheme ≠ [] then scheme ++ 58 :: url1 else url1
  let url3 := if query ≠ [] then url2 ++ 63 :: query else url2
  if fragment ≠ [] then url3 ++ 35 :: fragment else url3

/-- `urlunparse` (parse.py lines 483-492): rejoin params with `;`, then
`urlunsplit`. -/
def urlunparseB (scheme netloc path params query fragment : List Nat) : List Nat :=
  urlunsplitB scheme netloc
    (if params ≠ [] then path ++ 59 :: params else path) query fragment

/-- `'cdn.discordapp.com'` as bytes. -/
def cdnHost : List Nat := bytesOf "cdn.discordapp.com"

/-- `'media.discordapp.net'` as bytes. -/
def mediaHost : List Nat := bytesOf "media.discordapp.net"

/-- `normalize_discord_url` (media-sync.py lines 47-65): for the two
Discord CDN hosts, drop the expiring query params `ex`, `is`, `hm` and
rebuild the URL; return the input unchanged for every other host and when
parsing raises. -/
def normalize_discord_url (url : List Nat) : List Nat :=
  match urlparseE url with
  | .error _ => url
  | .ok r =>
    if r.netloc = cdnHost ∨ r.netloc = mediaHost then
      let query := popExpiring (parseQsB r.query)
      let new_query := if query ≠ [] then urlencodeB query else []
      urlunparseB r.scheme r.netloc r.path r.params new_query r.fragment
    else url

/-! ### Splitting lemmas -/

theorem splitFirst_not_mem_left (c : Nat) :
    ∀ l : List Nat, c ∉ (splitFirst c l).1 := by
  intro l
  induction l with
  | nil => simp [splitFirst]
  | cons b rest ih =>
    by_cases hb : b = c
    · simp [splitFirst, hb]
    · simp [splitFirst, hb]
      exact ⟨fun h => absurd h.symm hb, ih⟩

theorem splitFirst_mem_left (c : Nat) :
    ∀ l b, b ∈ (splitFirst c l).1 → b ∈ l := by
  intro l
  induction l with
  | nil => intro b h; simp [splitFirst] at h
  | cons x rest ih =>
    intro b h
    by_cases hx : x = c
    · simp [splitFirst, hx] at h
    · simp only [splitFirst, hx, if_false, ite_false] at h
      simp only [List.mem_cons] at h
      rcases h with h | h
      · simp [h]
      · exact List.mem_cons_of_mem x (ih b h)

theorem splitFirst_mem_right (c : Nat) :
    ∀ l r b, (splitFirst c l).2 = some r → b ∈ r → b ∈ l := by
  intro l
  induction l with
  | nil => intro r b h; simp [splitFirst] at h
  | cons x rest ih =>
    intro r b h hb
    by_cases hx : x = c
    · simp [splitFirst, hx] at h
      subst h
      exact List.mem_cons_of_mem x hb
    · simp only [splitFirst, hx, if_false, ite_false] at h
      exact List.mem_cons_of_mem x (ih r b h hb)

theorem splitFirst_none (c : Nat) :
    ∀ l : List Nat, c ∉ l → splitFirst c l = (l, none) := by
  intro l
  induction l with
  | nil => intro _; rfl
  | cons x rest ih =>
    intro h
    have hx : ¬ x = c := fun he => h (by simp [he])
    have hr : c ∉ rest := fun hc => h (List.mem_cons_of_mem x hc)
    simp [splitFirst, hx, ih hr]

theorem splitFirst_append (c : Nat) :
    ∀ x y : List Nat, c ∉ x → splitFirst c (x ++ c :: y) = (x, some y) := by
  intro x
  induction x with
  | nil => intro y _; simp [splitFirst]
  | cons b rest ih =>
    intro y h
    have hb : ¬ b = c := fun he => h (by simp [he])
    have hr : c ∉ rest := fun hc => h (List.mem_cons_of_mem b hc)
    simp [splitFirst, hb, ih y hr]

theorem splitFirst_some_structure (c : Nat) :
    ∀ l a r, splitFirst c l = (a, some r) → l = a ++ c :: r ∧ c ∉ a := by
  intro l
  induction l with
  | nil => intro a r h; simp [splitFirst] at h
  | cons x rest ih =>
    intro a r h
    by_cases hx : x = c
    · subst hx
      simp [splitFirst] at h
      obtain ⟨ha, hr⟩ := h
      subst ha; subst hr
      exact ⟨rfl, by simp⟩
    · simp only [splitFirst, hx, if_false, ite_false] at h
      rcases hsp : splitFirst c rest with ⟨a2, r2⟩
      rw [hsp] at h
      injection h with ha hr
      simp only at ha hr
      obtain ⟨h1, h2⟩ := ih a2 r (by rw [hsp, hr])
      subst ha
      constructor
      · rw [h1]
        simp
      · simp only [List.mem_cons]
        rintro (he | he)
        · exact hx he.symm
        · exact h2 he

theorem takeNetloc_mem :
    ∀ l b, (b ∈ (takeNetloc l).1 → b ∈ l) ∧ (b ∈ (takeNetloc l).2 → b ∈ l) := by
  intro l
  induction l with
  | nil => intro b; simp [takeNetloc]
  | cons x rest ih =>
    intro b
    by_cases hx : (x = 47 || x = 63 || x = 35) = true
    · simp [takeNetloc, hx]
    · constructor
      · intro h
        simp [takeNetloc, hx] at h
        rcases h with h | h
        · simp [h]
        · exact List.mem_cons_of_mem x ((ih b).1 h)
      · intro h
        simp [takeNetloc, hx] at h
        exact List.mem_cons_of_mem x ((ih b).2 h)

theorem takeNetloc_append (n rest : List Nat)
    (hn : ∀ b ∈ n, ¬ (b = 47 ∨ b = 63 ∨ b = 35))
    (hrest : rest = [] ∨ ∃ h t, rest = h :: t ∧ (h = 47 ∨ h = 63 ∨ h = 35)) :
    takeNetloc (n ++ rest) = (n, rest) := by
  induction n with
  | nil =>
    rcases hrest with h | ⟨h, t, ht, hsep⟩
    · subst h; rfl
    · subst ht
      simp only [List.nil_append, takeNetloc]
      rw [if_pos (by simpa [or_assoc] using hsep)]
  | cons x nrest ih =>
    have hx : ¬ (x = 47 ∨ x = 63 ∨ x = 35) := hn x (by simp)
    simp only [List.cons_append, takeNetloc]
    rw [if_neg (by simpa [or_assoc] using hx)]
    have := ih (fun b hb => hn b (List.mem_cons_of_mem x hb))
    simp [List.append_eq, this]

theorem stripTabCrLf_id (l : List Nat)
    (h : ∀ b ∈ l, b ≠ 9 ∧ b ≠ 13 ∧ b ≠ 10) : stripTabCrLf l = l := by
  rw [stripTabCrLf, List.filter_eq_self]
  intro b hb
  obtain ⟨h1, h2, h3⟩ := h b hb
  simp [h1, h2, h3]

theorem stripTabCrLf_mem (l : List Nat) (b : Nat) (h : b ∈ stripTabCrLf l) :
    b ∈ l ∧ b ≠ 9 ∧ b ≠ 13 ∧ b ≠ 10 := by
  rw [stripTabCrLf] at h
  obtain ⟨h1, h2⟩ := List.mem_filter.mp h
  simp only [Bool.and_eq_true, ne_eq, decide_eq_true_eq] at h2
  exact ⟨h1, by simpa using h2.1.1, by simpa using h2.1.2, by simpa using h2.2⟩

/-! ### Percent-encoding round trip -/

theorem hexDigitU_val : ∀ n, n < 16 → hexDigitVal (hexDigitU n) = some n := by decide

theorem hexDigitU_tame : ∀ n, n < 16 →
    hexDigitU n ≠ 43 ∧ hexDigitU n ≠ 37 := by decide

theorem hexDigitVal_lt (a x : Nat) (h : hexDigitVal a = some x) : x < 16 := by
  rw [hexDigitVal] at h
  split at h
  · next h1 => injection h with h2; omega
  · split at h
    · next h1 => injection h with h2; omega
    · split at h
      · next h1 => injection h with h2; omega
      · exact absurd h (by simp)

set_option maxRecDepth 4000 in
theorem quoteByte_alphabet : ∀ b, b < 256 → ∀ c ∈ quoteByte b,
    c < 128 ∧ c ≠ 38 ∧ c ≠ 61 ∧ c ≠ 35 ∧ c ≠ 63 ∧
      c ≠ 9 ∧ c ≠ 13 ∧ c ≠ 10 ∧ c ≠ 47 := by decide

theorem quoteByte_ne_nil (b : Nat) : quoteByte b ≠ [] := by
  rw [quoteByte]
  split
  · simp
  · split <;> simp

theorem unquote_cons_ne37 (b : Nat) (hb : ¬ b = 37) :
    ∀ t, unquoteBytes (b :: t) = b :: unquoteBytes t := by
  intro t
  match t with
  | [] => rfl
  | [a] => rfl
  | a :: b2 :: t2 => simp [unquoteBytes, hb]

theorem unquote_quote_block (b : Nat) (hb : b < 256) (t : List Nat) :
    unquoteBytes (plusToSpace (quoteByte b) ++ t) = b :: unquoteBytes t := by
  by_cases hsafe : isSafeByte b = true
  · have h43 : ¬ b = 43 := by
      intro h
      subst h
      exact absurd hsafe (by decide)
    have h37 : ¬ b = 37 := by
      intro h
      subst h
      exact absurd hsafe (by decide)
    rw [quoteByte, if_pos hsafe]
    simp only [plusToSpace, List.map_cons, List.map_nil, if_neg h43,
      List.cons_append, List.nil_append]
    exact unquote_cons_ne37 b h37 t
  · by_cases h32 : b = 32
    · subst h32
      rw [quoteByte]
      norm_num [isSafeByte, isAlnumB, isAlphaB, isDigitB]
      simp only [plusToSpace, List.map_cons, List.map_nil, List.cons_append,
        List.nil_append]
      norm_num
      exact unquote_cons_ne37 32 (by omega) t
    · rw [quoteByte, if_neg hsafe, if_neg h32]
      have hq : b / 16 < 16 := by omega
      have hr : b % 16 < 16 := by omega
      obtain ⟨hq43, hq37⟩ := hexDigitU_tame _ hq
      obtain ⟨hr43, hr37⟩ := hexDigitU_tame _ hr
      simp only [plusToSpace, List.map_cons, List.map_nil, List.cons_append,
        List.nil_append, if_neg hq43, if_neg hr43,
        if_neg (by omega : ¬ (37 : Nat) = 43)]
      rw [show unquoteBytes (37 :: hexDigitU (b / 16) :: hexDigitU (b % 16) :: t) =
          (16 * (b / 16) + b % 16) :: unquoteBytes t by
        simp [unquoteBytes, hexDigitU_val _ hq, hexDigitU_val _ hr]]
      congr 1
      omega

theorem unquote_quote (v : List Nat) (hv : ∀ b ∈ v, b < 256) :
    unquoteBytes (plusToSpace (quotePlusBytes v)) = v := by
  induction v with
  | nil => rfl
  | cons c v2 ih =>
    have happ : quotePlusBytes (c :: v2) = quoteByte c ++ quotePlusBytes v2 := by
      simp [quotePlusBytes]
    have hmap : plusToSpace (quoteByte c ++ quotePlusBytes v2) =
        plusToSpace (quoteByte c) ++ plusToSpace (quotePlusBytes v2) := by
      simp [plusToSpace]
    rw [happ, hmap, unquote_quote_block c (hv c (by simp)) _,
      ih (fun b hb => hv b (List.mem_cons_of_mem c hb))]

theorem unquoteBytes_ne_nil : ∀ l : List Nat, l ≠ [] → unquoteBytes l ≠ [] := by
  intro l
  match l with
  | [] => intro h; exact absurd rfl h
  | [b] => intro _; simp [unquoteBytes]
  | [b, a] => intro _; simp [unquoteBytes]
  | b :: a :: b2 :: t =>
    intro _
    by_cases hb : b = 37
    · subst hb
      rw [unquoteBytes]
      simp only [if_pos rfl]
      rcases h1 : hexDigitVal a with _ | x <;> rcases h2 : hexDigitVal b2 with _ | y <;>
        simp
    · rw [unquote_cons_ne37 b hb]
      simp

theorem unquoteBytes_lt256 : ∀ l : List Nat, (∀ b ∈ l, b < 256) →
    ∀ b ∈ unquoteBytes l, b < 256 := by
  intro l
  induction l using unquoteBytes.induct with
  | case1 =>
    intro _ b hb
    simp [unquoteBytes] at hb
  | case2 c =>
    intro h b hb
    simp [unquoteBytes] at hb
    subst hb
    exact h b (by simp)
  | case3 c a =>
    intro h b hb
    simp [unquoteBytes] at hb
    rcases hb with hb | hb
    · subst hb; exact h b (by simp)
    · subst hb; exact h b (by simp)
  | case4 p q r x y h1 h2 ih =>
    intro h b hb
    rw [unquoteBytes] at hb
    simp only [if_pos rfl, if_true, h1, h2, List.mem_cons] at hb
    rcases hb with hb | hb
    · have hx := hexDigitVal_lt _ _ h1
      have hy := hexDigitVal_lt _ _ h2
      omega
    · exact ih (fun x2 hx2 => h x2 (by simp [hx2])) b hb
  | case5 p q r hnot ih =>
    intro h b hb
    rw [unquoteBytes] at hb
    simp only [if_pos rfl, if_true, List.mem_cons] at hb
    rcases hb with hb | hb
    · omega
    · exact ih (fun x2 hx2 => h x2 (List.mem_cons_of_mem 37 hx2)) b hb
  | case6 c a b2 t hc ih =>
    intro h b hb
    rw [unquote_cons_ne37 c hc] at hb
    simp only [List.mem_cons] at hb
    rcases hb with hb | hb
    · subst hb; exact h b (by simp)
    · exact ih (fun x hx => h x (List.mem_cons_of_mem c hx)) b hb

theorem quotePlus_ne_nil (v : List Nat) (h : v ≠ []) : quotePlusBytes v ≠ [] := by
  match v with
  | [] => exact absurd rfl h
  | c :: v2 =>
    rw [quotePlusBytes, List.flatMap_cons]
    intro hc
    rcases List.append_eq_nil.mp hc with ⟨h1, _⟩
    exact quoteByte_ne_nil c h1

theorem quotePlus_alphabet (v : List Nat) (hv : ∀ b ∈ v, b < 256) :
    ∀ c ∈ quotePlusBytes v,
      c < 128 ∧ c ≠ 38 ∧ c ≠ 61 ∧ c ≠ 35 ∧ c ≠ 63 ∧
        c ≠ 9 ∧ c ≠ 13 ∧ c ≠ 10 ∧ c ≠ 47 := by
  intro c hc
  rw [quotePlusBytes, List.mem_flatMap] at hc
  obtain ⟨b, hb, hcb⟩ := hc
  exact quoteByte_alphabet b (hv b hb) c hcb

/-! ### Query encoding round trip -/

theorem splitSep_ne_nil (c : Nat) : ∀ l : List Nat, splitSep c l ≠ [] := by
  intro l
  induction l with
  | nil => simp [splitSep]
  | cons b rest ih =>
    by_cases hb : b = c
    · simp [splitSep, hb]
    · simp only [splitSep, hb, if_false, ite_false]
      rcases h : splitSep c rest with _ | ⟨p, t⟩
      · exact absurd h ih
      · simp

theorem splitSep_no (c : Nat) : ∀ l : List Nat, c ∉ l → splitSep c l = [l] := by
  intro l
  induction l with
  | nil => intro _; rfl
  | cons b rest ih =>
    intro h
    have hb : ¬ b = c := fun he => h (by simp [he])
    have hr : c ∉ rest := fun hc => h (List.mem_cons_of_mem b hc)
    simp [splitSep, hb, ih hr]

theorem splitSep_append (c : Nat) :
    ∀ p l : List Nat, c ∉ p → splitSep c (p ++ c :: l) = p :: splitSep c l := by
  intro p
  induction p with
  | nil => intro l _; simp [splitSep]
  | cons b rest ih =>
    intro l h
    have hb : ¬ b = c := fun he => h (by simp [he])
    have hr : c ∉ rest := fun hc => h (List.mem_cons_of_mem b hc)
    simp only [List.cons_append, splitSep, hb, if_false, ite_false]
    rw [show (rest.append (c :: l)) = rest ++ c :: l from rfl, ih l hr]

theorem splitSep_joinSep (c : Nat) :
    ∀ pieces : List (List Nat), pieces ≠ [] → (∀ p ∈ pieces, c ∉ p) →
      splitSep c (joinSep c pieces) = pieces := by
  intro pieces
  induction pieces with
  | nil => intro h _; exact absurd rfl h
  | cons p ps ih =>
    intro _ hall
    cases ps with
    | nil => exact splitSep_no c p (hall p (by simp))
    | cons p2 ps2 =>
      rw [show joinSep c (p :: p2 :: ps2) = p ++ c :: joinSep c (p2 :: ps2) from rfl]
      rw [splitSep_append c p _ (hall p (by simp))]
      rw [ih (by simp) (fun q hq => hall q (List.mem_cons_of_mem p hq))]

theorem splitSep_mem (c : Nat) :
    ∀ l p, p ∈ splitSep c l → ∀ b ∈ p, b ∈ l := by
  intro l
  induction l with
  | nil =>
    intro p hp b hb
    simp [splitSep] at hp
    subst hp
    simp at hb
  | cons x rest ih =>
    intro p hp b hb
    by_cases hx : x = c
    · simp only [splitSep, hx, if_true, List.mem_cons] at hp
      rcases hp with hp | hp
      · subst hp; simp at hb
      · exact List.mem_cons_of_mem x (ih p hp b hb)
    · simp only [splitSep, hx, if_false, ite_false] at hp
      rcases hsp : splitSep c rest with _ | ⟨q, t⟩
      · exact absurd hsp (splitSep_ne_nil c rest)
      · rw [hsp] at hp
        simp only [List.mem_cons] at hp
        rcases hp with hp | hp
        · subst hp
          simp only [List.mem_cons] at hb
          rcases hb with hb | hb
          · simp [hb]
          · exact List.mem_cons_of_mem x (ih q (by rw [hsp]; simp) b hb)
        · exact List.mem_cons_of_mem x (ih p (by rw [hsp]; simp [hp]) b hb)

theorem filterMap_all_some {α β : Type} (f : α → Option β) (g : α → β) :
    ∀ l : List α, (∀ x ∈ l, f x = some (g x)) → l.filterMap f = l.map g := by
  intro l
  induction l with
  | nil => intro _; rfl
  | cons x rest ih =>
    intro h
    rw [List.filterMap_cons, h x (by simp), List.map_cons,
      ih (fun y hy => h y (List.mem_cons_of_mem x hy))]

/-- The encoded `k=v` pieces of `urlencode(d, doseq=True)`, in order. -/
def encPieces (d : List (List Nat × List (List Nat))) : List (List Nat) :=
  d.flatMap (fun kv => kv.2.map (fun v => quotePlusBytes kv.1 ++ 61 :: quotePlusBytes v))

/-- The ungrouped pairs of a dict, in order. -/
def flatPairs (d : List (List Nat × List (List Nat))) : List (List Nat × List Nat) :=
  d.flatMap (fun kv => kv.2.map (fun v => (kv.1, v)))

/-- Well-formedness of a `parse_qs` result: keys distinct, every key with
a nonempty list of nonempty values, all bytes < 256. -/
def WFDict (d : List (List Nat × List (List Nat))) : Prop :=
  (d.map Prod.fst).Nodup ∧
  (∀ kv ∈ d, kv.2 ≠ [] ∧ ∀ v ∈ kv.2, v ≠ [] ∧ ∀ b ∈ v, b < 256) ∧
  (∀ kv ∈ d, ∀ b ∈ kv.1, b < 256)

theorem urlencodeB_eq_joinSep (d : List (List Nat × List (List Nat))) :
    urlencodeB d = joinSep 38 (encPieces d) := rfl

theorem encPieces_no38 (d : List (List Nat × List (List Nat))) (hwf : WFDict d) :
    ∀ p ∈ encPieces d, (38 : Nat) ∉ p := by
  intro p hp
  rw [encPieces, List.mem_flatMap] at hp
  obtain ⟨kv, hkv, hp2⟩ := hp
  rw [List.mem_map] at hp2
  obtain ⟨v, hv, hpv⟩ := hp2
  subst hpv
  intro hmem
  rw [List.mem_append] at hmem
  rcases hmem with hmem | hmem
  · exact (quotePlus_alphabet kv.1 (hwf.2.2 kv hkv) 38 hmem).2.1 rfl
  · simp only [List.mem_cons] at hmem
    rcases hmem with hmem | hmem
    · omega
    · exact (quotePlus_alphabet v ((hwf.2.1 kv hkv).2 v hv).2 38 hmem).2.1 rfl

theorem parseQsl_enc (d : List (List Nat × List (List Nat))) (hwf : WFDict d)
    (hne : d ≠ []) : parseQsl (urlencodeB d) = flatPairs d := by
  have hpieces_ne : encPieces d ≠ [] := by
    rcases d with _ | ⟨kv, rest⟩
    · exact absurd rfl hne
    · rw [encPieces, List.flatMap_cons]
      intro hc
      rcases List.append_eq_nil.mp hc with ⟨h1, _⟩
      rcases hv : kv.2 with _ | ⟨v, vs⟩
      · exact (hwf.2.1 kv (by simp)).1 hv
      · rw [hv] at h1
        simp at h1
  have hqs_ne : urlencodeB d ≠ [] := by
    rw [urlencodeB_eq_joinSep]
    rcases hep : encPieces d with _ | ⟨p, ps⟩
    · exact absurd hep hpieces_ne
    · have hp_ne : p ≠ [] := by
        have hpmem : p ∈ encPieces d := by rw [hep]; simp
        rw [encPieces, List.mem_flatMap] at hpmem
        obtain ⟨kv, hkv, hp2⟩ := hpmem
        rw [List.mem_map] at hp2
        obtain ⟨v, hv, hpv⟩ := hp2
        subst hpv
        intro hc
        rcases List.append_eq_nil.mp hc with ⟨_, h2⟩
        simp at h2
      cases ps with
      | nil => exact hp_ne
      | cons p2 ps2 =>
        rw [show joinSep 38 (p :: p2 :: ps2) = p ++ 38 :: joinSep 38 (p2 :: ps2)
          from rfl]
        intro hc
        rcases List.append_eq_nil.mp hc with ⟨_, h2⟩
        simp at h2
  rw [parseQsl]
  simp only [hqs_ne, if_false, ite_false]
  rw [urlencodeB_eq_joinSep, splitSep_joinSep 38 _ hpieces_ne (encPieces_no38 d hwf)]
  clear hne hqs_ne hpieces_ne
  rw [encPieces, flatPairs]
  revert hwf
  induction d with
  | nil => intro _; rfl
  | cons kv rest ih =>
    intro hwf
    rw [List.flatMap_cons, List.flatMap_cons, List.filterMap_append]
    have hwf_rest : WFDict rest := by
      refine ⟨hwf.1.of_cons, fun kv2 h2 => hwf.2.1 kv2 (List.mem_cons_of_mem kv h2),
        fun kv2 h2 => hwf.2.2 kv2 (List.mem_cons_of_mem kv h2)⟩
    rw [ih hwf_rest]
    congr 1
    have hk256 : ∀ b ∈ kv.1, b < 256 := hwf.2.2 kv (by simp)
    have hvs := hwf.2.1 kv (by simp)
    rw [List.filterMap_map]
    rw [filterMap_all_some _ (fun v => (kv.1, v)) kv.2]
    intro v hv
    obtain ⟨hv_ne, hv256⟩ := hvs.2 v hv
    have hpiece_ne : quotePlusBytes kv.1 ++ 61 :: quotePlusBytes v ≠ [] := by
      intro hc
      rcases List.append_eq_nil.mp hc with ⟨_, h2⟩
      simp at h2
    simp only [Function.comp]
    simp only [hpiece_ne, if_false, ite_false]
    have h61 : (61 : Nat) ∉ quotePlusBytes kv.1 := by
      intro hmem
      exact (quotePlus_alphabet kv.1 hk256 61 hmem).2.2.1 rfl
    rw [splitFirst_append 61 _ _ h61]
    have hQv_ne : quotePlusBytes v ≠ [] := quotePlus_ne_nil v hv_ne
    simp only [hQv_ne, if_false, ite_false]
    rw [unquote_quote kv.1 hk256, unquote_quote v hv256]

theorem insertPair_not_mem (k v : List Nat) :
    ∀ acc, k ∉ acc.map Prod.fst → insertPair acc k v = acc ++ [(k, [v])] := by
  intro acc
  induction acc with
  | nil => intro _; rfl
  | cons kv rest ih =>
    intro h
    have h1 : ¬ kv.1 = k := by
      intro he
      exact h (by simp [← he])
    rw [insertPair]
    simp only [h1, if_false, ite_false]
    rw [ih (fun hc => h (by simp [hc]))]
    simp

theorem insertPair_last (k v : List Nat) (u : List (List Nat)) :
    ∀ acc, k ∉ acc.map Prod.fst →
      insertPair (acc ++ [(k, u)]) k v = acc ++ [(k, u ++ [v])] := by
  intro acc
  induction acc with
  | nil => simp [insertPair]
  | cons kv rest ih =>
    intro h
    have h1 : ¬ kv.1 = k := by
      intro he
      exact h (by simp [← he])
    rw [List.cons_append, insertPair]
    simp only [h1, if_false, ite_false]
    rw [ih (fun hc => h (by simp [hc]))]
    simp

theorem foldl_insert_same_key (k : List Nat) :
    ∀ (vs : List (List Nat)) (acc : List (List Nat × List (List Nat)))
      (u : List (List Nat)), k ∉ acc.map Prod.fst →
      List.foldl (fun a kv => insertPair a kv.1 kv.2) (acc ++ [(k, u)])
        (vs.map (fun v => (k, v))) = acc ++ [(k, u ++ vs)] := by
  intro vs
  induction vs with
  | nil => intro acc u _; simp
  | cons v vs2 ih =>
    intro acc u h
    rw [List.map_cons, List.foldl_cons]
    rw [show insertPair (acc ++ [(k, u)]) (k, v).1 (k, v).2 = acc ++ [(k, u ++ [v])]
      from insertPair_last k v u acc h]
    rw [ih acc (u ++ [v]) h]
    simp

theorem foldl_insert_flat :
    ∀ (d : List (List Nat × List (List Nat))) (acc : List (List Nat × List (List Nat))),
      (d.map Prod.fst).Nodup →
      (∀ k ∈ d.map Prod.fst, k ∉ acc.map Prod.fst) →
      (∀ kv ∈ d, kv.2 ≠ []) →
      List.foldl (fun a kv => insertPair a kv.1 kv.2) acc (flatPairs d) = acc ++ d := by
  intro d
  induction d with
  | nil => intro acc _ _ _; simp [flatPairs]
  | cons kv rest ih =>
    intro acc hnodup hdisj hne
    rw [List.map_cons] at hnodup
    rw [flatPairs, List.flatMap_cons, List.foldl_append]
    have hkacc : kv.1 ∉ acc.map Prod.fst := hdisj kv.1 (by simp)
    rcases hv : kv.2 with _ | ⟨v0, vs⟩
    · exact absurd hv (hne kv (by simp))
    · rw [List.map_cons, List.foldl_cons]
      rw [show insertPair acc (kv.1, v0).1 (kv.1, v0).2 = acc ++ [(kv.1, [v0])]
        from insertPair_not_mem kv.1 v0 acc hkacc]
      rw [foldl_insert_same_key kv.1 vs acc [v0] hkacc]
      have hstep : acc ++ [(kv.1, [v0] ++ vs)] = acc ++ [kv] := by
        have hkv : kv = (kv.1, kv.2) := rfl
        rw [hkv, hv]
        simp
      rw [hstep]
      have hdisj2 : ∀ k ∈ List.map Prod.fst rest, k ∉ List.map Prod.fst (acc ++ [kv]) := by
        intro k hk
        simp only [List.map_append, List.mem_append]
        rintro (hc | hc)
        · exact hdisj k (by simp [hk]) hc
        · simp only [List.map_cons, List.map_nil, List.mem_singleton] at hc
          exact (List.nodup_cons.mp hnodup).1 (hc ▸ hk)
      have ihr := ih (acc ++ [kv]) (List.nodup_cons.mp hnodup).2 hdisj2
        (fun kv2 h2 => hne kv2 (List.mem_cons_of_mem kv h2))
      rw [flatPairs] at ihr
      rw [ihr]
      simp

theorem parseQsB_enc (d : List (List Nat × List (List Nat))) (hwf : WFDict d) :
    parseQsB (urlencodeB d) = d := by
  rcases hd : d with _ | ⟨kv, rest⟩
  · rfl
  · rw [← hd]
    rw [parseQsB, parseQsl_enc d hwf (by rw [hd]; simp)]
    have := foldl_insert_flat d [] hwf.1 (by simp)
      (fun kv2 h2 => (hwf.2.1 kv2 h2).1)
    simpa using this

theorem plusToSpace_ne_nil (l : List Nat) (h : l ≠ []) : plusToSpace l ≠ [] := by
  rw [plusToSpace]
  simpa using h

theorem plusToSpace_lt256 (l : List Nat) (h : ∀ b ∈ l, b < 256) :
    ∀ b ∈ plusToSpace l, b < 256 := by
  intro b hb
  rw [plusToSpace, List.mem_map] at hb
  obtain ⟨a, ha, hab⟩ := hb
  by_cases h43 : a = 43
  · rw [← hab, if_pos h43]; omega
  · rw [← hab, if_neg h43]; exact h a ha

theorem parseQsl_wf (qs : List Nat) (h256 : ∀ b ∈ qs, b < 256) :
    ∀ kv ∈ parseQsl qs, kv.2 ≠ [] ∧ (∀ b ∈ kv.1, b < 256) ∧ ∀ b ∈ kv.2, b < 256 := by
  intro kv hkv
  rw [parseQsl] at hkv
  by_cases hqs : qs = []
  · simp [hqs] at hkv
  · simp only [hqs, if_false, ite_false] at hkv
    rw [List.mem_filterMap] at hkv
    obtain ⟨piece, hpiece, hf⟩ := hkv
    have hmem : ∀ b ∈ piece, b < 256 :=
      fun b hb => h256 b (splitSep_mem 38 qs piece hpiece b hb)
    by_cases hne : piece = []
    · rw [if_pos hne] at hf
      exact absurd hf (by simp)
    · rw [if_neg hne] at hf
      rcases hsp : splitFirst 61 piece with ⟨name, ov⟩
      rw [hsp] at hf
      cases ov with
      | none => exact absurd hf (by simp)
      | some value =>
        have hf2 : (if value = [] then none
            else some (unquoteBytes (plusToSpace name), unquoteBytes (plusToSpace value))) =
            some kv := hf
        by_cases hv : value = []
        · rw [if_pos hv] at hf2
          exact absurd hf2 (by simp)
        · rw [if_neg hv] at hf2
          injection hf2 with hf2
          subst hf2
          have hname_mem : ∀ b ∈ name, b < 256 := fun b hb =>
        hmem b (splitFirst_mem_left 61 piece b (by rw [hsp]; exact hb))
          have hval_mem : ∀ b ∈ value, b < 256 := fun b hb =>
        hmem b (splitFirst_mem_right 61 piece value b (by rw [hsp]) hb)
          refine ⟨?_, ?_, ?_⟩
          · exact unquoteBytes_ne_nil _ (plusToSpace_ne_nil value hv)
          · exact unquoteBytes_lt256 _ (plusToSpace_lt256 name hname_mem)
          · exact unquoteBytes_lt256 _ (plusToSpace_lt256 value hval_mem)

theorem insertPair_keys (k v : List Nat) :
    ∀ acc, (insertPair acc k v).map Prod.fst =
      if k ∈ acc.map Prod.fst then acc.map Prod.fst else acc.map Prod.fst ++ [k] := by
  intro acc
  induction acc with
  | nil => simp [insertPair]
  | cons kv rest ih =>
    by_cases h1 : kv.1 = k
    · rw [insertPair]
      simp [h1]
    · rw [insertPair]
      simp only [h1, if_false, ite_false, List.map_cons, ih]
      by_cases h2 : k ∈ rest.map Prod.fst
      · simp [h2, Ne.symm h1]
      · simp [h2, Ne.symm h1]

theorem insertPair_mem (k v : List Nat) :
    ∀ acc kv2, kv2 ∈ insertPair acc k v →
      kv2 ∈ acc ∨ kv2 = (k, [v]) ∨ ∃ kv0 ∈ acc, kv2 = (kv0.1, kv0.2 ++ [v]) := by
  intro acc
  induction acc with
  | nil =>
    intro kv2 h
    simp [insertPair] at h
    exact Or.inr (Or.inl h)
  | cons kv rest ih =>
    intro kv2 h
    by_cases h1 : kv.1 = k
    · rw [insertPair] at h
      simp only [h1, if_true, ite_true, List.mem_cons] at h
      rcases h with h | h
      · exact Or.inr (Or.inr ⟨kv, by simp, by rw [h, h1]⟩)
      · exact Or.inl (List.mem_cons_of_mem kv h)
    · rw [insertPair] at h
      simp only [h1, if_false, ite_false, List.mem_cons] at h
      rcases h with h | h
      · exact Or.inl (by simp [h])
      · rcases ih kv2 h with h2 | h2 | ⟨kv0, hkv0, he⟩
        · exact Or.inl (List.mem_cons_of_mem kv h2)
        · exact Or.inr (Or.inl h2)
        · exact Or.inr (Or.inr ⟨kv0, List.mem_cons_of_mem kv hkv0, he⟩)

theorem parseQsB_wf (qs : List Nat) (h256 : ∀ b ∈ qs, b < 256) :
    WFDict (parseQsB qs) := by
  rw [parseQsB]
  have hpairs := parseQsl_wf qs h256
  have hgen : ∀ (pairs : List (List Nat × List Nat))
      (acc : List (List Nat × List (List Nat))),
      (∀ kv ∈ pairs, kv.2 ≠ [] ∧ (∀ b ∈ kv.1, b < 256) ∧ ∀ b ∈ kv.2, b < 256) →
      WFDict acc →
      WFDict (List.foldl (fun a kv => insertPair a kv.1 kv.2) acc pairs) := by
    intro pairs
    induction pairs with
    | nil => intro acc _ hacc; exact hacc
    | cons p rest ih =>
      intro acc hp hacc
      rw [List.foldl_cons]
      refine ih _ (fun kv hkv => hp kv (List.mem_cons_of_mem p hkv)) ?_
      obtain ⟨hpne, hpk, hpv⟩ := hp p (by simp)
      refine ⟨?_, ?_, ?_⟩
      · rw [insertPair_keys]
        by_cases hk : p.1 ∈ acc.map Prod.fst
        · rw [if_pos hk]; exact hacc.1
        · rw [if_neg hk]
          rw [List.nodup_append]
          exact ⟨hacc.1, List.nodup_singleton _, by simpa using hk⟩
      · intro kv2 h2
        rcases insertPair_mem p.1 p.2 acc kv2 h2 with h3 | h3 | ⟨kv0, hkv0, he⟩
        · exact hacc.2.1 kv2 h3
        · subst h3
          refine ⟨by simp, ?_⟩
          intro v hv
          simp only [List.mem_singleton] at hv
          subst hv
          exact ⟨hpne, hpv⟩
        · subst he
          obtain ⟨h4, h5⟩ := hacc.2.1 kv0 hkv0
          refine ⟨by simp, ?_⟩
          intro v hv
          rw [List.mem_append] at hv
          rcases hv with hv | hv
          · exact h5 v hv
          · simp only [List.mem_singleton] at hv
            subst hv
            exact ⟨hpne, hpv⟩
      · intro kv2 h2
        rcases insertPair_mem p.1 p.2 acc kv2 h2 with h3 | h3 | ⟨kv0, hkv0, he⟩
        · exact hacc.2.2 kv2 h3
        · subst h3; exact hpk
        · subst he
          exact hacc.2.2 kv0 hkv0
  exact hgen (parseQsl qs) [] hpairs ⟨by simp, by simp, by simp⟩

theorem popExpiring_wf (d : List (List Nat × List (List Nat))) (h : WFDict d) :
    WFDict (popExpiring d) := by
  refine ⟨?_, ?_, ?_⟩
  · exact List.Nodup.sublist (List.Sublist.map Prod.fst (List.filter_sublist d)) h.1
  · intro kv hkv
    exact h.2.1 kv (List.mem_of_mem_filter hkv)
  · intro kv hkv
    exact h.2.2 kv (List.mem_of_mem_filter hkv)

theorem popExpiring_idem (d : List (List Nat × List (List Nat))) :
    popExpiring (popExpiring d) = popExpiring d := by
  rw [popExpiring, popExpiring, List.filter_filter]
  apply List.filter_congr
  intro kv _
  rw [Bool.and_self]

/-! ### Path, params and scheme facts -/

theorem splitFirst_cons_ne (c x : Nat) (t : List Nat) (h : ¬ x = c) :
    splitFirst c (x :: t) = (x :: (splitFirst c t).1, (splitFirst c t).2) := by
  simp [splitFirst, h]

theorem splitFirst_snd_none (c : Nat) :
    ∀ l : List Nat, (splitFirst c l).2 = none → c ∉ l := by
  intro l
  induction l with
  | nil => intro _; simp
  | cons x rest ih =>
    intro h
    by_cases hx : x = c
    · simp [splitFirst, hx] at h
    · rw [splitFirst_cons_ne c x rest hx] at h
      simp only [List.mem_cons]
      rintro (he | he)
      · exact hx he.symm
      · exact ih h he

theorem takeNetloc_snd_shape :
    ∀ l : List Nat, (takeNetloc l).2 = [] ∨
      ∃ h t, (takeNetloc l).2 = h :: t ∧ (h = 47 ∨ h = 63 ∨ h = 35) := by
  intro l
  induction l with
  | nil => simp [takeNetloc]
  | cons x rest ih =>
    by_cases hx : (x = 47 || x = 63 || x = 35) = true
    · rw [takeNetloc, if_pos hx]
      exact Or.inr ⟨x, rest, rfl, by simpa [or_assoc] using hx⟩
    · rw [takeNetloc, if_neg hx]
      exact ih

theorem splitLastSlash_none (l : List Nat) (h : 47 ∉ l) : splitLastSlash l = none := by
  induction l with
  | nil => rfl
  | cons x rest ih =>
    have hx : ¬ x = 47 := fun he => h (by simp [he])
    have hr : 47 ∉ rest := fun hc => h (List.mem_cons_of_mem x hc)
    rw [splitLastSlash, ih hr]
    simp [hx]

theorem splitLastSlash_none_rev : ∀ l : List Nat, splitLastSlash l = none → 47 ∉ l := by
  intro l
  induction l with
  | nil => intro _; simp
  | cons x rest ih =>
    intro h
    rw [splitLastSlash] at h
    rcases hr : splitLastSlash rest with _ | r2
    · rw [hr] at h
      by_cases hx : x = 47
      · rw [if_pos hx] at h
        exact absurd h (by simp)
      · simp only [List.mem_cons]
        rintro (he | he)
        · exact hx he.symm
        · exact ih hr he
    · rw [hr] at h
      exact absurd h (by simp)

theorem splitLastSlash_some_structure :
    ∀ l a b, splitLastSlash l = some (a, b) → l = a ++ 47 :: b ∧ 47 ∉ b := by
  intro l
  induction l with
  | nil => intro a b h; simp [splitLastSlash] at h
  | cons x rest ih =>
    intro a b h
    rw [splitLastSlash] at h
    rcases hr : splitLastSlash rest with _ | ⟨a2, b2⟩
    · rw [hr] at h
      by_cases hx : x = 47
      · rw [if_pos hx, Option.some.injEq, Prod.mk.injEq] at h
        obtain ⟨h1, h2⟩ := h
        subst h1
        subst h2
        subst hx
        exact ⟨by simp, splitLastSlash_none_rev rest hr⟩
      · simp only [hx, if_false, ite_false] at h
        exact absurd h (by simp)
    · rw [hr, Option.some.injEq] at h
      have h1 : x :: a2 = a := congrArg Prod.fst h
      have h2 : b2 = b := congrArg Prod.snd h
      obtain ⟨hs, hnb⟩ := ih a2 b2 hr
      subst h2
      subst h1
      rw [hs]
      exact ⟨by simp, hnb⟩

theorem splitLastSlash_append (a b : List Nat) (h : 47 ∉ b) :
    splitLastSlash (a ++ 47 :: b) = some (a, b) := by
  induction a with
  | nil =>
    rw [List.nil_append, splitLastSlash, splitLastSlash_none b h]
    simp
  | cons x a2 ih =>
    rw [List.cons_append, splitLastSlash, ih]

/-- The last `/`-segment (or the whole string when it has no `/`) contains
no `;`. -/
def noSemiLastSeg (p : List Nat) : Prop :=
  match splitLastSlash p with
  | some r => 59 ∉ r.2
  | none => 59 ∉ p

theorem splitParams_of_noSemi (p : List Nat) (h : noSemiLastSeg p) :
    splitParams p = (p, []) := by
  rw [noSemiLastSeg] at h
  rcases hsl : splitLastSlash p with _ | ⟨a, b⟩
  · rw [hsl] at h
    rw [splitParams, hsl, splitFirst_none 59 p h]
  · rw [hsl] at h
    rw [splitParams, hsl]
    show (match splitFirst 59 b with
      | (b1, some pr) => (a ++ 47 :: b1, pr)
      | (_, none) => (p, [])) = (p, [])
    rw [splitFirst_none 59 b h]

theorem splitParams_fst_noSemi (p p1 : List Nat) (pr : List Nat)
    (h : splitParams p = (p1, pr)) : noSemiLastSeg p1 := by
  rw [splitParams] at h
  rcases hsl : splitLastSlash p with _ | ⟨a, b⟩
  · rw [hsl] at h
    have hp47 : 47 ∉ p := splitLastSlash_none_rev p hsl
    rcases hsf : splitFirst 59 p with ⟨q1, ov⟩
    rw [hsf] at h
    cases ov with
    | none =>
      have h2 : (p, ([] : List Nat)) = (p1, pr) := h
      injection h2 with h1 _
      rw [← h1, noSemiLastSeg, splitLastSlash_none p hp47]
      exact splitFirst_snd_none 59 p (by rw [hsf])
    | some pr2 =>
      have h2 : (q1, pr2) = (p1, pr) := h
      injection h2 with h1 _
      rw [← h1]
      have hq1 : ∀ b2 ∈ q1, b2 ∈ p := fun b2 hb2 =>
        splitFirst_mem_left 59 p b2 (by rw [hsf]; exact hb2)
      have h47 : 47 ∉ q1 := fun hc => hp47 (hq1 47 hc)
      rw [noSemiLastSeg, splitLastSlash_none q1 h47]
      exact fun hc => splitFirst_not_mem_left 59 p (by rw [hsf]; exact hc)
  · rw [hsl] at h
    obtain ⟨hpstruct, hb47⟩ := splitLastSlash_some_structure p a b hsl
    rcases hsf : splitFirst 59 b with ⟨b1, ov⟩
    have h3 : (match splitFirst 59 b with
      | (b1, some pr) => (a ++ 47 :: b1, pr)
      | (_, none) => (p, [])) = (p1, pr) := h
    rw [hsf] at h3
    cases ov with
    | none =>
      have h2 : (p, ([] : List Nat)) = (p1, pr) := h3
      injection h2 with h1 _
      rw [← h1, noSemiLastSeg, hsl]
      exact splitFirst_snd_none 59 b (by rw [hsf])
    | some pr2 =>
      have h2 : (a ++ 47 :: b1, pr2) = (p1, pr) := h3
      injection h2 with h1 _
      rw [← h1]
      have hb1mem : ∀ b2 ∈ b1, b2 ∈ b := fun b2 hb2 =>
        splitFirst_mem_left 59 b b2 (by rw [hsf]; exact hb2)
      have h47b1 : 47 ∉ b1 := fun hc => hb47 (hb1mem 47 hc)
      rw [noSemiLastSeg, splitLastSlash_append a b1 h47b1]
      exact fun hc => splitFirst_not_mem_left 59 b (by rw [hsf]; exact hc)

theorem splitParams_structure (p p1 pr : List Nat) (h : splitParams p = (p1, pr)) :
    p = p1 ++ 59 :: pr ∨ (p1 = p ∧ pr = []) := by
  rw [splitParams] at h
  rcases hsl : splitLastSlash p with _ | ⟨a, b⟩
  · rw [hsl] at h
    rcases hsf : splitFirst 59 p with ⟨q1, ov⟩
    rw [hsf] at h
    cases ov with
    | none =>
      have h2 : (p, ([] : List Nat)) = (p1, pr) := h
      injection h2 with h1 hb
      exact Or.inr ⟨h1.symm, hb.symm⟩
    | some pr2 =>
      have h2 : (q1, pr2) = (p1, pr) := h
      injection h2 with h1 hb
      rw [← h1, ← hb]
      obtain ⟨hst, _⟩ := splitFirst_some_structure 59 p q1 pr2 hsf
      exact Or.inl hst
  · rw [hsl] at h
    obtain ⟨hpstruct, hb47⟩ := splitLastSlash_some_structure p a b hsl
    rcases hsf : splitFirst 59 b with ⟨b1, ov⟩
    have h3 : (match splitFirst 59 b with
      | (b1, some pr) => (a ++ 47 :: b1, pr)
      | (_, none) => (p, [])) = (p1, pr) := h
    rw [hsf] at h3
    cases ov with
    | none =>
      have h2 : (p, ([] : List Nat)) = (p1, pr) := h3
      injection h2 with h1 hb
      exact Or.inr ⟨h1.symm, hb.symm⟩
    | some pr2 =>
      have h2 : (a ++ 47 :: b1, pr2) = (p1, pr) := h3
      injection h2 with h1 hb
      rw [← h1, ← hb]
      obtain ⟨hst, _⟩ := splitFirst_some_structure 59 b b1 pr2 hsf
      refine Or.inl ?_
      rw [hpstruct, hst]
      simp

theorem splitParams_fst_head (p p1 pr : List Nat) (h : splitParams p = (p1, pr))
    (hp : p = [] ∨ ∃ t, p = 47 :: t) : p1 = [] ∨ ∃ t, p1 = 47 :: t := by
  rcases splitParams_structure p p1 pr h with hst | ⟨he, _⟩
  · rcases hp with hp | ⟨t, hp⟩
    · rw [hp] at hst
      exact absurd hst.symm (by simp)
    · rw [hp] at hst
      rcases p1 with _ | ⟨c, p1t⟩
      · simp at hst
      · rw [List.cons_append] at hst
        injection hst with h1 _
        exact Or.inr ⟨p1t, by rw [h1]⟩
  · rw [he]
    exact hp

theorem splitParams_mem (p p1 pr : List Nat) (h : splitParams p = (p1, pr)) :
    (∀ b ∈ p1, b ∈ p) ∧ (∀ b ∈ pr, b ∈ p) := by
  rcases splitParams_structure p p1 pr h with hst | ⟨he, hpr⟩
  · constructor
    · intro b hb
      rw [hst, List.mem_append]
      exact Or.inl hb
    · intro b hb
      rw [hst, List.mem_append]
      exact Or.inr (List.mem_cons_of_mem 59 hb)
  · subst he
    constructor
    · exact fun b hb => hb
    · intro b hb
      rw [hpr] at hb
      simp at hb

theorem lowerByte_idem (b : Nat) : lowerByte (lowerByte b) = lowerByte b := by
  simp only [lowerByte]
  split_ifs <;> omega

theorem isSchemeChar_ranges (b : Nat) (h : isSchemeChar b = true) :
    (48 ≤ b ∧ b ≤ 57) ∨ (65 ≤ b ∧ b ≤ 90) ∨ (97 ≤ b ∧ b ≤ 122) ∨
      b = 43 ∨ b = 45 ∨ b = 46 := by
  simp only [isSchemeChar, isAlnumB, isAlphaB, isDigitB, Bool.or_eq_true,
    Bool.and_eq_true, decide_eq_true_eq] at h
  omega

theorem lowerByte_schemeChar (b : Nat) (h : isSchemeChar b = true) :
    isSchemeChar (lowerByte b) = true := by
  have hr := isSchemeChar_ranges b h
  simp only [isSchemeChar, isAlnumB, isAlphaB, isDigitB, lowerByte,
    Bool.or_eq_true, Bool.and_eq_true, decide_eq_true_eq]
  split_ifs <;> omega

theorem lowerByte_alpha (b : Nat) (h : isAlphaB b = true) :
    isAlphaB (lowerByte b) = true ∧ lowerByte b < 128 := by
  simp only [isAlphaB, Bool.or_eq_true, Bool.and_eq_true, decide_eq_true_eq] at h
  simp only [isAlphaB, lowerByte, Bool.or_eq_true, Bool.and_eq_true,
    decide_eq_true_eq]
  constructor
  · split_ifs <;> omega
  · split_ifs <;> omega

/-- The shape of a scheme accepted and produced by `urlsplit`: nonempty,
ASCII-letter head, scheme characters throughout, already lowercased. -/
def GoodScheme (s : List Nat) : Prop :=
  (∃ b t, s = b :: t ∧ isAlphaB b = true ∧ b < 128) ∧
  s.all isSchemeChar = true ∧ s.map lowerByte = s

theorem goodScheme_ne58 (s : List Nat) (h : GoodScheme s) : 58 ∉ s := by
  intro hc
  have h2 := h.2.1
  rw [List.all_eq_true] at h2
  have := isSchemeChar_ranges 58 (by simpa using h2 58 hc)
  omega

theorem goodScheme_clean (s : List Nat) (h : GoodScheme s) :
    ∀ b ∈ s, b ≠ 9 ∧ b ≠ 13 ∧ b ≠ 10 ∧ b ≠ 35 ∧ b ≠ 63 ∧ b ≠ 47 := by
  intro b hb
  have h2 := h.2.1
  rw [List.all_eq_true] at h2
  have := isSchemeChar_ranges b (by simpa using h2 b hb)
  omega

theorem schemeSplit_ok (s rest : List Nat) (h : GoodScheme s) :
    schemeSplit (s ++ 58 :: rest) = (s, rest) := by
  obtain ⟨⟨b, t, hst, hb, hb128⟩, hall, hmap⟩ := h
  subst hst
  rw [schemeSplit,
    splitFirst_append 58 (b :: t) rest
      (goodScheme_ne58 _ ⟨⟨b, t, rfl, hb, hb128⟩, hall, hmap⟩)]
  show (if (decide (b < 128) && isAlphaB b) && (b :: t).all isSchemeChar then
      ((b :: t).map lowerByte, rest) else ([], (b :: t) ++ 58 :: rest)) =
    (b :: t, rest)
  rw [if_pos (by simp [hb, hall, hb128]), hmap]

theorem schemeSplit_produces (url s rest : List Nat)
    (h : schemeSplit url = (s, rest)) : s = [] ∨ GoodScheme s := by
  rw [schemeSplit] at h
  rcases hsf : splitFirst 58 url with ⟨before, ov⟩
  rw [hsf] at h
  cases ov with
  | none =>
    have h2 : (([] : List Nat), url) = (s, rest) := h
    injection h2 with h1 _
    exact Or.inl h1.symm
  | some after =>
    rcases before with _ | ⟨b, t⟩
    · have h2 : ((([] : List Nat), url)) = (s, rest) := h
      injection h2 with h1 _
      exact Or.inl h1.symm
    · have h2 : (if (decide (b < 128) && isAlphaB b) && (b :: t).all isSchemeChar then
          ((b :: t).map lowerByte, after) else (([] : List Nat), url)) = (s, rest) := h
      by_cases hg : ((decide (b < 128) && isAlphaB b) && (b :: t).all isSchemeChar) = true
      · rw [if_pos hg] at h2
        injection h2 with h1 _
        simp only [Bool.and_eq_true, decide_eq_true_eq] at hg
        have halls : ∀ y ∈ b :: t, isSchemeChar y = true := by
          have := hg.2
          rw [List.all_eq_true] at this
          intro y hy
          simpa using this y hy
        refine Or.inr ⟨⟨lowerByte b, t.map lowerByte, ?_, ?_, ?_⟩, ?_, ?_⟩
        · rw [← h1]; rfl
        · exact (lowerByte_alpha b hg.1.2).1
        · exact (lowerByte_alpha b hg.1.2).2
        · rw [← h1, List.all_eq_true]
          intro x hx
          rw [List.mem_map] at hx
          obtain ⟨y, hy, hxy⟩ := hx
          rw [← hxy]
          simpa using lowerByte_schemeChar y (halls y hy)
        · rw [← h1, List.map_map]
          exact List.map_congr_left (fun x _ => lowerByte_idem x)
      · rw [if_neg hg] at h2
        injection h2 with h1 _
        exact Or.inl h1.symm

theorem schemeSplit_nonalpha (url : List Nat)
    (h : ∀ b t, url = b :: t → isAlphaB b = false) :
    schemeSplit url = ([], url) := by
  rcases hsf : splitFirst 58 url with ⟨before, ov⟩
  rw [schemeSplit, hsf]
  cases ov with
  | none => rfl
  | some after =>
    rcases before with _ | ⟨b, t⟩
    · rfl
    · obtain ⟨hst, h58⟩ := splitFirst_some_structure 58 url (b :: t) after hsf
      have hb : isAlphaB b = false := h b (t ++ 58 :: after) (by rw [hst]; simp)
      show (if (decide (b < 128) && isAlphaB b) && (b :: t).all isSchemeChar then
          ((b :: t).map lowerByte, after) else (([] : List Nat), url)) = ([], url)
      rw [if_neg (by simp [hb])]

theorem schemeSplit_mem_right (url : List Nat) :
    ∀ c ∈ (schemeSplit url).2, c ∈ url := by
  intro c hc
  rw [schemeSplit] at hc
  rcases hsf : splitFirst 58 url with ⟨before, ov⟩
  rw [hsf] at hc
  cases ov with
  | none => exact hc
  | some after =>
    rcases before with _ | ⟨b, t⟩
    · have hc2 : c ∈ ((([] : List Nat), url)).2 := hc
      exact hc2
    · have hc2 : c ∈ ((if (decide (b < 128) && isAlphaB b) && (b :: t).all isSchemeChar then
          ((b :: t).map lowerByte, after) else (([] : List Nat), url))).2 := hc
      by_cases hg : ((decide (b < 128) && isAlphaB b) && (b :: t).all isSchemeChar) = true
      · rw [if_pos hg] at hc2
        exact splitFirst_mem_right 58 url after c (by rw [hsf]) hc2
      · rw [if_neg hg] at hc2
        exact hc2

theorem urlsplitE_eq (url0 : List Nat) :
    urlsplitE url0 =
      if (schemeSplit (stripTabCrLf url0)).2.take 2 = [47, 47] then
        if ((91 ∈ (takeNetloc ((schemeSplit (stripTabCrLf url0)).2.drop 2)).1) ∧
            ¬ (93 ∈ (takeNetloc ((schemeSplit (stripTabCrLf url0)).2.drop 2)).1)) ∨
           ((93 ∈ (takeNetloc ((schemeSplit (stripTabCrLf url0)).2.drop 2)).1) ∧
            ¬ (91 ∈ (takeNetloc ((schemeSplit (stripTabCrLf url0)).2.drop 2)).1)) then
          .error ()
        else
          .ok ⟨(schemeSplit (stripTabCrLf url0)).1,
            (takeNetloc ((schemeSplit (stripTabCrLf url0)).2.drop 2)).1,
            (splitFirst 63 (splitFirst 35
              (takeNetloc ((schemeSplit (stripTabCrLf url0)).2.drop 2)).2).1).1,
            ((splitFirst 63 (splitFirst 35
              (takeNetloc ((schemeSplit (stripTabCrLf url0)).2.drop 2)).2).1).2).getD [],
            ((splitFirst 35
              (takeNetloc ((schemeSplit (stripTabCrLf url0)).2.drop 2)).2).2).getD []⟩
      else
        .ok ⟨(schemeSplit (stripTabCrLf url0)).1, [],
          (splitFirst 63 (splitFirst 35 (schemeSplit (stripTabCrLf url0)).2).1).1,
          ((splitFirst 63 (splitFirst 35 (schemeSplit (stripTabCrLf url0)).2).1).2).getD [],
          ((splitFirst 35 (schemeSplit (stripTabCrLf url0)).2).2).getD []⟩ := rfl

theorem joinSep_mem (c : Nat) :
    ∀ ps : List (List Nat), ∀ b ∈ joinSep c ps, b = c ∨ ∃ p ∈ ps, b ∈ p := by
  intro ps
  induction ps with
  | nil => intro b hb; simp [joinSep] at hb
  | cons p ps2 ih =>
    intro b hb
    rcases ps2 with _ | ⟨p2, ps3⟩
    · exact Or.inr ⟨p, by simp, hb⟩
    · have hb2 : b ∈ p ++ c :: joinSep c (p2 :: ps3) := hb
      rw [List.mem_append] at hb2
      rcases hb2 with hb | hb
      · exact Or.inr ⟨p, by simp, hb⟩
      · rw [List.mem_cons] at hb
        rcases hb with hb | hb
        · exact Or.inl hb
        · rcases ih b hb with h1 | ⟨p3, hp3, hbp3⟩
          · exact Or.inl h1
          · exact Or.inr ⟨p3, List.mem_cons_of_mem p hp3, hbp3⟩

theorem urlencodeB_clean (d : List (List Nat × List (List Nat))) (hwf : WFDict d) :
    ∀ b ∈ urlencodeB d,
      b ≠ 9 ∧ b ≠ 13 ∧ b ≠ 10 ∧ b ≠ 35 ∧ b ≠ 63 ∧ b < 256 := by
  intro b hb
  rw [urlencodeB_eq_joinSep] at hb
  rcases joinSep_mem 38 (encPieces d) b hb with hb38 | ⟨p, hp, hbp⟩
  · omega
  · rw [encPieces, List.mem_flatMap] at hp
    obtain ⟨kv, hkv, hp2⟩ := hp
    rw [List.mem_map] at hp2
    obtain ⟨v, hv, hpv⟩ := hp2
    subst hpv
    rw [List.mem_append] at hbp
    rcases hbp with hbp | hbp
    · have := quotePlus_alphabet kv.1 (hwf.2.2 kv hkv) b hbp
      omega
    · rw [List.mem_cons] at hbp
      rcases hbp with hbp | hbp
      · omega
      · have := quotePlus_alphabet v ((hwf.2.1 kv hkv).2 v hv).2 b hbp
        omega

theorem path_head_shape (X : List Nat)
    (hX : X = [] ∨ ∃ h t, X = h :: t ∧ (h = 47 ∨ h = 63 ∨ h = 35)) :
    (splitFirst 63 (splitFirst 35 X).1).1 = [] ∨
      ∃ t, (splitFirst 63 (splitFirst 35 X).1).1 = 47 :: t := by
  rcases hX with hX | ⟨h, t, hX, hsep⟩
  · subst hX
    exact Or.inl rfl
  · subst hX
    rcases hsep with h47 | h63 | h35
    · subst h47
      rw [splitFirst_cons_ne 35 47 t (by omega)]
      rw [splitFirst_cons_ne 63 47 ((splitFirst 35 t).1) (by omega)]
      exact Or.inr ⟨(splitFirst 63 (splitFirst 35 t).1).1, rfl⟩
    · subst h63
      rw [splitFirst_cons_ne 35 63 t (by omega)]
      exact Or.inl (by simp [splitFirst])
    · subst h35
      exact Or.inl (by simp [splitFirst])

theorem urlsplitE_facts (url0 : List Nat) (r : SplitResultB)
    (h : urlsplitE url0 = .ok r) :
    (r.scheme = [] ∨ GoodScheme r.scheme) ∧
    (∀ b, (b ∈ r.netloc ∨ b ∈ r.path ∨ b ∈ r.query ∨ b ∈ r.fragment) →
      b ∈ stripTabCrLf url0) ∧
    35 ∉ r.path ∧ 63 ∉ r.path ∧
    (r.netloc ≠ [] → r.path = [] ∨ ∃ t, r.path = 47 :: t) := by
  rcases hsp : schemeSplit (stripTabCrLf url0) with ⟨s, rest⟩
  have hs := schemeSplit_produces (stripTabCrLf url0) s rest hsp
  have hrestmem : ∀ b ∈ rest, b ∈ stripTabCrLf url0 := by
    intro b hb
    have h2 := schemeSplit_mem_right (stripTabCrLf url0) b
    rw [hsp] at h2
    exact h2 hb
  rw [urlsplitE_eq] at h
  simp only [hsp] at h
  by_cases hc : rest.take 2 = [47, 47]
  · rw [if_pos hc] at h
    rcases hnl : takeNetloc (rest.drop 2) with ⟨n, rest2⟩
    simp only [hnl] at h
    by_cases hbr : ((91 ∈ n) ∧ ¬ (93 ∈ n)) ∨ ((93 ∈ n) ∧ ¬ (91 ∈ n))
    · rw [if_pos hbr] at h
      exact absurd h (by simp)
    · rw [if_neg hbr] at h
      injection h with h1
      subst h1
      have hnmem : ∀ b ∈ n, b ∈ stripTabCrLf url0 := by
        intro b hb
        have h2 := (takeNetloc_mem (rest.drop 2) b).1
        rw [hnl] at h2
        exact hrestmem b (List.mem_of_mem_drop (h2 hb))
      have hr2mem : ∀ b ∈ rest2, b ∈ stripTabCrLf url0 := by
        intro b hb
        have h2 := (takeNetloc_mem (rest.drop 2) b).2
        rw [hnl] at h2
        exact hrestmem b (List.mem_of_mem_drop (h2 hb))
      refine ⟨hs, ?_, ?_, ?_, ?_⟩
      · intro b hb
        have hb2 : b ∈ n ∨ b ∈ (splitFirst 63 (splitFirst 35 rest2).1).1 ∨
            b ∈ ((splitFirst 63 (splitFirst 35 rest2).1).2).getD [] ∨
            b ∈ ((splitFirst 35 rest2).2).getD [] := hb
        rcases hb2 with hb2 | hb2 | hb2 | hb2
        · exact hnmem b hb2
        · exact hr2mem b
            (splitFirst_mem_left 35 rest2 b
              (splitFirst_mem_left 63 (splitFirst 35 rest2).1 b hb2))
        · rcases hq : (splitFirst 63 (splitFirst 35 rest2).1).2 with _ | q2
          · rw [hq] at hb2
            simp at hb2
          · rw [hq] at hb2
            exact hr2mem b
              (splitFirst_mem_left 35 rest2 b
                (splitFirst_mem_right 63 (splitFirst 35 rest2).1 q2 b hq hb2))
        · rcases hf : (splitFirst 35 rest2).2 with _ | f2
          · rw [hf] at hb2
            simp at hb2
          · rw [hf] at hb2
            exact hr2mem b (splitFirst_mem_right 35 rest2 f2 b hf hb2)
      · intro hmem
        exact splitFirst_not_mem_left 35 rest2
          (splitFirst_mem_left 63 (splitFirst 35 rest2).1 35 hmem)
      · intro hmem
        exact splitFirst_not_mem_left 63 (splitFirst 35 rest2).1 hmem
      · intro _
        have hshape := takeNetloc_snd_shape (rest.drop 2)
        rw [hnl] at hshape
        exact path_head_shape rest2 hshape
  · rw [if_neg hc] at h
    injection h with h1
    subst h1
    refine ⟨hs, ?_, ?_, ?_, ?_⟩
    · intro b hb
      have hb2 : b ∈ ([] : List Nat) ∨ b ∈ (splitFirst 63 (splitFirst 35 rest).1).1 ∨
          b ∈ ((splitFirst 63 (splitFirst 35 rest).1).2).getD [] ∨
          b ∈ ((splitFirst 35 rest).2).getD [] := hb
      rcases hb2 with hb2 | hb2 | hb2 | hb2
      · simp at hb2
      · exact hrestmem b
          (splitFirst_mem_left 35 rest b
            (splitFirst_mem_left 63 (splitFirst 35 rest).1 b hb2))
      · rcases hq : (splitFirst 63 (splitFirst 35 rest).1).2 with _ | q2
        · rw [hq] at hb2
          simp at hb2
        · rw [hq] at hb2
          exact hrestmem b
            (splitFirst_mem_left 35 rest b
              (splitFirst_mem_right 63 (splitFirst 35 rest).1 q2 b hq hb2))
      · rcases hf : (splitFirst 35 rest).2 with _ | f2
        · rw [hf] at hb2
          simp at hb2
        · rw [hf] at hb2
          exact hrestmem b (splitFirst_mem_right 35 rest f2 b hf hb2)
    · intro hmem
      exact splitFirst_not_mem_left 35 rest
        (splitFirst_mem_left 63 (splitFirst 35 rest).1 35 hmem)
    · intro hmem
      exact splitFirst_not_mem_left 63 (splitFirst 35 rest).1 hmem
    · intro hne
      exact absurd rfl hne

theorem urlunsplitB_nonempty_netloc (s n path2 q' f : List Nat)
    (hn : n ≠ [])
    (hp : path2 = [] ∨ ∃ t, path2 = 47 :: t) :
    urlunsplitB s n path2 q' f =
      (if s = [] then [] else s ++ [58]) ++
        47 :: 47 :: (n ++ (path2 ++
          ((if q' = [] then [] else 63 :: q') ++
           (if f = [] then [] else 35 :: f)))) := by
  have hpath : (if path2 ≠ [] ∧ path2.take 1 ≠ [47] then 47 :: path2 else path2) =
      path2 := by
    rcases hp with h | ⟨t, h⟩
    · subst h; simp
    · subst h; simp
  simp only [urlunsplitB]
  rw [if_pos (Or.inl hn), hpath]
  by_cases hs0 : s = [] <;> by_cases hq0 : q' = [] <;> by_cases hf0 : f = [] <;>
    simp [hs0, hq0, hf0, List.append_assoc]

theorem mem_rebuild (s n path2 q' f : List Nat) (b : Nat)
    (hb : b ∈ (if s = [] then [] else s ++ [58]) ++
        47 :: 47 :: (n ++ (path2 ++
          ((if q' = [] then [] else 63 :: q') ++
           (if f = [] then [] else 35 :: f))))) :
    b ∈ s ∨ b = 58 ∨ b = 47 ∨ b ∈ n ∨ b ∈ path2 ∨ b = 63 ∨ b ∈ q' ∨
      b = 35 ∨ b ∈ f := by
  by_cases hs0 : s = [] <;> by_cases hq0 : q' = [] <;> by_cases hf0 : f = [] <;>
    simp only [hs0, if_pos, if_neg, ite_true, ite_false, List.nil_append,
      List.append_nil, List.mem_append, List.mem_cons, hq0, hf0,
      List.not_mem_nil, false_or, or_false, if_true, if_false] at hb <;>
    tauto

theorem urlsplitE_comp (url0 s n X : List Nat)
    (hstrip : stripTabCrLf url0 = url0)
    (hscheme : schemeSplit url0 = (s, 47 :: 47 :: (n ++ X)))
    (hn : ∀ b ∈ n, ¬ (b = 47 ∨ b = 63 ∨ b = 35))
    (h91 : ¬ (91 ∈ n)) (h93 : ¬ (93 ∈ n))
    (hX : X = [] ∨ ∃ h t, X = h :: t ∧ (h = 47 ∨ h = 63 ∨ h = 35)) :
    urlsplitE url0 = .ok ⟨s, n, (splitFirst 63 (splitFirst 35 X).1).1,
      ((splitFirst 63 (splitFirst 35 X).1).2).getD [],
      ((splitFirst 35 X).2).getD []⟩ := by
  rw [urlsplitE_eq, hstrip, hscheme]
  dsimp only
  have htake : (47 :: 47 :: (n ++ X)).take 2 = [47, 47] := rfl
  have hdrop : (47 :: 47 :: (n ++ X)).drop 2 = n ++ X := rfl
  rw [if_pos htake, hdrop, takeNetloc_append n X hn hX]
  dsimp only
  rw [if_neg (by simp [h91, h93])]

theorem rebuildTail_facts (path2 q' f X : List Nat)
    (hX : X = path2 ++ ((if q' = [] then [] else 63 :: q') ++
      (if f = [] then [] else 35 :: f)))
    (hp : path2 = [] ∨ ∃ t, path2 = 47 :: t)
    (h35p : 35 ∉ path2) (h63p : 63 ∉ path2) (h35q : 35 ∉ q') :
    (X = [] ∨ ∃ h t, X = h :: t ∧ (h = 47 ∨ h = 63 ∨ h = 35)) ∧
    (splitFirst 63 (splitFirst 35 X).1).1 = path2 ∧
    ((splitFirst 63 (splitFirst 35 X).1).2).getD [] = q' ∧
    ((splitFirst 35 X).2).getD [] = f := by
  by_cases hq0 : q' = [] <;> by_cases hf0 : f = []
  · rw [if_pos hq0, if_pos hf0, List.append_nil, List.append_nil] at hX
    rw [hX]
    have hfs : splitFirst 35 path2 = (path2, none) := splitFirst_none 35 path2 h35p
    have hqs : splitFirst 63 path2 = (path2, none) := splitFirst_none 63 path2 h63p
    refine ⟨?_, ?_, ?_, ?_⟩
    · rcases hp with h | ⟨t, h⟩
      · exact Or.inl h
      · exact Or.inr ⟨47, t, h, Or.inl rfl⟩
    · rw [hfs, hqs]
    · rw [hfs, hqs]
      simp [hq0]
    · rw [hfs]
      simp [hf0]
  · rw [if_pos hq0, List.nil_append, if_neg hf0] at hX
    subst hX
    have hfs : splitFirst 35 (path2 ++ 35 :: f) = (path2, some f) :=
      splitFirst_append 35 path2 f h35p
    have hqs : splitFirst 63 path2 = (path2, none) := splitFirst_none 63 path2 h63p
    refine ⟨?_, ?_, ?_, ?_⟩
    · rcases hp with h | ⟨t, h⟩
      · subst h
        exact Or.inr ⟨35, f, rfl, Or.inr (Or.inr rfl)⟩
      · subst h
        exact Or.inr ⟨47, t ++ 35 :: f, rfl, Or.inl rfl⟩
    · rw [hfs, hqs]
    · rw [hfs, hqs]
      simp [hq0]
    · rw [hfs]
      rfl
  · rw [if_neg hq0, if_pos hf0, List.append_nil] at hX
    subst hX
    have h35 : 35 ∉ path2 ++ 63 :: q' := by
      rw [List.mem_append, List.mem_cons]
      rintro (h | h | h)
      · exact h35p h
      · omega
      · exact h35q h
    have hfs : splitFirst 35 (path2 ++ 63 :: q') = (path2 ++ 63 :: q', none) :=
      splitFirst_none 35 _ h35
    have hqs : splitFirst 63 (path2 ++ 63 :: q') = (path2, some q') :=
      splitFirst_append 63 path2 q' h63p
    refine ⟨?_, ?_, ?_, ?_⟩
    · rcases hp with h | ⟨t, h⟩
      · subst h
        exact Or.inr ⟨63, q', rfl, Or.inr (Or.inl rfl)⟩
      · subst h
        exact Or.inr ⟨47, t ++ 63 :: q', rfl, Or.inl rfl⟩
    · rw [hfs, hqs]
    · rw [hfs, hqs]
      rfl
    · rw [hfs]
      simp [hf0]
  · rw [if_neg hq0, if_neg hf0] at hX
    have hX2 : X = (path2 ++ 63 :: q') ++ 35 :: f := by
      rw [hX]
      simp
    have h35 : 35 ∉ path2 ++ 63 :: q' := by
      rw [List.mem_append, List.mem_cons]
      rintro (h | h | h)
      · exact h35p h
      · omega
      · exact h35q h
    subst hX2
    have hfs : splitFirst 35 ((path2 ++ 63 :: q') ++ 35 :: f) =
        (path2 ++ 63 :: q', some f) := splitFirst_append 35 _ f h35
    have hqs : splitFirst 63 (path2 ++ 63 :: q') = (path2, some q') :=
      splitFirst_append 63 path2 q' h63p
    refine ⟨?_, ?_, ?_, ?_⟩
    · rcases hp with h | ⟨t, h⟩
      · subst h
        exact Or.inr ⟨63, q' ++ 35 :: f, by simp, Or.inr (Or.inl rfl)⟩
      · subst h
        exact Or.inr ⟨47, (t ++ 63 :: q') ++ 35 :: f, by simp, Or.inl rfl⟩
    · rw [hfs, hqs]
    · rw [hfs, hqs]
      rfl
    · rw [hfs]
      rfl

theorem urlsplitE_rebuild (s n path2 q' f : List Nat)
    (hs : s = [] ∨ GoodScheme s)
    (hn : n = cdnHost ∨ n = mediaHost)
    (hp : path2 = [] ∨ ∃ t, path2 = 47 :: t)
    (hclean : ∀ b, (b ∈ path2 ∨ b ∈ q' ∨ b ∈ f) → b ≠ 9 ∧ b ≠ 13 ∧ b ≠ 10)
    (h35p : 35 ∉ path2) (h63p : 63 ∉ path2) (h35q : 35 ∉ q') :
    urlsplitE (urlunsplitB s n path2 q' f) = .ok ⟨s, n, path2, q', f⟩ := by
  have hne : n ≠ [] := by rcases hn with rfl | rfl <;> decide
  have hnsep : ∀ b ∈ n, ¬ (b = 47 ∨ b = 63 ∨ b = 35) := by
    rcases hn with rfl | rfl <;> decide
  have h91 : ¬ (91 ∈ n) := by rcases hn with rfl | rfl <;> decide
  have h93 : ¬ (93 ∈ n) := by rcases hn with rfl | rfl <;> decide
  have hcleann : ∀ b ∈ n, b ≠ 9 ∧ b ≠ 13 ∧ b ≠ 10 := by
    rcases hn with rfl | rfl <;> decide
  have hnf := urlunsplitB_nonempty_netloc s n path2 q' f hne hp
  have hW : ∀ b ∈ urlunsplitB s n path2 q' f, b ≠ 9 ∧ b ≠ 13 ∧ b ≠ 10 := by
    rw [hnf]
    intro b hb
    rcases mem_rebuild s n path2 q' f b hb with h | h | h | h | h | h | h | h | h
    · rcases hs with hs0 | hsg
      · rw [hs0] at h
        simp at h
      · have := goodScheme_clean s hsg b h
        exact ⟨this.1, this.2.1, this.2.2.1⟩
    · omega
    · omega
    · exact hcleann b h
    · exact hclean b (Or.inl h)
    · omega
    · exact hclean b (Or.inr (Or.inl h))
    · omega
    · exact hclean b (Or.inr (Or.inr h))
  have hstrip : stripTabCrLf (urlunsplitB s n path2 q' f) =
      urlunsplitB s n path2 q' f := stripTabCrLf_id _ hW
  obtain ⟨hXshape, hXpath, hXquery, hXfrag⟩ :=
    rebuildTail_facts path2 q' f
      (path2 ++ ((if q' = [] then [] else 63 :: q') ++
        (if f = [] then [] else 35 :: f))) rfl hp h35p h63p h35q
  rcases hs with hs0 | hsg
  · have hpre : urlunsplitB s n path2 q' f =
        47 :: 47 :: (n ++ (path2 ++ ((if q' = [] then [] else 63 :: q') ++
          (if f = [] then [] else 35 :: f)))) := by
      rw [hnf, if_pos hs0, List.nil_append]
    have hscheme : schemeSplit (urlunsplitB s n path2 q' f) =
        ([], urlunsplitB s n path2 q' f) := by
      apply schemeSplit_nonalpha
      intro b t h
      rw [hpre] at h
      injection h with h1 _
      rw [← h1]
      decide
    rw [hpre] at hscheme
    rw [urlsplitE_comp (urlunsplitB s n path2 q' f) [] n
      (path2 ++ ((if q' = [] then [] else 63 :: q') ++
        (if f = [] then [] else 35 :: f)))
      hstrip (by rw [← hpre] at hscheme; rw [hscheme, hpre]) hnsep h91 h93 hXshape]
    rw [hXpath, hXquery, hXfrag, hs0]
  · have hsne : s ≠ [] := by
      obtain ⟨⟨b, t, hst, _, _⟩, _, _⟩ := hsg
      rw [hst]
      simp
    have hpre : urlunsplitB s n path2 q' f =
        s ++ 58 :: (47 :: 47 :: (n ++ (path2 ++
          ((if q' = [] then [] else 63 :: q') ++
           (if f = [] then [] else 35 :: f))))) := by
      rw [hnf, if_neg hsne, List.append_assoc]
      rfl
    have hscheme : schemeSplit (urlunsplitB s n path2 q' f) =
        (s, 47 :: 47 :: (n ++ (path2 ++ ((if q' = [] then [] else 63 :: q') ++
          (if f = [] then [] else 35 :: f))))) := by
      rw [hpre]
      exact schemeSplit_ok s _ hsg
    rw [urlsplitE_comp (urlunsplitB s n path2 q' f) s n
      (path2 ++ ((if q' = [] then [] else 63 :: q') ++
        (if f = [] then [] else 35 :: f)))
      hstrip hscheme hnsep h91 h93 hXshape]
    rw [hXpath, hXquery, hXfrag]

theorem urlparseE_facts (url : List Nat) (r : ParseResultB)
    (h : urlparseE url = .ok r) :
    ∃ p, urlsplitE url = .ok ⟨r.scheme, r.netloc, p, r.query, r.fragment⟩ ∧
      ((splitParams p = (r.path, r.params) ∧ r.scheme ∈ usesParams ∧ 59 ∈ p) ∨
       (r.path = p ∧ r.params = [] ∧ ¬ (r.scheme ∈ usesParams ∧ 59 ∈ p))) := by
  rw [urlparseE] at h
  rcases hsp : urlsplitE url with e | r0
  · rw [hsp] at h
    have h2 : (Except.error e : Except Unit ParseResultB) = .ok r := h
    exact absurd h2 (by simp)
  · rw [hsp] at h
    have h2 : (if r0.scheme ∈ usesParams ∧ 59 ∈ r0.path then
        (Except.ok ⟨r0.scheme, r0.netloc, (splitParams r0.path).1,
          (splitParams r0.path).2, r0.query, r0.fragment⟩ : Except Unit ParseResultB)
      else .ok ⟨r0.scheme, r0.netloc, r0.path, [], r0.query, r0.fragment⟩) =
        .ok r := h
    by_cases hc : r0.scheme ∈ usesParams ∧ 59 ∈ r0.path
    · rw [if_pos hc] at h2
      injection h2 with h3
      subst h3
      refine ⟨r0.path, ?_, Or.inl ⟨rfl, hc.1, hc.2⟩⟩
      rfl
    · rw [if_neg hc] at h2
      injection h2 with h3
      subst h3
      refine ⟨r0.path, ?_, Or.inr ⟨rfl, rfl, hc⟩⟩
      rfl

theorem urlparseE_rebuild (s n p1 pr q' f : List Nat)
    (hs : s = [] ∨ GoodScheme s)
    (hn : n = cdnHost ∨ n = mediaHost)
    (hp : p1 = [] ∨ ∃ t, p1 = 47 :: t)
    (hprhead : pr ≠ [] → ∃ t, p1 = 47 :: t)
    (hclean : ∀ b, (b ∈ p1 ∨ b ∈ pr ∨ b ∈ q' ∨ b ∈ f) → b ≠ 9 ∧ b ≠ 13 ∧ b ≠ 10)
    (h35p : 35 ∉ p1) (h63p : 63 ∉ p1) (h35pr : 35 ∉ pr) (h63pr : 63 ∉ pr)
    (h35q : 35 ∉ q')
    (hparams : (pr = [] ∧ (s ∈ usesParams ∧ 59 ∈ p1 → splitParams p1 = (p1, []))) ∨
      (pr ≠ [] ∧ s ∈ usesParams ∧ splitParams (p1 ++ 59 :: pr) = (p1, pr))) :
    urlparseE (urlunparseB s n p1 pr q' f) = .ok ⟨s, n, p1, pr, q', f⟩ := by
  rcases hparams with ⟨hpr0, himp⟩ | ⟨hprne, hus, hsp2⟩
  · subst hpr0
    have hun : urlunparseB s n p1 [] q' f = urlunsplitB s n p1 q' f := by
      rw [urlunparseB, if_neg (by simp)]
    have hsplit := urlsplitE_rebuild s n p1 q' f hs hn hp
      (fun b hb => hclean b (by tauto)) h35p h63p h35q
    rw [hun, urlparseE, hsplit]
    by_cases hc : s ∈ usesParams ∧ 59 ∈ p1
    · show (if s ∈ usesParams ∧ 59 ∈ p1 then
          (Except.ok ⟨s, n, (splitParams p1).1, (splitParams p1).2, q', f⟩ :
            Except Unit ParseResultB)
        else .ok ⟨s, n, p1, [], q', f⟩) = .ok ⟨s, n, p1, [], q', f⟩
      rw [if_pos hc, himp hc]
    · show (if s ∈ usesParams ∧ 59 ∈ p1 then
          (Except.ok ⟨s, n, (splitParams p1).1, (splitParams p1).2, q', f⟩ :
            Except Unit ParseResultB)
        else .ok ⟨s, n, p1, [], q', f⟩) = .ok ⟨s, n, p1, [], q', f⟩
      rw [if_neg hc]
  · have hun : urlunparseB s n p1 pr q' f =
        urlunsplitB s n (p1 ++ 59 :: pr) q' f := by
      rw [urlunparseB, if_pos hprne]
    obtain ⟨t, hpt⟩ := hprhead hprne
    have hphead : p1 ++ 59 :: pr = [] ∨ ∃ u, p1 ++ 59 :: pr = 47 :: u := by
      subst hpt
      exact Or.inr ⟨t ++ 59 :: pr, rfl⟩
    have h35p2 : 35 ∉ p1 ++ 59 :: pr := by
      rw [List.mem_append, List.mem_cons]
      rintro (h | h | h)
      · exact h35p h
      · omega
      · exact h35pr h
    have h63p2 : 63 ∉ p1 ++ 59 :: pr := by
      rw [List.mem_append, List.mem_cons]
      rintro (h | h | h)
      · exact h63p h
      · omega
      · exact h63pr h
    have hclean2 : ∀ b, (b ∈ p1 ++ 59 :: pr ∨ b ∈ q' ∨ b ∈ f) →
        b ≠ 9 ∧ b ≠ 13 ∧ b ≠ 10 := by
      intro b hb
      rcases hb with hb | hb | hb
      · rw [List.mem_append, List.mem_cons] at hb
        rcases hb with hb | hb | hb
        · exact hclean b (Or.inl hb)
        · omega
        · exact hclean b (Or.inr (Or.inl hb))
      · exact hclean b (Or.inr (Or.inr (Or.inl hb)))
      · exact hclean b (Or.inr (Or.inr (Or.inr hb)))
    have hsplit := urlsplitE_rebuild s n (p1 ++ 59 :: pr) q' f hs hn hphead
      hclean2 h35p2 h63p2 h35q
    rw [hun, urlparseE, hsplit]
    show (if s ∈ usesParams ∧ 59 ∈ p1 ++ 59 :: pr then
        (Except.ok ⟨s, n, (splitParams (p1 ++ 59 :: pr)).1,
          (splitParams (p1 ++ 59 :: pr)).2, q', f⟩ : Except Unit ParseResultB)
      else .ok ⟨s, n, p1 ++ 59 :: pr, [], q', f⟩) = .ok ⟨s, n, p1, pr, q', f⟩
    rw [if_pos ⟨hus, by simp⟩, hsp2]

theorem normalize_eq_error (url : List Nat) (e : Unit)
    (h : urlparseE url = .error e) : normalize_discord_url url = url := by
  rw [normalize_discord_url, h]

theorem normalize_eq_ok (url : List Nat) (r : ParseResultB)
    (h : urlparseE url = .ok r) :
    normalize_discord_url url =
      if r.netloc = cdnHost ∨ r.netloc = mediaHost then
        urlunparseB r.scheme r.netloc r.path r.params
          (if popExpiring (parseQsB r.query) ≠ [] then
            urlencodeB (popExpiring (parseQsB r.query)) else []) r.fragment
      else url := by
  rw [normalize_discord_url, h]

theorem normalize_discord_idem (url : List Nat) (h256 : ∀ b ∈ url, b < 256) :
    normalize_discord_url (normalize_discord_url url) =
      normalize_discord_url url := by
  rcases hp : urlparseE url with e | r
  · rw [normalize_eq_error url e hp]
    exact normalize_eq_error url e hp
  · by_cases hnet : r.netloc = cdnHost ∨ r.netloc = mediaHost
    case neg =>
      rw [normalize_eq_ok url r hp, if_neg hnet]
      rw [normalize_eq_ok url r hp, if_neg hnet]
    case pos =>
      rw [normalize_eq_ok url r hp, if_pos hnet]
      obtain ⟨p, hsplit, hcases⟩ := urlparseE_facts url r hp
      have hfacts := urlsplitE_facts url _ hsplit
      have hs : r.scheme = [] ∨ GoodScheme r.scheme := hfacts.1
      have hmem : ∀ b, (b ∈ r.netloc ∨ b ∈ p ∨ b ∈ r.query ∨ b ∈ r.fragment) →
          b ∈ stripTabCrLf url := hfacts.2.1
      have h35p0 : 35 ∉ p := hfacts.2.2.1
      have h63p0 : 63 ∉ p := hfacts.2.2.2.1
      have hne : r.netloc ≠ [] := by rcases hnet with h | h <;> rw [h] <;> decide
      have hheadp : p = [] ∨ ∃ t, p = 47 :: t := hfacts.2.2.2.2 hne
      have hset : (35 ∉ r.path ∧ 63 ∉ r.path ∧ 35 ∉ r.params ∧ 63 ∉ r.params) ∧
          (∀ b, (b ∈ r.path ∨ b ∈ r.params) → b ∈ p) ∧
          (r.path = [] ∨ ∃ t, r.path = 47 :: t) ∧
          (r.params ≠ [] → ∃ t, r.path = 47 :: t) ∧
          ((r.params = [] ∧ (r.scheme ∈ usesParams ∧ 59 ∈ r.path →
              splitParams r.path = (r.path, []))) ∨
           (r.params ≠ [] ∧ r.scheme ∈ usesParams ∧
              splitParams (r.path ++ 59 :: r.params) = (r.path, r.params))) := by
        rcases hcases with ⟨hsp2, hus, h59⟩ | ⟨hpath_eq, hpr_eq, hnotc⟩
        · have hmm := splitParams_mem p r.path r.params hsp2
          have hstruct := splitParams_structure p r.path r.params hsp2
          have hnos := splitParams_fst_noSemi p r.path r.params hsp2
          refine ⟨⟨fun hc => h35p0 (hmm.1 35 hc), fun hc => h63p0 (hmm.1 63 hc),
              fun hc => h35p0 (hmm.2 35 hc), fun hc => h63p0 (hmm.2 63 hc)⟩,
            ?_, splitParams_fst_head p r.path r.params hsp2 hheadp, ?_, ?_⟩
          · intro b hb
            rcases hb with hb | hb
            · exact hmm.1 b hb
            · exact hmm.2 b hb
          · intro hne2
            rcases hstruct with hstr | ⟨_, hpr⟩
            · rcases hheadp with hp0 | ⟨t, hp47⟩
              · rw [hp0] at hstr
                exact absurd hstr.symm (by simp)
              · rcases hpe : r.path with _ | ⟨c, pt⟩
                · exfalso
                  rw [hpe, hp47, List.nil_append] at hstr
                  injection hstr with h1 _
                  omega
                · rw [hpe, hp47, List.cons_append] at hstr
                  injection hstr with h1 _
                  exact ⟨pt, by rw [← h1]⟩
            · exact absurd hpr hne2
          · by_cases hne2 : r.params = []
            · exact Or.inl ⟨hne2, fun hc => splitParams_of_noSemi r.path hnos⟩
            · refine Or.inr ⟨hne2, hus, ?_⟩
              rcases hstruct with hstr | ⟨_, hpr⟩
              · rw [← hstr]
                exact hsp2
              · exact absurd hpr hne2
        · refine ⟨⟨by rw [hpath_eq]; exact h35p0, by rw [hpath_eq]; exact h63p0,
              by rw [hpr_eq]; simp, by rw [hpr_eq]; simp⟩, ?_, ?_, ?_, ?_⟩
          · intro b hb
            rcases hb with hb | hb
            · rw [hpath_eq] at hb; exact hb
            · rw [hpr_eq] at hb; simp at hb
          · rw [hpath_eq]; exact hheadp
          · intro hne2; exact absurd hpr_eq hne2
          · refine Or.inl ⟨hpr_eq, ?_⟩
            intro hc
            rw [hpath_eq] at hc
            exact absurd hc hnotc
      have hcleanstrip : ∀ b, b ∈ stripTabCrLf url → b ≠ 9 ∧ b ≠ 13 ∧ b ≠ 10 := by
        intro b hb
        have h2 := stripTabCrLf_mem url b hb
        exact ⟨h2.2.1, h2.2.2.1, h2.2.2.2⟩
      have hq256 : ∀ b ∈ r.query, b < 256 := by
        intro b hb
        exact h256 b (stripTabCrLf_mem url b (hmem b (Or.inr (Or.inr (Or.inl hb))))).1
      have hwfq : WFDict (parseQsB r.query) := parseQsB_wf r.query hq256
      have hwff : WFDict (popExpiring (parseQsB r.query)) := popExpiring_wf _ hwfq
      by_cases hfe : popExpiring (parseQsB r.query) = []
      · rw [hfe, if_neg (by simp)]
        have hclean : ∀ b, (b ∈ r.path ∨ b ∈ r.params ∨ b ∈ ([] : List Nat) ∨
            b ∈ r.fragment) → b ≠ 9 ∧ b ≠ 13 ∧ b ≠ 10 := by
          intro b hb
          rcases hb with hb | hb | hb | hb
          · exact hcleanstrip b (hmem b (Or.inr (Or.inl (hset.2.1 b (Or.inl hb)))))
          · exact hcleanstrip b (hmem b (Or.inr (Or.inl (hset.2.1 b (Or.inr hb)))))
          · simp at hb
          · exact hcleanstrip b (hmem b (Or.inr (Or.inr (Or.inr hb))))
        have hreb := urlparseE_rebuild r.scheme r.netloc r.path r.params []
          r.fragment hs hnet hset.2.2.1 hset.2.2.2.1 hclean hset.1.1 hset.1.2.1
          hset.1.2.2.1 hset.1.2.2.2 (by simp) hset.2.2.2.2
        rw [normalize_eq_ok _ _ hreb]
        dsimp only
        rw [if_pos hnet]
        have h0 : popExpiring (parseQsB ([] : List Nat)) = [] := rfl
        rw [h0, if_neg (by simp)]
      · rw [if_pos hfe]
        have hq'clean := urlencodeB_clean _ hwff
        have hclean : ∀ b, (b ∈ r.path ∨ b ∈ r.params ∨
            b ∈ urlencodeB (popExpiring (parseQsB r.query)) ∨
            b ∈ r.fragment) → b ≠ 9 ∧ b ≠ 13 ∧ b ≠ 10 := by
          intro b hb
          rcases hb with hb | hb | hb | hb
          · exact hcleanstrip b (hmem b (Or.inr (Or.inl (hset.2.1 b (Or.inl hb)))))
          · exact hcleanstrip b (hmem b (Or.inr (Or.inl (hset.2.1 b (Or.inr hb)))))
          · have h2 := hq'clean b hb
            exact ⟨h2.1, h2.2.1, h2.2.2.1⟩
          · exact hcleanstrip b (hmem b (Or.inr (Or.inr (Or.inr hb))))
        have h35q : 35 ∉ urlencodeB (popExpiring (parseQsB r.query)) := by
          intro hc
          exact (hq'clean 35 hc).2.2.2.1 rfl
        have hreb := urlparseE_rebuild r.scheme r.netloc r.path r.params
          (urlencodeB (popExpiring (parseQsB r.query)))
          r.fragment hs hnet hset.2.2.1 hset.2.2.2.1 hclean hset.1.1 hset.1.2.1
          hset.1.2.2.1 hset.1.2.2.2 h35q hset.2.2.2.2
        rw [normalize_eq_ok _ _ hreb]
        dsimp only
        rw [if_pos hnet, parseQsB_enc _ hwff, popExpiring_idem, if_pos hfe]

/-- C10: `normalize_discord_url` (media-sync.py lines 47-65) returns its
argument unchanged for every URL whose parsed host is neither
`cdn.discordapp.com` nor `media.discordapp.net`, and for every input on
which `urlparse` raises; and it is idempotent: applying it twice to any
byte string yields the same result as applying it once. -/
theorem C10_normalize_identity_idempotent (url : List Nat) :
    (∀ e, urlparseE url = .error e → normalize_discord_url url = url) ∧
    (∀ r, urlparseE url = .ok r → r.netloc ≠ cdnHost → r.netloc ≠ mediaHost →
      normalize_discord_url url = url) ∧
    ((∀ b ∈ url, b < 256) →
      normalize_discord_url (normalize_discord_url url) =
        normalize_discord_url url) := by
  refine ⟨?_, ?_, normalize_discord_idem url⟩
  · intro e he
    exact normalize_eq_error url e he
  · intro r hr hcdn hmedia
    rw [normalize_eq_ok url r hr,
      if_neg (by rintro (h | h); exacts [hcdn h, hmedia h])]

/-- C10 witness: a concrete Discord CDN URL with expiring parameters is
already a fixed point after one normalization. -/
theorem C10_normalize_identity_idempotent_witness :
    (∀ b ∈ bytesOf
      "https://cdn.discordapp.com/attachments/1/2/file.png?ex=66&is=55&hm=aa&id=7",
      b < 256) ∧
    normalize_discord_url (normalize_discord_url (bytesOf
      "https://cdn.discordapp.com/attachments/1/2/file.png?ex=66&is=55&hm=aa&id=7")) =
      normalize_discord_url (bytesOf
        "https://cdn.discordapp.com/attachments/1/2/file.png?ex=66&is=55&hm=aa&id=7") :=
  ⟨by decide, (C10_normalize_identity_idempotent _).2.2 (by decide)⟩
